import Mathlib

/-!
The program cliphis, a clipboard history manager (`main.go`).

A shallow embedding of the history store (`saveClipboardItem`, `loadHistory`,
`clearHistory`), the clipboard monitor, and the tray menu synchroniser
(`refreshMenu`, `updateMenuDisplay`, the click handlers), with the properties
of the specification stated and proved over it.

Modelling conventions.

* A Go `string` is a byte string, `Bytes`.  It need not be valid UTF-8: the
  text `pbpaste` prints is taken as it comes.  `runes` is the sequence of
  runes of a `range` loop over the string (`none` for a byte that starts no
  valid encoding), `chars` is the conversion `[]rune(s)`, which turns every
  such byte into U+FFFD, and `utf8` writes characters back as bytes.  A Go
  string constant `"..."` is `str "..."`.
* `Timestamp` is `float64(time.Now().Unix())`, a whole number of seconds; it
  is modelled by that integer (exact for magnitudes up to 2^53), written in
  JSON as its decimal digits.  Numbers with a fraction or an exponent are
  read as JSON but are outside this model of timestamps.
* The history file is `Option Bytes`: `none` when `os.ReadFile` fails,
  otherwise the bytes of the file.
* `encoding/json` is modelled in namespace `Json`: `marshalIndent` is the
  output of `json.MarshalIndent(items, "", "  ")` at type `[]ClipboardItem`,
  `unmarshal` is the value left in `items` by `json.Unmarshal(data, &items)`
  (whose error the program discards).  The JSON text is handled as
  characters: the writer produces `marshalText` and the file holds its UTF-8
  encoding; the reader works on `chars data`.
* The clock, the outcome of `os.WriteFile` and the output of `pbpaste` are
  inputs of the operations that consult them.  A failed write leaves the file
  as it was when the file could not be opened, and otherwise leaves the first
  bytes of the data, as many as were written (`WriteResult`).
* The goroutines run one at a time under `menuMutex`; an execution is a
  sequence of calls of the operations below.
-/

namespace Cliphis

/-- Byte strings: the values of the Go type `string`. -/
abbrev Bytes := List UInt8

/-- The record `ClipboardItem` of `main.go`. -/
structure ClipboardItem where
  Content : Bytes
  Timestamp : Int
  ID : Bytes
deriving DecidableEq, Repr

/-! ## UTF-8 (`unicode/utf8`) -/

/-- The UTF-8 encoding of a character (`utf8.AppendRune`). -/
def encodeRune (c : Char) : Bytes :=
  if c.toNat < 128 then [UInt8.ofNat c.toNat]
  else if c.toNat < 2048 then
    [UInt8.ofNat (192 + c.toNat / 64), UInt8.ofNat (128 + c.toNat % 64)]
  else if c.toNat < 65536 then
    [UInt8.ofNat (224 + c.toNat / 4096), UInt8.ofNat (128 + c.toNat / 64 % 64),
      UInt8.ofNat (128 + c.toNat % 64)]
  else
    [UInt8.ofNat (240 + c.toNat / 262144), UInt8.ofNat (128 + c.toNat / 4096 % 64),
      UInt8.ofNat (128 + c.toNat / 64 % 64), UInt8.ofNat (128 + c.toNat % 64)]

/-- The UTF-8 encoding of a text. -/
def utf8 (cs : List Char) : Bytes := cs.flatMap encodeRune

/-- The Go string constant written `"..."`. -/
def str (s : String) : Bytes := utf8 s.data

/-- A continuation byte, `0x80` to `0xBF`. -/
def isCont (b : UInt8) : Bool := decide (128 ≤ b.toNat) && decide (b.toNat ≤ 191)

/-- The function `utf8.DecodeRune` on a non-empty byte string: the rune at
its start and the number of bytes it takes, or `none` and 1 when the first
byte starts no valid encoding (Go's `RuneError` of width 1).  The second byte
of a three- or four-byte encoding has a narrower range after the lead bytes
`0xE0`, `0xED`, `0xF0` and `0xF4`, which rules out overlong encodings,
surrogates and values above U+10FFFF. -/
def decodeRune : Bytes → Option Char × Nat
  | [] => (none, 0)
  | b0 :: r =>
    if b0.toNat < 128 then (some (Char.ofNat b0.toNat), 1)
    else if 194 ≤ b0.toNat ∧ b0.toNat ≤ 223 then
      match r with
      | b1 :: _ =>
        if isCont b1 then (some (Char.ofNat ((b0.toNat - 192) * 64 + (b1.toNat - 128))), 2)
        else (none, 1)
      | _ => (none, 1)
    else if 224 ≤ b0.toNat ∧ b0.toNat ≤ 239 then
      match r with
      | b1 :: b2 :: _ =>
        if (if b0.toNat = 224 then 160 else 128) ≤ b1.toNat ∧
            b1.toNat ≤ (if b0.toNat = 237 then 159 else 191) ∧ isCont b2 then
          (some (Char.ofNat
            ((b0.toNat - 224) * 4096 + (b1.toNat - 128) * 64 + (b2.toNat - 128))), 3)
        else (none, 1)
      | _ => (none, 1)
    else if 240 ≤ b0.toNat ∧ b0.toNat ≤ 244 then
      match r with
      | b1 :: b2 :: b3 :: _ =>
        if (if b0.toNat = 240 then 144 else 128) ≤ b1.toNat ∧
            b1.toNat ≤ (if b0.toNat = 244 then 143 else 191) ∧ isCont b2 ∧ isCont b3 then
          (some (Char.ofNat
            ((b0.toNat - 240) * 262144 + (b1.toNat - 128) * 4096 + (b2.toNat - 128) * 64 +
              (b3.toNat - 128))), 4)
        else (none, 1)
      | _ => (none, 1)
    else (none, 1)

/-- The runes of a byte string with the bytes of each, as a `range` loop
meets them; `skip` counts the bytes still belonging to the rune read last. -/
def segmentsFrom : Nat → Bytes → List (Option Char × Bytes)
  | _, [] => []
  | skip + 1, _ :: r => segmentsFrom skip r
  | 0, b :: r =>
    ((decodeRune (b :: r)).1, (b :: r).take (decodeRune (b :: r)).2) ::
      segmentsFrom ((decodeRune (b :: r)).2 - 1) r

/-- The runes of a byte string, `none` for a byte that starts no valid encoding. -/
def runes (s : Bytes) : List (Option Char) := (segmentsFrom 0 s).map Prod.fst

/-- The replacement character U+FFFD. -/
def replacementChar : Char := Char.ofNat 65533

/-- The conversion `[]rune(s)`: every byte that starts no valid encoding
becomes U+FFFD. -/
def chars (s : Bytes) : List Char := (runes s).map fun p => p.getD replacementChar

/-- The string with every byte that starts no valid encoding replaced by
the encoding of U+FFFD: what `encoding/json` keeps of a string. -/
def toValidUTF8 (s : Bytes) : Bytes := utf8 (chars s)

/-- The function `utf8.Valid`: no byte of the string starts an invalid encoding. -/
def ValidUTF8 (s : Bytes) : Prop := ∀ p ∈ runes s, p ≠ none

instance (s : Bytes) : Decidable (ValidUTF8 s) := by
  unfold ValidUTF8
  infer_instance

/-! ## Decimal formatting (`%d`, and whole `float64` values in JSON) -/

/-- The character of a decimal digit. -/
def digitChar (d : Nat) : Char := Char.ofNat (48 + d)

/-- Decimal digits of `n`, most significant first; `fuel` bounds the number of digits. -/
def decimalFuel : Nat → Nat → List Char
  | 0, n => [digitChar (n % 10)]
  | fuel + 1, n =>
    if n < 10 then [digitChar n] else decimalFuel fuel (n / 10) ++ [digitChar (n % 10)]

/-- Decimal representation of a natural number. -/
def decimal (n : Nat) : List Char := decimalFuel n n

/-- Decimal representation of an integer, as printed by `%d`. -/
def formatInt : Int → List Char
  | Int.ofNat n => decimal n
  | Int.negSucc n => '-' :: decimal (n + 1)

namespace Json

/-! ## Model of `encoding/json`: writing -/

/-- The double quote. -/
def quote : Char := Char.ofNat 34

/-- The backslash. -/
def backslash : Char := Char.ofNat 92

/-- The opening brace. -/
def lbrace : Char := Char.ofNat 123

/-- The closing brace. -/
def rbrace : Char := Char.ofNat 125

/-- Lower-case hexadecimal digit, the table `hex` of the encoder. -/
def hexDigit (n : Nat) : Char :=
  if n < 10 then Char.ofNat (48 + n) else Char.ofNat (87 + n)

/-- The encoding of one character inside a JSON string literal, with HTML
escaping on as in json.Marshal: quote and backslash get a backslash; backspace,
form feed, newline, carriage return and tab get their short escape; the other
control characters and the characters less-than, greater-than and ampersand
are written as a backslash, the letter u and four hexadecimal digits; so are
U+2028 and U+2029.  Every other character is written as itself. -/
def escapeChar (c : Char) : List Char :=
  if c = quote then [backslash, quote]
  else if c = backslash then [backslash, backslash]
  else if c = Char.ofNat 8 then [backslash, 'b']
  else if c = Char.ofNat 12 then [backslash, 'f']
  else if c = Char.ofNat 10 then [backslash, 'n']
  else if c = Char.ofNat 13 then [backslash, 'r']
  else if c = Char.ofNat 9 then [backslash, 't']
  else if c.toNat < 32 ∨ c = '<' ∨ c = '>' ∨ c = '&' then
    [backslash, 'u', '0', '0', hexDigit (c.toNat / 16), hexDigit (c.toNat % 16)]
  else if c = Char.ofNat 8232 ∨ c = Char.ofNat 8233 then
    [backslash, 'u', '2', '0', '2', hexDigit (c.toNat % 16)]
  else [c]

/-- The text written for one rune of a string: a byte that starts no valid
encoding is written as the escape of U+FFFD, a character as `escapeChar` has it. -/
def escapeRune : Option Char → List Char
  | none => [backslash, 'u', 'f', 'f', 'f', 'd']
  | some c => escapeChar c

/-- The JSON string literal written for a Go string. -/
def encodeString (s : Bytes) : List Char :=
  quote :: ((runes s).flatMap escapeRune ++ [quote])

/-- The object of one entry, as written inside the array: keys in field
order, each member on its own line at indent level 2, the closing brace at
indent level 1. -/
def encodeObject (it : ClipboardItem) : List Char :=
  [lbrace, '\n'] ++
  [' ', ' ', ' ', ' '] ++ encodeString (str "content") ++ [':', ' '] ++
    encodeString it.Content ++ [',', '\n'] ++
  [' ', ' ', ' ', ' '] ++ encodeString (str "timestamp") ++ [':', ' '] ++
    formatInt it.Timestamp ++ [',', '\n'] ++
  [' ', ' ', ' ', ' '] ++ encodeString (str "id") ++ [':', ' '] ++
    encodeString it.ID ++ ['\n'] ++
  [' ', ' ', rbrace]

/-- One array element at indent level 1. -/
def encodeItem (it : ClipboardItem) : List Char :=
  [' ', ' '] ++ encodeObject it

/-- The elements of a non-empty array, separated by a comma and a newline. -/
def encodeItems : List ClipboardItem → List Char
  | [] => []
  | [it] => encodeItem it
  | it :: rest => encodeItem it ++ [',', '\n'] ++ encodeItems rest

/-- The text `json.MarshalIndent(items, "", "  ")` produces for a non-nil
slice: `[]` for the empty slice, otherwise one indented object per entry. -/
def marshalText (items : List ClipboardItem) : List Char :=
  match items with
  | [] => ['[', ']']
  | _ => ['[', '\n'] ++ encodeItems items ++ ['\n', ']']

/-- The bytes `json.MarshalIndent(items, "", "  ")` returns. -/
def marshalIndent (items : List ClipboardItem) : Bytes := utf8 (marshalText items)

/-! ## Model of `encoding/json`: reading -/

/-- A parsed JSON text.  A number keeps its value when the literal is a plain
integer (an optional minus sign and digits); a literal with a fraction or an
exponent is not a whole-second timestamp and keeps no value. -/
inductive Value where
  | null
  | bool (b : Bool)
  | number (whole : Option Int)
  | string (s : List Char)
  | array (elems : List Value)
  | object (members : List (List Char × Value))

/-- JSON white space: space, tab, carriage return, newline. -/
def isSpace (c : Char) : Bool :=
  c = ' ' || c = Char.ofNat 9 || c = Char.ofNat 13 || c = Char.ofNat 10

/-- Drop leading white space. -/
def skipSpace : List Char → List Char
  | [] => []
  | c :: cs => if isSpace c then skipSpace cs else c :: cs

/-- Value of a hexadecimal digit, either case. -/
def hexVal (c : Char) : Option Nat :=
  if 48 ≤ c.toNat ∧ c.toNat ≤ 57 then some (c.toNat - 48)
  else if 97 ≤ c.toNat ∧ c.toNat ≤ 102 then some (c.toNat - 87)
  else if 65 ≤ c.toNat ∧ c.toNat ≤ 70 then some (c.toNat - 55)
  else none

/-- The number written by four hexadecimal digits (`getu4` of the decoder). -/
def getu4 (a b c d : Char) : Option Nat :=
  match hexVal a, hexVal b, hexVal c, hexVal d with
  | some x, some y, some z, some w => some (((x * 16 + y) * 16 + z) * 16 + w)
  | _, _, _, _ => none

/-- The character of a one-letter escape. -/
def simpleEscape (e : Char) : Option Char :=
  if e = quote then some quote
  else if e = backslash then some backslash
  else if e = '/' then some '/'
  else if e = 'b' then some (Char.ofNat 8)
  else if e = 'f' then some (Char.ofNat 12)
  else if e = 'n' then some (Char.ofNat 10)
  else if e = 'r' then some (Char.ofNat 13)
  else if e = 't' then some (Char.ofNat 9)
  else none

/-- What a string literal contributes to the decoded string, piece by piece:
a character, or a UTF-16 surrogate written as a `u` escape. -/
inductive CodeUnit where
  | char (c : Char)
  | surrogate (n : Nat)

/-- Put a piece in front of the string being read. -/
def consUnit (u : CodeUnit) (r : Option (List CodeUnit × List Char)) :
    Option (List CodeUnit × List Char) :=
  match r with
  | some (s, rest) => some (u :: s, rest)
  | none => none

/-- The piece written by a `u` escape with value `n`. -/
def escapedUnit (n : Nat) : CodeUnit :=
  if 55296 ≤ n ∧ n < 57344 then CodeUnit.surrogate n else CodeUnit.char (Char.ofNat n)

/-- Read a string literal from just after its opening quote: its pieces and
the text after the closing quote.  A raw control character, an unknown escape,
a `u` escape without four hexadecimal digits or a missing closing quote is a
syntax error. -/
def parseUnits : List Char → Option (List CodeUnit × List Char)
  | [] => none
  | c :: cs =>
    if c = quote then some ([], cs)
    else if c = backslash then
      match cs with
      | [] => none
      | e :: r =>
        if e = 'u' then
          match r with
          | h1 :: h2 :: h3 :: h4 :: r2 =>
            match getu4 h1 h2 h3 h4 with
            | none => none
            | some n => consUnit (escapedUnit n) (parseUnits r2)
          | _ => none
        else
          match simpleEscape e with
          | some ch => consUnit (CodeUnit.char ch) (parseUnits r)
          | none => none
    else if c.toNat < 32 then none
    else consUnit (CodeUnit.char c) (parseUnits cs)

/-- The decoded string (`unquote`): a high surrogate directly followed by a
low surrogate is the character they encode; any other surrogate is replaced by
U+FFFD.  `pending` is a high surrogate just read and not yet paired. -/
def fuse : Option Nat → List CodeUnit → List Char
  | none, [] => []
  | some _, [] => [replacementChar]
  | none, CodeUnit.char c :: rest => c :: fuse none rest
  | some _, CodeUnit.char c :: rest => replacementChar :: c :: fuse none rest
  | none, CodeUnit.surrogate n :: rest =>
    if n < 56320 then fuse (some n) rest else replacementChar :: fuse none rest
  | some h, CodeUnit.surrogate n :: rest =>
    if 56320 ≤ n then Char.ofNat ((h - 55296) * 1024 + (n - 56320) + 65536) :: fuse none rest
    else replacementChar :: fuse (some n) rest

/-- Read a string literal from just after its opening quote: the string and
the text after the closing quote. -/
def parseString (cs : List Char) : Option (List Char × List Char) :=
  match parseUnits cs with
  | some (us, rest) => some (fuse none us, rest)
  | none => none

/-- Decimal digit test. -/
def isDigit (c : Char) : Bool := decide (48 ≤ c.toNat) && decide (c.toNat ≤ 57)

/-- Split off the leading decimal digits, accumulating their value. -/
def takeDigits : Nat → List Char → Nat × List Char
  | acc, [] => (acc, [])
  | acc, c :: cs => if isDigit c then takeDigits (10 * acc + (c.toNat - 48)) cs else (acc, c :: cs)

/-- Read at least one digit. -/
def someDigits : List Char → Option (List Char)
  | [] => none
  | c :: cs => if isDigit c then some (takeDigits 0 cs).2 else none

/-- The optional fraction of a number: whether there is one, and the rest. -/
def parseFrac : List Char → Option (Bool × List Char)
  | [] => some (false, [])
  | c :: cs =>
    if c = '.' then
      match someDigits cs with
      | some r => some (true, r)
      | none => none
    else some (false, c :: cs)

/-- The optional exponent of a number: whether there is one, and the rest. -/
def parseExp : List Char → Option (Bool × List Char)
  | [] => some (false, [])
  | c :: cs =>
    if c = 'e' ∨ c = 'E' then
      match cs with
      | [] => none
      | s :: r =>
        if s = '+' ∨ s = '-' then
          match someDigits r with
          | some r2 => some (true, r2)
          | none => none
        else
          match someDigits (s :: r) with
          | some r2 => some (true, r2)
          | none => none
    else some (false, c :: cs)

/-- The integer part of a number: a single `0`, or a non-zero digit followed by digits. -/
def parseIntPart : List Char → Option (Nat × List Char)
  | [] => none
  | d :: r =>
    if d = '0' then some (0, r)
    else if isDigit d then some (takeDigits 0 (d :: r))
    else none

/-- Read a number literal after its optional minus sign; `neg` tells whether
there was one. -/
def parseUnsigned (neg : Bool) (cs : List Char) : Option (Option Int × List Char) :=
  match parseIntPart cs with
  | none => none
  | some (n, r1) =>
    match parseFrac r1 with
    | none => none
    | some (hasFrac, r2) =>
      match parseExp r2 with
      | none => none
      | some (hasExp, r3) =>
        if hasFrac || hasExp then some (none, r3)
        else some (some (if neg then - (n : Int) else (n : Int)), r3)

/-- Read a number literal. -/
def parseNumber : List Char → Option (Option Int × List Char)
  | [] => none
  | c :: r => if c = '-' then parseUnsigned true r else parseUnsigned false (c :: r)

/-- Read the rest of a literal name (`true`, `false`, `null`). -/
def expectWord : List Char → List Char → Option (List Char)
  | [], cs => some cs
  | _ :: _, [] => none
  | w :: ws, c :: cs => if c = w then expectWord ws cs else none

/-- The deepest nesting of arrays and objects the scanner accepts
(`maxNestingDepth`). -/
def maxNestingDepth : Nat := 10000

mutual

/-- Read one JSON value from the start of the text (no leading white space):
the value and the text after it.  `depth` is the number of arrays and objects
open around the value; opening one more beyond `maxNestingDepth` is an error.
`fuel` bounds the nesting and the number of array elements and object members
read; the length of the text is enough. -/
def parseValue : Nat → Nat → List Char → Option (Value × List Char)
  | 0, _, _ => none
  | fuel + 1, depth, cs =>
    match cs with
    | [] => none
    | c :: rest =>
      if c = quote then
        match parseString rest with
        | some (s, r) => some (Value.string s, r)
        | none => none
      else if c = '[' then
        if maxNestingDepth ≤ depth then none
        else
          match skipSpace rest with
          | [] => none
          | c1 :: r1 =>
            if c1 = ']' then some (Value.array [], r1)
            else
              match parseElements fuel (depth + 1) (c1 :: r1) with
              | some (vs, r) => some (Value.array vs, r)
              | none => none
      else if c = lbrace then
        if maxNestingDepth ≤ depth then none
        else
          match skipSpace rest with
          | [] => none
          | c1 :: r1 =>
            if c1 = rbrace then some (Value.object [], r1)
            else
              match parseMembers fuel (depth + 1) (c1 :: r1) with
              | some (ms, r) => some (Value.object ms, r)
              | none => none
      else if c = 't' then
        match expectWord ['r', 'u', 'e'] rest with
        | some r => some (Value.bool true, r)
        | none => none
      else if c = 'f' then
        match expectWord ['a', 'l', 's', 'e'] rest with
        | some r => some (Value.bool false, r)
        | none => none
      else if c = 'n' then
        match expectWord ['u', 'l', 'l'] rest with
        | some r => some (Value.null, r)
        | none => none
      else
        match parseNumber (c :: rest) with
        | some (n, r) => some (Value.number n, r)
        | none => none

/-- Read the elements of a non-empty array up to and including the closing
bracket; `depth` counts the array itself. -/
def parseElements : Nat → Nat → List Char → Option (List Value × List Char)
  | 0, _, _ => none
  | fuel + 1, depth, cs =>
    match parseValue fuel depth cs with
    | none => none
    | some (v, r) =>
      match skipSpace r with
      | [] => none
      | c :: r1 =>
        if c = ',' then
          match parseElements fuel depth (skipSpace r1) with
          | some (vs, r2) => some (v :: vs, r2)
          | none => none
        else if c = ']' then some ([v], r1)
        else none

/-- Read the members of a non-empty object up to and including the closing
brace; `depth` counts the object itself. -/
def parseMembers : Nat → Nat → List Char → Option (List (List Char × Value) × List Char)
  | 0, _, _ => none
  | fuel + 1, depth, cs =>
    match cs with
    | [] => none
    | q :: r0 =>
      if q = quote then
        match parseString r0 with
        | none => none
        | some (k, r) =>
          match skipSpace r with
          | [] => none
          | c :: r1 =>
            if c = ':' then
              match parseValue fuel depth (skipSpace r1) with
              | none => none
              | some (v, r2) =>
                match skipSpace r2 with
                | [] => none
                | c2 :: r3 =>
                  if c2 = ',' then
                    match parseMembers fuel depth (skipSpace r3) with
                    | some (ms, r4) => some ((k, v) :: ms, r4)
                    | none => none
                  else if c2 = rbrace then some ([(k, v)], r3)
                  else none
            else none
      else none

end

/-- Parse a whole text as one JSON value surrounded by optional white space
(`checkValid`): `none` is a syntax error, nesting deeper than
`maxNestingDepth` included. -/
def parseDocument (data : List Char) : Option Value :=
  match parseValue (data.length + 1) 0 (skipSpace data) with
  | some (v, r) => if skipSpace r = [] then some v else none
  | none => none

/-- Case folding of a key character for field lookup: ASCII letters, and the
two characters U+017F and U+212A whose simple case folding is an ASCII letter. -/
def foldChar (c : Char) : Char :=
  if 65 ≤ c.toNat ∧ c.toNat ≤ 90 then Char.ofNat (c.toNat + 32)
  else if c = Char.ofNat 383 then 's'
  else if c = Char.ofNat 8490 then 'k'
  else c

/-- A key selects the field with this (lower-case) JSON name: exactly, or up to case. -/
def keyIs (name : String) (key : List Char) : Bool :=
  key.map foldChar = name.data

/-- Store one object member into the entry being decoded.  A value of the
wrong JSON type for its field (and `null`) leaves the field as it is; a key
naming no field is skipped.  A number that is not a plain integer literal is
outside the whole-second model of `Timestamp` and is not stored. -/
def setField (it : ClipboardItem) (kv : List Char × Value) : ClipboardItem :=
  if keyIs "content" kv.1 then
    match kv.2 with
    | Value.string s => { it with Content := utf8 s }
    | _ => it
  else if keyIs "timestamp" kv.1 then
    match kv.2 with
    | Value.number (some n) => { it with Timestamp := n }
    | _ => it
  else if keyIs "id" kv.1 then
    match kv.2 with
    | Value.string s => { it with ID := utf8 s }
    | _ => it
  else it

/-- Decode one array element into a fresh (zero) entry: the members of an
object are stored in order; any other value leaves the zero entry. -/
def decodeItem : Value → ClipboardItem
  | Value.object ms => ms.foldl setField ⟨[], 0, []⟩
  | _ => ⟨[], 0, []⟩

/-- Decode the top-level value into the slice: one entry per array element;
`null` and any value that is not an array leave the slice nil. -/
def decodeItems : Value → List ClipboardItem
  | Value.array vs => vs.map decodeItem
  | _ => []

/-- The slice left in `items` by `json.Unmarshal(data, &items)` starting from
a nil slice: nothing is stored when the text is not valid JSON; otherwise the
text is decoded as far as its values fit the fields.  The reader sees the
bytes as the characters `chars data`: a byte that starts no valid encoding is
an error outside a string literal and U+FFFD inside one. -/
def unmarshal (data : Bytes) : List ClipboardItem :=
  match parseDocument (chars data) with
  | none => []
  | some v => decodeItems v

end Json

/-! ## The history store -/

/-- The history file as `os.ReadFile` sees it: `none` when it cannot be read. -/
abbrev File := Option Bytes

/-- The history file together with the number of `os.WriteFile` calls made on it. -/
structure Disk where
  file : File
  writes : Nat
deriving DecidableEq

/-- How a call of `os.WriteFile` ends.  The call opens the file, which
truncates it, writes the data and closes the file.  `ok`: the error is nil and
the file holds the data.  `failed none`: the file could not be opened and is
as it was.  `failed (some n)`: the file was opened, and the call failed after
`n` bytes of the data were written. -/
inductive WriteResult where
  | ok
  | failed (written : Option Nat)
deriving DecidableEq

/-- The call `os.WriteFile(m.historyFile, data, 0644)` ending as `res` says. -/
def writeFile (d : Disk) (data : Bytes) (res : WriteResult) : Disk :=
  { file :=
      match res with
      | WriteResult.ok => some data
      | WriteResult.failed none => d.file
      | WriteResult.failed (some n) => some (data.take n),
    writes := d.writes + 1 }

/-- The method `loadHistory`: an empty list when the file cannot be read,
otherwise whatever `json.Unmarshal` stored. -/
def loadHistory (file : File) : List ClipboardItem :=
  match file with
  | none => []
  | some data => Json.unmarshal data

/-- The two clock readings of `saveClipboardItem`. -/
structure Clock where
  unix : Int
  unixNano : Int
deriving DecidableEq

/-- The id of a new entry, `fmt.Sprintf("%d-%d", time.Now().UnixNano(), len(items))`. -/
def newID (unixNano : Int) (len : Nat) : Bytes :=
  utf8 (formatInt unixNano ++ '-' :: formatInt (Int.ofNat len))

/-- The loop `for i := len(items) - 1; i >= 0; i--` of `saveClipboardItem`,
with `n` standing for `i + 1`: the entry at index `i` is cut out of the slice
when its content is the new content. -/
def removeLoop (content : Bytes) : Nat → List ClipboardItem → List ClipboardItem
  | 0, items => items
  | i + 1, items =>
    match items[i]? with
    | some it =>
      if it.Content = content then removeLoop content i (items.eraseIdx i)
      else removeLoop content i items
    | none => removeLoop content i items

/-- The method `saveClipboardItem`. -/
def saveClipboardItem (d : Disk) (now : Clock) (res : WriteResult) (content : Bytes) : Disk :=
  if content = [] then d
  else
    let items := loadHistory d.file
    let newItem : ClipboardItem :=
      { Content := content, Timestamp := now.unix, ID := newID now.unixNano items.length }
    let items := removeLoop content items.length items
    let items := newItem :: items
    let items := if items.length > 100 then items.take 100 else items
    writeFile d (Json.marshalIndent items) res

/-! ## The clipboard monitor -/

/-- White space in the sense of `unicode.IsSpace`. -/
def isGoSpace (c : Char) : Bool :=
  let n := c.toNat
  n = 32 || (9 ≤ n && n ≤ 13) || n = 133 || n = 160 || n = 5760 || (8192 ≤ n && n ≤ 8202) ||
    n = 8232 || n = 8233 || n = 8239 || n = 8287 || n = 12288

/-- Whether a rune of a string, with its bytes, is white space; a byte that
starts no valid encoding is not. -/
def isSpaceRune (p : Option Char × Bytes) : Bool :=
  match p.1 with
  | some c => isGoSpace c
  | none => false

/-- The function `strings.TrimSpace`: the string without the white-space
runes at its start and at its end. -/
def trimSpace (s : Bytes) : Bytes :=
  ((((segmentsFrom 0 s).dropWhile isSpaceRune).reverse.dropWhile isSpaceRune).reverse).flatMap
    Prod.snd

/-- The method `readClipboard`; `output` is what `pbpaste` printed, `none`
when running it failed. -/
def readClipboard (output : Option Bytes) : Bytes :=
  match output with
  | none => []
  | some out => trimSpace out

/-- One tick of `startClipboardMonitor`: the new value of `lastContent` and the disk. -/
def monitorTick (lastContent : Bytes) (d : Disk) (output : Option Bytes) (now : Clock)
    (res : WriteResult) : Bytes × Disk :=
  let content := readClipboard output
  if content ≠ lastContent ∧ content ≠ [] then (content, saveClipboardItem d now res content)
  else (lastContent, d)

/-! ## The tray menu -/

/-- A menu item of the tray: what `SetTitle`, `Enable`/`Disable` and
`Show`/`Hide` leave on it. -/
structure MenuItem where
  title : Bytes
  disabled : Bool
  hidden : Bool
deriving DecidableEq

/-- The item made by `systray.AddMenuItem(title, "")`. -/
def AddMenuItem (title : Bytes) : MenuItem := { title := title, disabled := false, hidden := false }

/-- The method `SetTitle`. -/
def MenuItem.SetTitle (it : MenuItem) (title : Bytes) : MenuItem := { it with title := title }

/-- The method `Enable`. -/
def MenuItem.Enable (it : MenuItem) : MenuItem := { it with disabled := false }

/-- The method `Disable`. -/
def MenuItem.Disable (it : MenuItem) : MenuItem := { it with disabled := true }

/-- The method `Show`. -/
def MenuItem.Show (it : MenuItem) : MenuItem := { it with hidden := false }

/-- The method `Hide`. -/
def MenuItem.Hide (it : MenuItem) : MenuItem := { it with hidden := true }

/-- The fields of `ClipboardManager` the menu code reads and writes. -/
structure ClipboardManager where
  menuItems : List MenuItem
  clipboardItems : List ClipboardItem
  maxMenuItems : Nat
  handlersSetup : Bool
deriving DecidableEq

/-- The constructor `NewClipboardManager`. -/
def NewClipboardManager : ClipboardManager :=
  { menuItems := [], clipboardItems := [], maxMenuItems := 25, handlersSetup := false }

/-- Apply `f` to the item at index `i`. -/
def updateAt (f : MenuItem → MenuItem) : Nat → List MenuItem → List MenuItem
  | _, [] => []
  | 0, m :: ms => f m :: ms
  | i + 1, m :: ms => m :: updateAt f i ms

/-- The call `strings.ReplaceAll(s, old, new)` for one-byte `old` and `new`. -/
def replaceAll (old new : UInt8) (s : Bytes) : Bytes :=
  s.map fun b => if b = old then new else b

/-- The label of an entry: `content` cut to 47 bytes and `...` when it is
longer than 50 bytes, then newlines and tabs replaced by spaces. -/
def label (content : Bytes) : Bytes :=
  let content := if content.length > 50 then content.take 47 ++ str "..." else content
  let content := replaceAll 10 32 content
  replaceAll 9 32 content

/-- The title of slot `i`, `fmt.Sprintf("%d. %s", i+1, content)`. -/
def slotTitle (i : Nat) (content : Bytes) : Bytes :=
  utf8 (decimal (i + 1)) ++ str ". " ++ label content

/-- The body of the loop of `updateMenuDisplay` on the item of slot `i`:
`SetTitle`, `Enable`, `Show`. -/
def renderSlot (i : Nat) (item : ClipboardItem) (it : MenuItem) : MenuItem :=
  ((it.SetTitle (slotTitle i item.Content)).Enable).Show

/-- The loop `for i, item := range displayItems` of `updateMenuDisplay`,
from index `i` on; it stops when `i` reaches the number of menu items. -/
def renderLoop : Nat → List ClipboardItem → List MenuItem → List MenuItem
  | _, [], menu => menu
  | i, item :: rest, menu =>
    if i ≥ menu.length then menu
    else renderLoop (i + 1) rest (updateAt (renderSlot i item) i menu)

/-- The title of the placeholder. -/
def noHistoryTitle : Bytes := str "No clipboard history"

/-- The method `updateMenuDisplay`. -/
def updateMenuDisplay (m : ClipboardManager) (items : List ClipboardItem) : ClipboardManager :=
  let menu := m.menuItems.map MenuItem.Hide
  let displayItems := if items.length > m.maxMenuItems then items.take m.maxMenuItems else items
  if displayItems.length = 0 then
    if menu.length > 0 then
      { m with menuItems :=
          updateAt (fun it => ((it.SetTitle noHistoryTitle).Disable).Show) 0 menu }
    else { m with menuItems := menu }
  else { m with menuItems := renderLoop 0 displayItems menu }

/-- The method `clearHistory`: when the write fails nothing else is done. -/
def clearHistory (m : ClipboardManager) (d : Disk) (res : WriteResult) :
    ClipboardManager × Disk :=
  let items : List ClipboardItem := []
  let d1 := writeFile d (Json.marshalIndent items) res
  match res with
  | WriteResult.failed _ => (m, d1)
  | WriteResult.ok => (updateMenuDisplay { m with clipboardItems := items } items, d1)

/-- The comparison loop of `refreshMenu`, from index `i` on: `false` as soon
as `i` is outside the cached slice or the ids at `i` differ. -/
def sameIDs (cached : List ClipboardItem) : Nat → List ClipboardItem → Bool
  | _, [] => true
  | i, item :: rest =>
    match cached[i]? with
    | none => false
    | some c => if item.ID ≠ c.ID then false else sameIDs cached (i + 1) rest

/-- The method `refreshMenu`. -/
def refreshMenu (m : ClipboardManager) (file : File) : ClipboardManager :=
  let items := loadHistory file
  if items.length = m.clipboardItems.length ∧ sameIDs m.clipboardItems 0 items = true then m
  else updateMenuDisplay { m with clipboardItems := items } items

/-- The method `copyToClipboard`: one more run of `pbcopy`, fed `text`. -/
def copyToClipboard (text : Bytes) (pbcopy : List Bytes) : List Bytes :=
  pbcopy ++ [text]

/-- The body of a click handler of `setupHandlers`, for the slot `idx`;
`pbcopy` lists the texts handed to `pbcopy` so far. -/
def onSlotClicked (m : ClipboardManager) (idx : Nat) (pbcopy : List Bytes) : List Bytes :=
  if h : idx < m.clipboardItems.length then copyToClipboard (m.clipboardItems[idx]).Content pbcopy
  else pbcopy

/-- The method `setupHandlers`, as far as the manager goes. -/
def setupHandlers (m : ClipboardManager) : ClipboardManager :=
  if m.handlersSetup then m else { m with handlersSetup := true }

/-- The function `onReady` up to its first `refreshMenu`: the pool of
`maxMenuItems` hidden items with empty titles is added, then the menu is
refreshed from the history file. -/
def onReady (c : ClipboardManager) (file : File) : ClipboardManager :=
  let c1 := { c with
    menuItems := c.menuItems ++ List.replicate c.maxMenuItems (AddMenuItem []).Hide }
  refreshMenu (setupHandlers c1) file

/-! ## Vocabulary of the specification -/

/-- The history after a run of appends, each with its clock readings and a
successful write. -/
def appendAll (d : Disk) (l : List (Clock × Bytes)) : Disk :=
  l.foldl (fun d p => saveClipboardItem d p.1 WriteResult.ok p.2) d

/-- The invariant of a history list: no two entries with the same content, at
most 100 entries, no empty content. -/
def HistoryInvariant (l : List ClipboardItem) : Prop :=
  (l.map fun it => it.Content).Nodup ∧ l.length ≤ 100 ∧ ∀ it ∈ l, it.Content ≠ []

instance (l : List ClipboardItem) : Decidable (HistoryInvariant l) := by
  unfold HistoryInvariant
  infer_instance

/-- The disks reachable from an empty history by calls of `saveClipboardItem`
and `clearHistory`, whatever the clock, the content and the outcome of the write. -/
inductive Reachable : Disk → Prop
  | empty (d : Disk) : loadHistory d.file = [] → Reachable d
  | save (d : Disk) (now : Clock) (res : WriteResult) (content : Bytes) :
      Reachable d → Reachable (saveClipboardItem d now res content)
  | clear (m : ClipboardManager) (d : Disk) (res : WriteResult) :
      Reachable d → Reachable (clearHistory m d res).2

/-- The disks reachable from an empty history by calls of `clearHistory` and
calls of `saveClipboardItem` whose content is valid UTF-8, whatever the clock
and the outcome of the write. -/
inductive ReachableText : Disk → Prop
  | empty (d : Disk) : loadHistory d.file = [] → ReachableText d
  | save (d : Disk) (now : Clock) (res : WriteResult) (content : Bytes) :
      ValidUTF8 content → ReachableText d → ReachableText (saveClipboardItem d now res content)
  | clear (m : ClipboardManager) (d : Disk) (res : WriteResult) :
      ReachableText d → ReachableText (clearHistory m d res).2

/-- An entry as `encoding/json` writes it: content and id coerced to valid UTF-8. -/
def coerceItem (it : ClipboardItem) : ClipboardItem :=
  { it with Content := toValidUTF8 it.Content, ID := toValidUTF8 it.ID }

/-- Whether an object has a member with this key whose value passes `p`. -/
def hasMember (ms : List (List Char × Json.Value)) (key : String) (p : Json.Value → Bool) : Bool :=
  ms.any fun kv => decide (kv.1 = key.data) && p kv.2

/-- A JSON value that encodes an entry: an object with a text `content`, a
numeric `timestamp` and a text `id`. -/
def isEntry : Json.Value → Bool
  | Json.Value.object ms =>
    hasMember ms "content" (fun v => match v with | Json.Value.string _ => true | _ => false) &&
    hasMember ms "timestamp" (fun v => match v with | Json.Value.number _ => true | _ => false) &&
    hasMember ms "id" (fun v => match v with | Json.Value.string _ => true | _ => false)
  | _ => false

/-- A file content that is a well-formed encoding of a list of entries: valid
JSON, an array, each element encoding an entry. -/
def wellFormedHistory (data : Bytes) : Bool :=
  match Json.parseDocument (chars data) with
  | some (Json.Value.array vs) => vs.all isEntry
  | _ => false

/-- The text of a JSON string; nothing for a value of another type. -/
def Json.textOf : Json.Value → Option (List Char)
  | Json.Value.string s => some s
  | _ => none

/-- The number of a JSON number written as a plain integer; nothing for a
value of another type and for a number with a fraction or an exponent. -/
def Json.wholeOf : Json.Value → Option Int
  | Json.Value.number (some n) => some n
  | _ => none

/-- The number of a JSON number: its value when it is written as a plain
integer, `none` when it is written with a fraction or an exponent; nothing for
a value of another type. -/
def Json.numberOf : Json.Value → Option (Option Int)
  | Json.Value.number w => some w
  | _ => none

/-- What the last member of an object that names the field `name` (up to
case) and holds a value of the type of the field gives, read by `get`;
nothing when the object has no such member. -/
def lastMember {α : Type} (name : String) (get : Json.Value → Option α)
    (ms : List (List Char × Json.Value)) : Option α :=
  (ms.filterMap fun kv => if Json.keyIs name kv.1 then get kv.2 else none).getLast?

/-- The text of a file nested `n` arrays deep: `n` opening brackets and `n`
closing ones. -/
def nestedArrays (n : Nat) : Bytes :=
  utf8 (List.replicate n '[' ++ List.replicate n ']')

/-- The replacement of newline and tab by a space, on bytes. -/
def spaceOutByte (b : UInt8) : UInt8 := if b = 10 ∨ b = 9 then 32 else b

/-- The label as the specification words it, with lengths counted in bytes:
the content when it is at most 50 bytes long, otherwise its first 47 bytes and
`...`; newlines and tabs replaced by spaces. -/
def byteLabel (content : Bytes) : Bytes :=
  (if content.length ≤ 50 then content else content.take 47 ++ str "...").map spaceOutByte

/-- The replacement of newline and tab by a space, on characters. -/
def spaceOut (c : Char) : Char := if c = Char.ofNat 10 ∨ c = Char.ofNat 9 then ' ' else c

/-- The label as the specification words it, counted in characters: the
content when it is at most 50 characters long, otherwise its first 47
characters and `...`; newlines and tabs replaced by spaces. -/
def specLabel (content : Bytes) : Bytes :=
  utf8 ((if (chars content).length ≤ 50 then chars content
    else (chars content).take 47 ++ ['.', '.', '.']).map spaceOut)

/-- A text of 17 characters and 51 bytes. -/
def seventeenEuros : Bytes := utf8 (List.replicate 17 (Char.ofNat 8364))

/-- The placeholder slot: shown, disabled, titled `No clipboard history`. -/
def placeholderItem : MenuItem := { title := noHistoryTitle, disabled := true, hidden := false }

/-- The slot of the entry `item` at position `k`: shown, enabled, titled with
the ordinal `k + 1` and the label of the entry. -/
def entryItem (k : Nat) (item : ClipboardItem) : MenuItem :=
  { title := slotTitle k item.Content, disabled := false, hidden := false }

/-- The menu is the rendering of the snapshot `items` with display cap `cap`:
for an empty snapshot the placeholder in slot 0 and every other slot hidden;
otherwise slot `k` is the slot of the entry at `k` for every entry below the
cap, and every remaining slot is hidden. -/
def RendersSnapshot (cap : Nat) (menu : List MenuItem) (items : List ClipboardItem) : Prop :=
  if items = [] then
    menu.head? = some placeholderItem ∧ ∀ it ∈ menu.tail, it.hidden = true
  else
    ∀ k, k < menu.length →
      if k < items.length ∧ k < cap then menu[k]? = (items[k]?).map (entryItem k)
      else ∀ s, menu[k]? = some s → s.hidden = true

/-- The snapshot cached by the manager is what its menu shows. -/
def Consistent (m : ClipboardManager) : Prop :=
  RendersSnapshot m.maxMenuItems m.menuItems m.clipboardItems

/-- One tick of the monitor as the environment decides it: what `pbpaste`
printed, the clock readings and the outcome of the write, should the tick save. -/
structure Tick where
  output : Option Bytes
  now : Clock
  res : WriteResult

/-- The monitor run over a list of ticks, from a value of `lastContent` and a disk. -/
def monitorRun (s : Bytes × Disk) (ticks : List Tick) : Bytes × Disk :=
  ticks.foldl (fun s t => monitorTick s.1 s.2 t.output t.now t.res) s

/-- A call on the store: `saveClipboardItem` with its clock readings, the
outcome of its write and its content, or `clearHistory` with the manager it
runs on and the outcome of its write. -/
inductive StoreCall where
  | save (now : Clock) (res : WriteResult) (content : Bytes)
  | clear (m : ClipboardManager) (res : WriteResult)

/-- The disk after one call. -/
def StoreCall.run (d : Disk) : StoreCall → Disk
  | StoreCall.save now res content => saveClipboardItem d now res content
  | StoreCall.clear m res => (clearHistory m d res).2

/-- The disk after a sequence of calls. -/
def runCalls (d : Disk) (calls : List StoreCall) : Disk :=
  calls.foldl StoreCall.run d

/-- The nanosecond clock value a call reads: `saveClipboardItem` reads the
clock unless its content is empty; `clearHistory` does not read it. -/
def StoreCall.reading : StoreCall → List Int
  | StoreCall.save now _ content => if content = [] then [] else [now.unixNano]
  | StoreCall.clear _ _ => []

/-- The nanosecond clock values read by a sequence of calls, in order. -/
def clockReadings (calls : List StoreCall) : List Int :=
  calls.flatMap StoreCall.reading

/-! ## Auxiliary definitions of the proofs -/

/-- The entry a call leaves in the file written from the disk `d`, if it
creates one: the new entry as `encoding/json` writes it. -/
def StoreCall.created (d : Disk) : StoreCall → List ClipboardItem
  | StoreCall.save now _ content =>
    if content = [] then []
    else [⟨toValidUTF8 content, now.unix, newID now.unixNano (loadHistory d.file).length⟩]
  | StoreCall.clear _ _ => []

/-- The entries created by a sequence of calls from the disk `d`, oldest first. -/
def born : Disk → List StoreCall → List ClipboardItem
  | _, [] => []
  | d, call :: rest => call.created d ++ born (call.run d) rest

/-- The value of a digit string read after `acc`. -/
def digitsValue (acc : Nat) (ds : List Char) : Nat :=
  ds.foldl (fun a c => 10 * a + (c.toNat - 48)) acc

/-- The JSON value written for an entry. -/
def Json.itemValue (it : ClipboardItem) : Json.Value :=
  Json.Value.object
    [("content".data, Json.Value.string (chars it.Content)),
     ("timestamp".data, Json.Value.number (some it.Timestamp)),
     ("id".data, Json.Value.string (chars it.ID))]

/-- What it means for a reader that its fuel is never short: a result leaves
less text than it was given, and any fuel not smaller than the number of
characters read gives the same result. -/
def Json.FuelEnough {α : Type} (p : Nat → Nat → List Char → Option (α × List Char))
    (f : Nat) : Prop :=
  ∀ d cs a r, p f d cs = some (a, r) →
    r.length < cs.length ∧ ∀ g, cs.length - r.length ≤ g → p g d cs = some (a, r)

/-- The integer a text starts with: an optional minus sign and the digits after it. -/
def leadingInt : List Char → Int
  | [] => 0
  | c :: r =>
    if c = '-' then - ((Json.takeDigits 0 r).1 : Int) else ((Json.takeDigits 0 (c :: r)).1 : Int)

/-! ## UTF-8 written and read back -/

theorem toNat_ofNat_byte (n : Nat) (h : n < 256) : (UInt8.ofNat n).toNat = n := by
  show n % 256 = n
  exact Nat.mod_eq_of_lt h

theorem ofNat_toNat_byte (b : UInt8) : UInt8.ofNat b.toNat = b := by
  apply UInt8.ext
  rw [toNat_ofNat_byte _ b.toNat_lt]

theorem toNat_ofNat_char (n : Nat) (h : n.isValidChar) : (Char.ofNat n).toNat = n := by
  unfold Char.ofNat
  rw [dif_pos h]
  rfl

theorem char_toNat_valid (c : Char) :
    c.toNat < 55296 ∨ (57343 < c.toNat ∧ c.toNat < 1114112) := c.valid

theorem isCont_ofNat (n : Nat) (h : n < 64) : isCont (UInt8.ofNat (128 + n)) = true := by
  unfold isCont
  rw [toNat_ofNat_byte _ (by omega)]
  simp
  omega

theorem decodeRune_encodeRune (c : Char) (rest : Bytes) :
    decodeRune (encodeRune c ++ rest) = (some c, (encodeRune c).length) := by
  have hv := char_toNat_valid c
  unfold encodeRune
  split_ifs with h1 h2 h3
  · simp only [List.cons_append, List.nil_append, decodeRune]
    rw [toNat_ofNat_byte _ (by omega), if_pos h1, Char.ofNat_toNat]
    rfl
  · have e0 : (UInt8.ofNat (192 + c.toNat / 64)).toNat = 192 + c.toNat / 64 :=
      toNat_ofNat_byte _ (by omega)
    have e1 : (UInt8.ofNat (128 + c.toNat % 64)).toNat = 128 + c.toNat % 64 :=
      toNat_ofNat_byte _ (by omega)
    simp only [List.cons_append, List.nil_append, decodeRune]
    rw [e0, if_neg (by omega), if_pos (by omega), isCont_ofNat _ (by omega), if_pos rfl, e1]
    have : (192 + c.toNat / 64 - 192) * 64 + (128 + c.toNat % 64 - 128) = c.toNat := by omega
    rw [this, Char.ofNat_toNat]
    rfl
  · have e0 : (UInt8.ofNat (224 + c.toNat / 4096)).toNat = 224 + c.toNat / 4096 :=
      toNat_ofNat_byte _ (by omega)
    have e1 : (UInt8.ofNat (128 + c.toNat / 64 % 64)).toNat = 128 + c.toNat / 64 % 64 :=
      toNat_ofNat_byte _ (by omega)
    have e2 : (UInt8.ofNat (128 + c.toNat % 64)).toNat = 128 + c.toNat % 64 :=
      toNat_ofNat_byte _ (by omega)
    simp only [List.cons_append, List.nil_append, decodeRune]
    rw [e0, if_neg (by omega), if_neg (by omega), if_pos (by omega), e1,
      isCont_ofNat _ (by omega), e2]
    rw [if_pos]
    · have : (224 + c.toNat / 4096 - 224) * 4096 + (128 + c.toNat / 64 % 64 - 128) * 64 +
          (128 + c.toNat % 64 - 128) = c.toNat := by omega
      rw [this, Char.ofNat_toNat]
      rfl
    · refine ⟨?_, ?_, rfl⟩
      · split <;> omega
      · split <;> omega
  · have e0 : (UInt8.ofNat (240 + c.toNat / 262144)).toNat = 240 + c.toNat / 262144 :=
      toNat_ofNat_byte _ (by omega)
    have e1 : (UInt8.ofNat (128 + c.toNat / 4096 % 64)).toNat = 128 + c.toNat / 4096 % 64 :=
      toNat_ofNat_byte _ (by omega)
    have e2 : (UInt8.ofNat (128 + c.toNat / 64 % 64)).toNat = 128 + c.toNat / 64 % 64 :=
      toNat_ofNat_byte _ (by omega)
    have e3 : (UInt8.ofNat (128 + c.toNat % 64)).toNat = 128 + c.toNat % 64 :=
      toNat_ofNat_byte _ (by omega)
    simp only [List.cons_append, List.nil_append, decodeRune]
    rw [e0, if_neg (by omega), if_neg (by omega), if_neg (by omega), if_pos (by omega), e1,
      isCont_ofNat _ (by omega), isCont_ofNat _ (by omega), e2, e3]
    rw [if_pos]
    · have : (240 + c.toNat / 262144 - 240) * 262144 + (128 + c.toNat / 4096 % 64 - 128) * 4096 +
          (128 + c.toNat / 64 % 64 - 128) * 64 + (128 + c.toNat % 64 - 128) = c.toNat := by
        omega
      rw [this, Char.ofNat_toNat]
      rfl
    · refine ⟨?_, ?_, rfl, rfl⟩
      · split <;> omega
      · split <;> omega

theorem encodeRune_length (c : Char) :
    1 ≤ (encodeRune c).length ∧ (encodeRune c).length ≤ 4 := by
  unfold encodeRune
  split_ifs <;> simp

theorem segmentsFrom_skip : ∀ (k : Nat) (s : Bytes),
    segmentsFrom k s = segmentsFrom 0 (s.drop k) := by
  intro k
  induction k with
  | zero => intro s; rfl
  | succ k ih =>
    intro s
    cases s with
    | nil => rfl
    | cons b r => rw [segmentsFrom, List.drop_succ_cons, ih]

theorem segmentsFrom_zero_cons (b : UInt8) (r : Bytes) :
    segmentsFrom 0 (b :: r) =
      ((decodeRune (b :: r)).1, (b :: r).take (decodeRune (b :: r)).2) ::
        segmentsFrom 0 ((b :: r).drop (decodeRune (b :: r)).2 |> fun t =>
          if (decodeRune (b :: r)).2 = 0 then r else t) := by
  rw [segmentsFrom, segmentsFrom_skip]
  congr 2
  split
  · rename_i h
    rw [h]
    rfl
  · rename_i h
    obtain ⟨n, hn⟩ : ∃ n, (decodeRune (b :: r)).2 = n + 1 :=
      ⟨(decodeRune (b :: r)).2 - 1, by omega⟩
    rw [hn, List.drop_succ_cons]
    rfl

theorem segmentsFrom_encodeRune (c : Char) (rest : Bytes) :
    segmentsFrom 0 (encodeRune c ++ rest) = (some c, encodeRune c) :: segmentsFrom 0 rest := by
  obtain ⟨h1, _⟩ := encodeRune_length c
  have hd := decodeRune_encodeRune c rest
  obtain ⟨b, t, hbt⟩ := List.exists_cons_of_length_pos (l := encodeRune c) (by omega)
  have hcons : encodeRune c ++ rest = b :: (t ++ rest) := by rw [hbt]; rfl
  rw [hcons] at hd ⊢
  rw [segmentsFrom_zero_cons, hd]
  simp only
  rw [if_neg (by omega), ← hcons]
  simp

theorem segments_utf8 (cs : List Char) :
    segmentsFrom 0 (utf8 cs) = cs.map fun c => (some c, encodeRune c) := by
  induction cs with
  | nil => rfl
  | cons c cs ih =>
    unfold utf8 at ih ⊢
    rw [List.flatMap_cons, segmentsFrom_encodeRune, ih]
    rfl

theorem runes_utf8 (cs : List Char) : runes (utf8 cs) = cs.map some := by
  unfold runes
  rw [segments_utf8, List.map_map]
  rfl

/-- Reading the UTF-8 encoding of a text gives the text back. -/
theorem chars_utf8 (cs : List Char) : chars (utf8 cs) = cs := by
  unfold chars
  rw [runes_utf8, List.map_map]
  exact List.map_id' cs

theorem validUTF8_utf8 (cs : List Char) : ValidUTF8 (utf8 cs) := by
  unfold ValidUTF8
  rw [runes_utf8]
  intro p hp
  obtain ⟨c, _, rfl⟩ := List.mem_map.mp hp
  exact Option.some_ne_none c

theorem toValidUTF8_utf8 (cs : List Char) : toValidUTF8 (utf8 cs) = utf8 cs := by
  unfold toValidUTF8
  rw [chars_utf8]

theorem validUTF8_toValidUTF8 (s : Bytes) : ValidUTF8 (toValidUTF8 s) :=
  validUTF8_utf8 _

theorem toValidUTF8_idem (s : Bytes) : toValidUTF8 (toValidUTF8 s) = toValidUTF8 s :=
  toValidUTF8_utf8 _

theorem encodeRune_ofNat_two (x y : Nat) (hx : 194 ≤ x ∧ x ≤ 223) (hy : 128 ≤ y ∧ y ≤ 191) :
    encodeRune (Char.ofNat ((x - 192) * 64 + (y - 128))) = [UInt8.ofNat x, UInt8.ofNat y] := by
  have hval : ((x - 192) * 64 + (y - 128)).isValidChar := Or.inl (by omega)
  unfold encodeRune
  rw [toNat_ofNat_char _ hval, if_neg (by omega), if_pos (by omega)]
  have e1 : 192 + ((x - 192) * 64 + (y - 128)) / 64 = x := by omega
  have e2 : 128 + ((x - 192) * 64 + (y - 128)) % 64 = y := by omega
  rw [e1, e2]

theorem encodeRune_ofNat_three (x y z : Nat) (hx : 224 ≤ x ∧ x ≤ 239)
    (hy : (if x = 224 then 160 else 128) ≤ y ∧ y ≤ (if x = 237 then 159 else 191))
    (hz : 128 ≤ z ∧ z ≤ 191) :
    encodeRune (Char.ofNat ((x - 224) * 4096 + (y - 128) * 64 + (z - 128))) =
      [UInt8.ofNat x, UInt8.ofNat y, UInt8.ofNat z] := by
  obtain ⟨hy1, hy2⟩ := hy
  have hy1' : 128 ≤ y := by split at hy1 <;> omega
  have hy2' : y ≤ 191 := by split at hy2 <;> omega
  have hlow : x = 224 → 160 ≤ y := by intro h; rw [if_pos h] at hy1; exact hy1
  have hsur : x = 237 → y ≤ 159 := by intro h; rw [if_pos h] at hy2; exact hy2
  have hval : ((x - 224) * 4096 + (y - 128) * 64 + (z - 128)).isValidChar := by
    by_cases h : x ≤ 236
    · exact Or.inl (by omega)
    · by_cases h2 : x = 237
      · have := hsur h2
        exact Or.inl (by omega)
      · exact Or.inr ⟨by omega, by omega⟩
  unfold encodeRune
  rw [toNat_ofNat_char _ hval, if_neg (by omega), if_neg, if_pos (by omega)]
  · have e1 : 224 + ((x - 224) * 4096 + (y - 128) * 64 + (z - 128)) / 4096 = x := by omega
    have e2 : 128 + ((x - 224) * 4096 + (y - 128) * 64 + (z - 128)) / 64 % 64 = y := by omega
    have e3 : 128 + ((x - 224) * 4096 + (y - 128) * 64 + (z - 128)) % 64 = z := by omega
    rw [e1, e2, e3]
  · by_cases h : x = 224
    · have := hlow h
      omega
    · omega

theorem encodeRune_ofNat_four (x y z w : Nat) (hx : 240 ≤ x ∧ x ≤ 244)
    (hy : (if x = 240 then 144 else 128) ≤ y ∧ y ≤ (if x = 244 then 143 else 191))
    (hz : 128 ≤ z ∧ z ≤ 191) (hw : 128 ≤ w ∧ w ≤ 191) :
    encodeRune (Char.ofNat
        ((x - 240) * 262144 + (y - 128) * 4096 + (z - 128) * 64 + (w - 128))) =
      [UInt8.ofNat x, UInt8.ofNat y, UInt8.ofNat z, UInt8.ofNat w] := by
  obtain ⟨hy1, hy2⟩ := hy
  have hy1' : 128 ≤ y := by split at hy1 <;> omega
  have hy2' : y ≤ 191 := by split at hy2 <;> omega
  have hlow : x = 240 → 144 ≤ y := by intro h; rw [if_pos h] at hy1; exact hy1
  have hhigh : x = 244 → y ≤ 143 := by intro h; rw [if_pos h] at hy2; exact hy2
  have hge : 65536 ≤ (x - 240) * 262144 + (y - 128) * 4096 + (z - 128) * 64 + (w - 128) := by
    by_cases h : x = 240
    · have := hlow h
      omega
    · omega
  have hlt : (x - 240) * 262144 + (y - 128) * 4096 + (z - 128) * 64 + (w - 128) < 1114112 := by
    by_cases h : x = 244
    · have := hhigh h
      omega
    · omega
  have hval : ((x - 240) * 262144 + (y - 128) * 4096 + (z - 128) * 64 + (w - 128)).isValidChar :=
    Or.inr ⟨by omega, hlt⟩
  unfold encodeRune
  rw [toNat_ofNat_char _ hval, if_neg (by omega), if_neg (by omega), if_neg (by omega)]
  have e1 : 240 + ((x - 240) * 262144 + (y - 128) * 4096 + (z - 128) * 64 + (w - 128)) / 262144
      = x := by omega
  have e2 : 128 + ((x - 240) * 262144 + (y - 128) * 4096 + (z - 128) * 64 + (w - 128)) / 4096
      % 64 = y := by omega
  have e3 : 128 + ((x - 240) * 262144 + (y - 128) * 4096 + (z - 128) * 64 + (w - 128)) / 64
      % 64 = z := by omega
  have e4 : 128 + ((x - 240) * 262144 + (y - 128) * 4096 + (z - 128) * 64 + (w - 128)) % 64
      = w := by omega
  rw [e1, e2, e3, e4]

theorem isCont_iff (b : UInt8) : isCont b = true ↔ 128 ≤ b.toNat ∧ b.toNat ≤ 191 := by
  unfold isCont
  simp

theorem decodeRune_spec_none (b : UInt8) (r : Bytes) (e : decodeRune (b :: r) = (none, 1)) :
    1 ≤ (decodeRune (b :: r)).2 ∧ (decodeRune (b :: r)).2 ≤ (b :: r).length ∧
      ∀ c, (decodeRune (b :: r)).1 = some c →
        encodeRune c = (b :: r).take (decodeRune (b :: r)).2 := by
  rw [e]
  exact ⟨le_refl _, by simp, fun c hc => Option.noConfusion hc⟩

theorem decodeRune_spec_some (b : UInt8) (r : Bytes) (c : Char) (n : Nat)
    (e : decodeRune (b :: r) = (some c, n)) (h1 : 1 ≤ n) (h2 : n ≤ (b :: r).length)
    (h3 : encodeRune c = (b :: r).take n) :
    1 ≤ (decodeRune (b :: r)).2 ∧ (decodeRune (b :: r)).2 ≤ (b :: r).length ∧
      ∀ c, (decodeRune (b :: r)).1 = some c →
        encodeRune c = (b :: r).take (decodeRune (b :: r)).2 := by
  rw [e]
  refine ⟨h1, h2, ?_⟩
  intro c2 hc
  simp only [Option.some.injEq] at hc
  subst hc
  exact h3

/-- What `decodeRune` returns on a non-empty string: at least one byte and
no more than there are, and for a valid rune exactly its encoding. -/
theorem decodeRune_spec (b : UInt8) (r : Bytes) :
    1 ≤ (decodeRune (b :: r)).2 ∧ (decodeRune (b :: r)).2 ≤ (b :: r).length ∧
      ∀ c, (decodeRune (b :: r)).1 = some c →
        encodeRune c = (b :: r).take (decodeRune (b :: r)).2 := by
  by_cases h1 : b.toNat < 128
  · refine decodeRune_spec_some b r (Char.ofNat b.toNat) 1 ?_ (le_refl _) (by simp) ?_
    · simp only [decodeRune]
      rw [if_pos h1]
    · unfold encodeRune
      rw [toNat_ofNat_char _ (Or.inl (by omega)), if_pos h1, ofNat_toNat_byte]
      rfl
  by_cases h2 : 194 ≤ b.toNat ∧ b.toNat ≤ 223
  · match r with
    | [] =>
      apply decodeRune_spec_none
      simp only [decodeRune]
      rw [if_neg h1, if_pos h2]
    | b1 :: r1 =>
      by_cases hc1 : isCont b1 = true
      · refine decodeRune_spec_some b _
          (Char.ofNat ((b.toNat - 192) * 64 + (b1.toNat - 128))) 2 ?_ (by omega) (by simp) ?_
        · simp only [decodeRune]
          rw [if_neg h1, if_pos h2, if_pos hc1]
        · rw [encodeRune_ofNat_two _ _ h2 ((isCont_iff b1).mp hc1), ofNat_toNat_byte,
            ofNat_toNat_byte]
          rfl
      · apply decodeRune_spec_none
        simp only [decodeRune]
        rw [if_neg h1, if_pos h2, if_neg hc1]
  by_cases h3 : 224 ≤ b.toNat ∧ b.toNat ≤ 239
  · match r with
    | [] =>
      apply decodeRune_spec_none
      simp only [decodeRune]
      rw [if_neg h1, if_neg h2, if_pos h3]
    | [_] =>
      apply decodeRune_spec_none
      simp only [decodeRune]
      rw [if_neg h1, if_neg h2, if_pos h3]
    | b1 :: b2 :: r2 =>
      by_cases hc1 : (if b.toNat = 224 then 160 else 128) ≤ b1.toNat ∧
            b1.toNat ≤ (if b.toNat = 237 then 159 else 191) ∧ isCont b2 = true
      · refine decodeRune_spec_some b _
          (Char.ofNat ((b.toNat - 224) * 4096 + (b1.toNat - 128) * 64 + (b2.toNat - 128))) 3
          ?_ (by omega) (by simp) ?_
        · simp only [decodeRune]
          rw [if_neg h1, if_neg h2, if_pos h3, if_pos hc1]
        · rw [encodeRune_ofNat_three _ _ _ h3 ⟨hc1.1, hc1.2.1⟩ ((isCont_iff b2).mp hc1.2.2),
            ofNat_toNat_byte, ofNat_toNat_byte, ofNat_toNat_byte]
          rfl
      · apply decodeRune_spec_none
        simp only [decodeRune]
        rw [if_neg h1, if_neg h2, if_pos h3, if_neg hc1]
  by_cases h4 : 240 ≤ b.toNat ∧ b.toNat ≤ 244
  · match r with
    | [] =>
      apply decodeRune_spec_none
      simp only [decodeRune]
      rw [if_neg h1, if_neg h2, if_neg h3, if_pos h4]
    | [_] =>
      apply decodeRune_spec_none
      simp only [decodeRune]
      rw [if_neg h1, if_neg h2, if_neg h3, if_pos h4]
    | [_, _] =>
      apply decodeRune_spec_none
      simp only [decodeRune]
      rw [if_neg h1, if_neg h2, if_neg h3, if_pos h4]
    | b1 :: b2 :: b3 :: r3 =>
      by_cases hc1 : (if b.toNat = 240 then 144 else 128) ≤ b1.toNat ∧
            b1.toNat ≤ (if b.toNat = 244 then 143 else 191) ∧ isCont b2 = true ∧
              isCont b3 = true
      · refine decodeRune_spec_some b _
          (Char.ofNat ((b.toNat - 240) * 262144 + (b1.toNat - 128) * 4096 +
            (b2.toNat - 128) * 64 + (b3.toNat - 128))) 4
          ?_ (by omega) (by simp) ?_
        · simp only [decodeRune]
          rw [if_neg h1, if_neg h2, if_neg h3, if_pos h4, if_pos hc1]
        · rw [encodeRune_ofNat_four _ _ _ _ h4 ⟨hc1.1, hc1.2.1⟩
            ((isCont_iff b2).mp hc1.2.2.1) ((isCont_iff b3).mp hc1.2.2.2),
            ofNat_toNat_byte, ofNat_toNat_byte, ofNat_toNat_byte, ofNat_toNat_byte]
          rfl
      · apply decodeRune_spec_none
        simp only [decodeRune]
        rw [if_neg h1, if_neg h2, if_neg h3, if_pos h4, if_neg hc1]
  apply decodeRune_spec_none
  simp only [decodeRune]
  rw [if_neg h1, if_neg h2, if_neg h3, if_neg h4]

/-- The segments of a byte string, joined, are the string. -/
theorem segments_join (n : Nat) : ∀ s : Bytes, s.length ≤ n →
    (segmentsFrom 0 s).flatMap Prod.snd = s := by
  induction n with
  | zero =>
    intro s hs
    cases s with
    | nil => rfl
    | cons b r => simp at hs
  | succ n ih =>
    intro s hs
    cases s with
    | nil => rfl
    | cons b r =>
      obtain ⟨h1, h2, _⟩ := decodeRune_spec b r
      rw [segmentsFrom_zero_cons, List.flatMap_cons]
      simp only []
      rw [if_neg (by omega), ih _ (by simp only [List.length_drop, List.length_cons] at hs ⊢; omega)]
      exact List.take_append_drop _ _

/-- Every valid segment of a byte string holds the encoding of its rune. -/
theorem segments_encode (n : Nat) : ∀ s : Bytes, s.length ≤ n →
    ∀ p ∈ segmentsFrom 0 s, ∀ c, p.1 = some c → encodeRune c = p.2 := by
  induction n with
  | zero =>
    intro s hs
    cases s with
    | nil => intro p hp; simp [segmentsFrom] at hp
    | cons b r => simp at hs
  | succ n ih =>
    intro s hs
    cases s with
    | nil => intro p hp; simp [segmentsFrom] at hp
    | cons b r =>
      obtain ⟨h1, h2, h3⟩ := decodeRune_spec b r
      intro p hp c hc
      rw [segmentsFrom_zero_cons, List.mem_cons] at hp
      simp only [] at hp
      rw [if_neg (by omega)] at hp
      rcases hp with hp | hp
      · subst hp
        exact h3 c hc
      · exact ih _ (by simp only [List.length_drop, List.length_cons] at hs ⊢; omega) p hp c hc

/-- A valid UTF-8 string is unchanged by the coercion to valid UTF-8. -/
theorem toValidUTF8_of_valid (s : Bytes) (h : ValidUTF8 s) : toValidUTF8 s = s := by
  have hj := segments_join s.length s (le_refl _)
  have he := segments_encode s.length s (le_refl _)
  unfold ValidUTF8 runes at h
  unfold toValidUTF8 chars runes utf8
  rw [List.map_map, List.flatMap_map]
  conv_rhs => rw [← hj]
  apply List.flatMap_congr
  intro p hp
  have hne : p.1 ≠ none := h p.1 (List.mem_map_of_mem _ hp)
  obtain ⟨c, hc⟩ := Option.ne_none_iff_exists'.mp hne
  simp only [Function.comp, hc, Option.getD_some]
  exact he p hp c hc

theorem toValidUTF8_eq_iff (s : Bytes) : toValidUTF8 s = s ↔ ValidUTF8 s :=
  ⟨fun h => h ▸ validUTF8_toValidUTF8 s, toValidUTF8_of_valid s⟩

/-- A string has at most as many runes as bytes. -/
theorem segments_length_le (n : Nat) : ∀ s : Bytes, s.length ≤ n →
    (segmentsFrom 0 s).length ≤ s.length := by
  induction n with
  | zero =>
    intro s hs
    cases s with
    | nil => simp [segmentsFrom]
    | cons b r => simp at hs
  | succ n ih =>
    intro s hs
    cases s with
    | nil => simp [segmentsFrom]
    | cons b r =>
      obtain ⟨h1, h2, _⟩ := decodeRune_spec b r
      rw [segmentsFrom_zero_cons, List.length_cons]
      simp only []
      rw [if_neg (by omega)]
      have hdrop : ((b :: r).drop (decodeRune (b :: r)).2).length ≤ n := by
        simp only [List.length_drop, List.length_cons] at hs ⊢
        omega
      have := ih _ hdrop
      simp only [List.length_drop, List.length_cons] at this h2 ⊢
      omega

theorem chars_length_le (s : Bytes) : (chars s).length ≤ s.length := by
  unfold chars runes
  rw [List.length_map, List.length_map]
  exact segments_length_le s.length s (le_refl _)

theorem utf8_append (a b : List Char) : utf8 (a ++ b) = utf8 a ++ utf8 b := by
  unfold utf8
  exact List.flatMap_append a b encodeRune

theorem segments_utf8_append (cs : List Char) (rest : Bytes) :
    segmentsFrom 0 (utf8 cs ++ rest) =
      (cs.map fun c => (some c, encodeRune c)) ++ segmentsFrom 0 rest := by
  induction cs with
  | nil => rfl
  | cons c cs ih =>
    unfold utf8 at ih ⊢
    rw [List.flatMap_cons, List.append_assoc, segmentsFrom_encodeRune, ih]
    rfl

/-- The characters of a string that starts with valid UTF-8 text start with
the characters of that text. -/
theorem chars_append_of_valid (a b : Bytes) (h : ValidUTF8 a) :
    chars (a ++ b) = chars a ++ chars b := by
  have ha : a = utf8 (chars a) := (toValidUTF8_of_valid a h).symm
  have key : chars (utf8 (chars a) ++ b) = chars a ++ chars b := by
    unfold chars runes
    rw [segments_utf8_append, List.map_append, List.map_append, List.map_map, List.map_map]
    congr 1
    have : ∀ l : List Char,
        l.map ((fun p : Option Char => p.getD replacementChar) ∘ Prod.fst ∘
          fun c => (some c, encodeRune c)) = l := by
      intro l
      exact List.map_id' l
    exact this _
  have hab : chars (a ++ b) = chars (utf8 (chars a) ++ b) := by rw [← ha]
  rw [hab, key]

/-! ## Decimal digits read back -/

theorem decimalFuel_irrel : ∀ (f g n : Nat), n ≤ f → n ≤ g → decimalFuel f n = decimalFuel g n := by
  intro f
  induction f with
  | zero =>
    intro g n hf hg
    have hn : n = 0 := by omega
    subst hn
    cases g with
    | zero => rfl
    | succ g => simp [decimalFuel]
  | succ f ih =>
    intro g n hf hg
    by_cases h : n < 10
    · cases g with
      | zero =>
        have hn : n = 0 := by omega
        subst hn
        simp [decimalFuel]
      | succ g => simp [decimalFuel, h]
    · cases g with
      | zero => omega
      | succ g =>
        simp only [decimalFuel, h, if_false]
        rw [ih g (n / 10) (by omega) (by omega)]

theorem decimal_eq (n : Nat) :
    decimal n = if n < 10 then [digitChar n] else decimal (n / 10) ++ [digitChar (n % 10)] := by
  unfold decimal
  cases n with
  | zero => simp [decimalFuel]
  | succ n =>
    simp only [decimalFuel]
    split
    · rfl
    · rw [decimalFuel_irrel n ((n + 1) / 10) ((n + 1) / 10) (by omega) (le_refl _)]

theorem decimal_lt_ten {n : Nat} (h : n < 10) : decimal n = [digitChar n] := by
  rw [decimal_eq, if_pos h]

theorem decimal_ge_ten {n : Nat} (h : ¬ n < 10) :
    decimal n = decimal (n / 10) ++ [digitChar (n % 10)] := by
  rw [decimal_eq, if_neg h]

theorem digitChar_toNat {d : Nat} (h : d < 10) : (digitChar d).toNat = 48 + d := by
  interval_cases d <;> decide

theorem isDigit_digitChar {d : Nat} (h : d < 10) : Json.isDigit (digitChar d) = true := by
  interval_cases d <;> decide

theorem decimal_isDigit (n : Nat) : ∀ c ∈ decimal n, Json.isDigit c = true := by
  induction n using Nat.strong_induction_on with
  | _ n ih =>
    by_cases h : n < 10
    · rw [decimal_lt_ten h]
      intro c hc
      simp only [List.mem_singleton] at hc
      subst hc
      exact isDigit_digitChar h
    · rw [decimal_ge_ten h]
      intro c hc
      rcases List.mem_append.mp hc with hc | hc
      · exact ih (n / 10) (by omega) c hc
      · simp only [List.mem_singleton] at hc
        subst hc
        exact isDigit_digitChar (Nat.mod_lt _ (by decide))

theorem digitsValue_decimal (n : Nat) : digitsValue 0 (decimal n) = n := by
  induction n using Nat.strong_induction_on with
  | _ n ih =>
    by_cases h : n < 10
    · rw [decimal_lt_ten h]
      simp [digitsValue, digitChar_toNat h]
    · rw [decimal_ge_ten h]
      have h1 := ih (n / 10) (by omega)
      unfold digitsValue at h1 ⊢
      rw [List.foldl_append, h1]
      simp only [List.foldl_cons, List.foldl_nil]
      rw [digitChar_toNat (Nat.mod_lt _ (by decide))]
      omega

theorem takeDigits_append (ds : List Char) (h : ∀ c ∈ ds, Json.isDigit c = true) :
    ∀ (acc : Nat) (rest : List Char),
      Json.takeDigits acc (ds ++ rest) = Json.takeDigits (digitsValue acc ds) rest := by
  induction ds with
  | nil => intro acc rest; rfl
  | cons d ds ih =>
    intro acc rest
    have hd : Json.isDigit d = true := h d (List.mem_cons_self _ _)
    rw [List.cons_append]
    simp only [Json.takeDigits, hd, if_true]
    rw [ih (fun c hc => h c (List.mem_cons_of_mem _ hc))]
    rfl

theorem takeDigits_decimal (n : Nat) (rest : List Char) :
    Json.takeDigits 0 (decimal n ++ ',' :: rest) = (n, ',' :: rest) := by
  rw [takeDigits_append _ (decimal_isDigit n), digitsValue_decimal]
  simp [Json.takeDigits, Json.isDigit]

theorem decimal_head (n : Nat) :
    ∃ c t, decimal n = c :: t ∧ Json.isDigit c = true ∧ (0 < n → c ≠ '0') := by
  induction n using Nat.strong_induction_on with
  | _ n ih =>
    by_cases h : n < 10
    · refine ⟨digitChar n, [], decimal_lt_ten h, isDigit_digitChar h, ?_⟩
      intro hpos
      interval_cases n <;> first | omega | decide
    · obtain ⟨c, t, hc, hd, hz⟩ := ih (n / 10) (by omega)
      refine ⟨c, t ++ [digitChar (n % 10)], ?_, hd, fun _ => hz (by omega)⟩
      rw [decimal_ge_ten h, hc]
      rfl

theorem parseIntPart_decimal (n : Nat) (rest : List Char) :
    Json.parseIntPart (decimal n ++ ',' :: rest) = some (n, ',' :: rest) := by
  by_cases h0 : n = 0
  · subst h0
    rfl
  · obtain ⟨c, t, hc, hd, hz⟩ := decimal_head n
    have hz1 : c ≠ '0' := hz (by omega)
    have key := takeDigits_decimal n rest
    rw [hc] at key ⊢
    simp only [List.cons_append] at key ⊢
    simp only [Json.parseIntPart, hz1, hd, if_true, if_false, key]

theorem parseNumber_formatInt (z : Int) (rest : List Char) :
    Json.parseNumber (formatInt z ++ ',' :: rest) = some (some z, ',' :: rest) := by
  cases z with
  | ofNat n =>
    obtain ⟨c, t, hc, hd, _⟩ := decimal_head n
    have hneg : c ≠ '-' := by
      intro hcm
      rw [hcm] at hd
      exact absurd hd (by decide)
    have key := parseIntPart_decimal n rest
    simp only [formatInt]
    rw [hc] at key ⊢
    simp only [List.cons_append] at key ⊢
    simp [Json.parseNumber, Json.parseUnsigned, hneg, key, Json.parseFrac, Json.parseExp]
  | negSucc n =>
    have key := parseIntPart_decimal (n + 1) rest
    simp only [formatInt, List.cons_append]
    simp [Json.parseNumber, Json.parseUnsigned, key, Json.parseFrac, Json.parseExp]
    rw [Int.negSucc_eq]
    omega

/-! ## String literals read back -/

namespace Json

theorem hexVal_hexDigit : ∀ n, n < 16 → hexVal (hexDigit n) = some n := by
  decide

theorem getu4_low (k : Nat) (hk : k < 128) :
    getu4 '0' '0' (hexDigit (k / 16)) (hexDigit (k % 16)) = some k := by
  have h0 : hexVal '0' = some 0 := by decide
  unfold getu4
  rw [h0, hexVal_hexDigit (k / 16) (by omega), hexVal_hexDigit (k % 16) (Nat.mod_lt _ (by decide))]
  simp only [Option.some.injEq]
  omega

theorem parseUnits_simple (e ch : Char) (h : simpleEscape e = some ch) (he : e ≠ 'u')
    (tail : List Char) :
    parseUnits (backslash :: e :: tail) = consUnit (CodeUnit.char ch) (parseUnits tail) := by
  have hb : backslash ≠ quote := by decide
  rw [parseUnits.eq_def]
  simp only [hb, he, h, if_false, if_true]

theorem parseUnits_u (h1 h2 h3 h4 : Char) (n : Nat) (h : getu4 h1 h2 h3 h4 = some n)
    (tail : List Char) :
    parseUnits (backslash :: 'u' :: h1 :: h2 :: h3 :: h4 :: tail) =
      consUnit (escapedUnit n) (parseUnits tail) := by
  have hb : backslash ≠ quote := by decide
  rw [parseUnits.eq_def]
  simp only [hb, h, if_false, if_true]

theorem parseUnits_escapeChar (c : Char) (tail : List Char) :
    parseUnits (escapeChar c ++ tail) = consUnit (CodeUnit.char c) (parseUnits tail) := by
  unfold escapeChar
  split_ifs with h1 h2 h3 h4 h5 h6 h7 h8 h9
  · subst h1; exact parseUnits_simple _ _ (by decide) (by decide) tail
  · subst h2; exact parseUnits_simple _ _ (by decide) (by decide) tail
  · subst h3; exact parseUnits_simple _ _ (by decide) (by decide) tail
  · subst h4; exact parseUnits_simple _ _ (by decide) (by decide) tail
  · subst h5; exact parseUnits_simple _ _ (by decide) (by decide) tail
  · subst h6; exact parseUnits_simple _ _ (by decide) (by decide) tail
  · subst h7; exact parseUnits_simple _ _ (by decide) (by decide) tail
  · have hk : c.toNat < 128 := by
      rcases h8 with h | h | h | h
      · omega
      · subst h; decide
      · subst h; decide
      · subst h; decide
    have hu := getu4_low c.toNat hk
    have : escapedUnit c.toNat = CodeUnit.char c := by
      unfold escapedUnit
      rw [if_neg (by omega), Char.ofNat_toNat]
    rw [← this]
    exact parseUnits_u _ _ _ _ _ hu tail
  · rcases h9 with h | h
    · subst h; exact parseUnits_u _ _ _ _ 8232 (by decide) tail
    · subst h; exact parseUnits_u _ _ _ _ 8233 (by decide) tail
  · have hlt : ¬ c.toNat < 32 := fun h => h8 (Or.inl h)
    rw [List.cons_append, List.nil_append, parseUnits.eq_def]
    simp only [h1, h2, hlt, if_false]

theorem parseUnits_escapeRune (p : Option Char) (tail : List Char) :
    parseUnits (escapeRune p ++ tail) =
      consUnit (CodeUnit.char (p.getD replacementChar)) (parseUnits tail) := by
  cases p with
  | none => exact parseUnits_u _ _ _ _ 65533 (by decide) tail
  | some c => exact parseUnits_escapeChar c tail

theorem parseUnits_escaped (ps : List (Option Char)) (rest : List Char) :
    parseUnits (ps.flatMap escapeRune ++ quote :: rest) =
      some (ps.map (fun p => CodeUnit.char (p.getD replacementChar)), rest) := by
  induction ps with
  | nil => rw [List.flatMap_nil, List.nil_append, parseUnits.eq_def]; simp
  | cons p ps ih =>
    rw [List.flatMap_cons, List.append_assoc, parseUnits_escapeRune, ih]
    rfl

theorem fuse_chars (s : List Char) : fuse none (s.map CodeUnit.char) = s := by
  induction s with
  | nil => rfl
  | cons c s ih => simp [fuse, ih]

theorem parseString_escaped (s : Bytes) (rest : List Char) :
    parseString ((runes s).flatMap escapeRune ++ quote :: rest) = some (chars s, rest) := by
  unfold parseString
  rw [parseUnits_escaped]
  have h : (runes s).map (fun p => CodeUnit.char (p.getD replacementChar)) =
      (chars s).map CodeUnit.char := by
    unfold chars
    rw [List.map_map]
    rfl
  simp only [h, fuse_chars]

end Json

/-! ## Entries and documents read back -/

namespace Json

theorem skipSpace_of_space {c : Char} (h : isSpace c = true) (cs : List Char) :
    skipSpace (c :: cs) = skipSpace cs := by
  simp [skipSpace, h]

theorem skipSpace_of_not {c : Char} (h : isSpace c = false) (cs : List Char) :
    skipSpace (c :: cs) = c :: cs := by
  simp [skipSpace, h]

theorem parseValue_string (f d : Nat) (s : Bytes) (rest : List Char) :
    parseValue (f + 1) d (quote :: ((runes s).flatMap escapeRune ++ quote :: rest)) =
      some (Value.string (chars s), rest) := by
  rw [parseValue, if_pos rfl, parseString_escaped]

theorem formatInt_head (z : Int) :
    ∃ c t, formatInt z = c :: t ∧ (c = '-' ∨ isDigit c = true) := by
  cases z with
  | ofNat n =>
    obtain ⟨c, t, hc, hd, _⟩ := decimal_head n
    exact ⟨c, t, hc, Or.inr hd⟩
  | negSucc n => exact ⟨'-', decimal (n + 1), rfl, Or.inl rfl⟩

theorem parseValue_number (f d : Nat) (z : Int) (rest : List Char) :
    parseValue (f + 1) d (formatInt z ++ ',' :: rest) =
      some (Value.number (some z), ',' :: rest) := by
  have key := parseNumber_formatInt z rest
  obtain ⟨c, t, hc, hd⟩ := formatInt_head z
  rw [hc] at key ⊢
  rw [List.cons_append] at key ⊢
  have hne : ∀ x : Char, x ≠ '-' → isDigit x = false → c ≠ x := by
    intro x h1 h2 hcx
    subst hcx
    rcases hd with h | h
    · exact h1 h
    · rw [h2] at h; exact absurd h (by decide)
  have h1 : c ≠ quote := hne _ (by decide) (by decide)
  have h2 : c ≠ '[' := hne _ (by decide) (by decide)
  have h3 : c ≠ lbrace := hne _ (by decide) (by decide)
  have h4 : c ≠ 't' := hne _ (by decide) (by decide)
  have h5 : c ≠ 'f' := hne _ (by decide) (by decide)
  have h6 : c ≠ 'n' := hne _ (by decide) (by decide)
  rw [parseValue]
  simp only [h1, h2, h3, h4, h5, h6, if_false, key]

theorem formatInt_skipSpace (z : Int) (rest : List Char) :
    skipSpace (formatInt z ++ rest) = formatInt z ++ rest := by
  obtain ⟨c, t, hc, hd⟩ := formatInt_head z
  rw [hc, List.cons_append]
  apply skipSpace_of_not
  rcases hd with h | h
  · subst h; decide
  · cases hs : isSpace c with
    | false => rfl
    | true =>
      exfalso
      simp only [isSpace, Bool.or_eq_true, decide_eq_true_eq] at hs
      rcases hs with ((hs | hs) | hs) | hs <;> (subst hs; exact absurd h (by decide))

theorem parseMembers_comma (f d : Nat) (k : Bytes) (x r3 : List Char) (v : Value)
    (hx : skipSpace x = x) (hv : parseValue f d x = some (v, ',' :: r3)) :
    parseMembers (f + 1) d
        (quote :: ((runes k).flatMap escapeRune ++ quote :: ':' :: ' ' :: x)) =
      match parseMembers f d (skipSpace r3) with
      | some (ms, r4) => some ((chars k, v) :: ms, r4)
      | none => none := by
  rw [parseMembers, if_pos rfl, parseString_escaped]
  have h1 : skipSpace (':' :: ' ' :: x) = ':' :: ' ' :: x := skipSpace_of_not (by decide) _
  have h2 : skipSpace (' ' :: x) = x := by rw [skipSpace_of_space (by decide), hx]
  have h3 : skipSpace (',' :: r3) = ',' :: r3 := skipSpace_of_not (by decide) _
  simp only [h1, h2, h3, hv, if_true]

theorem parseMembers_last (f d : Nat) (k : Bytes) (x r2 r3 : List Char) (v : Value)
    (hx : skipSpace x = x) (hv : parseValue f d x = some (v, r2))
    (hr : skipSpace r2 = rbrace :: r3) :
    parseMembers (f + 1) d
        (quote :: ((runes k).flatMap escapeRune ++ quote :: ':' :: ' ' :: x)) =
      some ([(chars k, v)], r3) := by
  rw [parseMembers, if_pos rfl, parseString_escaped]
  have h1 : skipSpace (':' :: ' ' :: x) = ':' :: ' ' :: x := skipSpace_of_not (by decide) _
  have h2 : skipSpace (' ' :: x) = x := by rw [skipSpace_of_space (by decide), hx]
  have h4 : rbrace ≠ ',' := by decide
  simp only [h1, h2, hr, hv, if_true, h4, if_false]

theorem skipSpace_quote (cs : List Char) : skipSpace (quote :: cs) = quote :: cs :=
  skipSpace_of_not (by decide) _

theorem skipSpace_indent (cs : List Char) :
    skipSpace ('\n' :: ' ' :: ' ' :: ' ' :: ' ' :: quote :: cs) = quote :: cs := by
  rw [skipSpace_of_space (by decide), skipSpace_of_space (by decide),
    skipSpace_of_space (by decide), skipSpace_of_space (by decide),
    skipSpace_of_space (by decide), skipSpace_quote]

theorem parseValue_object (f d : Nat) (hd : d < maxNestingDepth) (it : ClipboardItem)
    (rest : List Char) :
    parseValue (f + 5) d (encodeObject it ++ rest) = some (itemValue it, rest) := by
  unfold encodeObject encodeString
  simp only [List.append_assoc, List.cons_append, List.nil_append]
  have hb1 : lbrace ≠ quote := by decide
  have hb2 : lbrace ≠ '[' := by decide
  have hq : quote ≠ rbrace := by decide
  have hdepth : ¬ maxNestingDepth ≤ d := Nat.not_le.mpr hd
  rw [parseValue]
  simp only [hb1, hb2, if_false, if_true, skipSpace_indent, hq, hdepth]
  rw [parseMembers_comma (f + 3) _ _ _ _ _ (skipSpace_quote _) (parseValue_string _ _ _ _)]
  rw [skipSpace_indent]
  rw [parseMembers_comma (f + 2) _ _ _ _ _ (formatInt_skipSpace _ _) (parseValue_number _ _ _ _)]
  rw [skipSpace_indent]
  rw [parseMembers_last (f + 1) _ _ _ _ rest _ (skipSpace_quote _) (parseValue_string _ _ _ _)]
  · have k1 : chars (str "content") = "content".data := chars_utf8 _
    have k2 : chars (str "timestamp") = "timestamp".data := chars_utf8 _
    have k3 : chars (str "id") = "id".data := chars_utf8 _
    rw [k1, k2, k3]
    rfl
  · rw [skipSpace_of_space (by decide), skipSpace_of_space (by decide),
      skipSpace_of_space (by decide), skipSpace_of_not (by decide)]

theorem decodeItem_itemValue (it : ClipboardItem) :
    decodeItem (itemValue it) = coerceItem it := by
  have h1 : keyIs "content" "content".data = true := by decide
  have h2 : keyIs "content" "timestamp".data = false := by decide
  have h3 : keyIs "timestamp" "timestamp".data = true := by decide
  have h4 : keyIs "content" "id".data = false := by decide
  have h5 : keyIs "timestamp" "id".data = false := by decide
  have h6 : keyIs "id" "id".data = true := by decide
  simp [decodeItem, itemValue, setField, h1, h2, h3, h4, h5, h6, coerceItem, toValidUTF8]

end Json

namespace Json

theorem encodeObject_head (it : ClipboardItem) :
    ∃ body, encodeObject it = lbrace :: body := ⟨_, rfl⟩

theorem skipSpace_encodeItem (it : ClipboardItem) (rest : List Char) :
    skipSpace (encodeItem it ++ rest) = encodeObject it ++ rest := by
  obtain ⟨body, hb⟩ := encodeObject_head it
  unfold encodeItem
  rw [hb]
  simp only [List.cons_append, List.nil_append]
  rw [skipSpace_of_space (by decide), skipSpace_of_space (by decide),
    skipSpace_of_not (by decide)]

theorem encodeItems_single (it : ClipboardItem) : encodeItems [it] = encodeItem it := rfl

theorem encodeItems_cons_cons (it it2 : ClipboardItem) (tl : List ClipboardItem) :
    encodeItems (it :: it2 :: tl) = encodeItem it ++ [',', '\n'] ++ encodeItems (it2 :: tl) := rfl

theorem skipSpace_encodeItems (it : ClipboardItem) (tl : List ClipboardItem) (rest : List Char) :
    ∃ body, skipSpace (encodeItems (it :: tl) ++ rest) = lbrace :: body := by
  obtain ⟨body, hb⟩ := encodeObject_head it
  cases tl with
  | nil =>
    refine ⟨body ++ rest, ?_⟩
    rw [encodeItems_single, skipSpace_encodeItem, hb]
    rfl
  | cons it2 tl2 =>
    refine ⟨body ++ ([',', '\n'] ++ encodeItems (it2 :: tl2) ++ rest), ?_⟩
    rw [encodeItems_cons_cons, List.append_assoc, List.append_assoc, skipSpace_encodeItem, hb]
    simp

theorem parseElements_encodeItems (xs : List ClipboardItem) :
    xs ≠ [] → ∀ (f : Nat) (rest : List Char),
      parseElements (f + xs.length + 5) 1 (skipSpace (encodeItems xs ++ '\n' :: ']' :: rest)) =
        some (xs.map itemValue, rest) := by
  induction xs with
  | nil => intro h; exact absurd rfl h
  | cons it tl ih =>
    intro _ f rest
    have hc : (']' : Char) ≠ ',' := by decide
    cases tl with
    | nil =>
      rw [encodeItems_single, skipSpace_encodeItem]
      show parseElements ((f + 5) + 1) 1 _ = _
      rw [parseElements, parseValue_object _ _ (by decide)]
      have hs : skipSpace ('\n' :: ']' :: rest) = ']' :: rest := by
        rw [skipSpace_of_space (by decide), skipSpace_of_not (by decide)]
      simp only [hs, hc, if_false, if_true]
      rfl
    | cons it2 tl2 =>
      have ih2 := ih (by simp) f rest
      rw [encodeItems_cons_cons, List.append_assoc, List.append_assoc, skipSpace_encodeItem]
      show parseElements ((f + (it2 :: tl2).length + 5) + 1) 1 _ = _
      rw [parseElements, parseValue_object _ _ (by decide)]
      have hs : ∀ y, skipSpace ([',', '\n'] ++ y) = ',' :: '\n' :: y := by
        intro y
        exact skipSpace_of_not (by decide) _
      have hn : ∀ y, skipSpace ('\n' :: y) = skipSpace y := fun y =>
        skipSpace_of_space (by decide) y
      simp only [hs, hn, if_true, ih2]
      rfl

theorem encodeItems_length (xs : List ClipboardItem) :
    2 * xs.length ≤ (encodeItems xs).length := by
  induction xs with
  | nil => simp [encodeItems]
  | cons it tl ih =>
    have h1 : 2 ≤ (encodeItem it).length := by
      unfold encodeItem
      simp
    cases tl with
    | nil => simpa [encodeItems] using h1
    | cons it2 tl2 =>
      rw [encodeItems_cons_cons]
      simp only [List.length_append, List.length_cons] at ih ⊢
      omega

theorem parseDocument_marshalText (xs : List ClipboardItem) (h : xs ≠ []) :
    parseDocument (marshalText xs) = some (Value.array (xs.map itemValue)) := by
  obtain ⟨it, tl, rfl⟩ := List.exists_cons_of_ne_nil h
  obtain ⟨body, hb⟩ := skipSpace_encodeItems it tl ['\n', ']']
  have hlen := encodeItems_length (it :: tl)
  have hmar : marshalText (it :: tl) = '[' :: '\n' :: (encodeItems (it :: tl) ++ ['\n', ']']) := rfl
  have hfuel : ∃ f, (marshalText (it :: tl)).length = f + (it :: tl).length + 5 := by
    refine ⟨(marshalText (it :: tl)).length - ((it :: tl).length + 5), ?_⟩
    rw [hmar]
    simp only [List.length_append, List.length_cons, List.length_nil] at hlen ⊢
    omega
  obtain ⟨f, hf⟩ := hfuel
  have key := parseElements_encodeItems (it :: tl) h f []
  rw [hb] at key
  unfold parseDocument
  rw [hf, hmar, skipSpace_of_not (by decide), parseValue]
  have hq : ('[' : Char) ≠ quote := by decide
  have hr : lbrace ≠ ']' := by decide
  have hdepth : ¬ maxNestingDepth ≤ 0 := by decide
  simp only [hq, if_false, if_true, skipSpace_of_space (show isSpace '\n' = true by decide), hb,
    hr, key, hdepth]
  rfl

theorem map_decodeItem_itemValue (xs : List ClipboardItem) :
    (xs.map itemValue).map decodeItem = xs.map coerceItem := by
  induction xs with
  | nil => rfl
  | cons it tl ih => rw [List.map_cons, List.map_cons, decodeItem_itemValue, ih, List.map_cons]

/-- Reading back what `marshalIndent` wrote gives the list that was written,
with the content and the id of every entry coerced to valid UTF-8. -/
theorem unmarshal_marshalIndent (xs : List ClipboardItem) :
    unmarshal (marshalIndent xs) = xs.map coerceItem := by
  by_cases h : xs = []
  · subst h
    decide
  · unfold unmarshal marshalIndent
    rw [chars_utf8, parseDocument_marshalText xs h]
    exact map_decodeItem_itemValue xs

end Json

/-! ## The fuel of the reader is never short -/

namespace Json

theorem skipSpace_length_le (cs : List Char) : (skipSpace cs).length ≤ cs.length := by
  induction cs with
  | nil => simp [skipSpace]
  | cons c cs ih =>
    rw [skipSpace]
    split
    · simp only [List.length_cons]; omega
    · exact le_refl _

theorem consUnit_some {u : CodeUnit} {r : Option (List CodeUnit × List Char)}
    {us : List CodeUnit} {rest : List Char} (h : consUnit u r = some (us, rest)) :
    ∃ us0, r = some (us0, rest) := by
  cases r with
  | none => exact Option.noConfusion h
  | some p =>
    obtain ⟨us0, r0⟩ := p
    simp only [consUnit, Option.some.injEq, Prod.mk.injEq] at h
    exact ⟨us0, by rw [h.2]⟩

theorem parseUnits_length : ∀ (n : Nat) (cs : List Char), cs.length ≤ n →
    ∀ us rest, parseUnits cs = some (us, rest) → rest.length < cs.length := by
  intro n
  induction n with
  | zero =>
    intro cs hn us rest h
    have : cs = [] := List.length_eq_zero.mp (by omega)
    subst this
    rw [parseUnits.eq_def] at h
    exact Option.noConfusion h
  | succ n ih =>
    intro cs hn us rest h
    rw [parseUnits.eq_def] at h
    cases cs with
    | nil => exact Option.noConfusion h
    | cons c cs =>
      simp only at h
      simp only [List.length_cons] at hn ⊢
      split_ifs at h with h1 h2 h3
      · simp only [Option.some.injEq, Prod.mk.injEq] at h
        rw [← h.2]; omega
      · cases cs with
        | nil => exact Option.noConfusion h
        | cons e r =>
          simp only at h
          simp only [List.length_cons] at hn ⊢
          split_ifs at h with h4
          · match r, h with
            | h1 :: h2 :: h3 :: h4 :: r2, h =>
              simp only at h
              cases hg : getu4 h1 h2 h3 h4 with
              | none => rw [hg] at h; exact Option.noConfusion h
              | some k =>
                rw [hg] at h
                simp only at h
                obtain ⟨us0, h0⟩ := consUnit_some h
                have := ih r2 (by simp only [List.length_cons] at hn; omega) us0 rest h0
                simp only [List.length_cons]
                omega
            | [], h => exact Option.noConfusion h
            | [_], h => exact Option.noConfusion h
            | [_, _], h => exact Option.noConfusion h
            | [_, _, _], h => exact Option.noConfusion h
          · cases hs : simpleEscape e with
            | none => rw [hs] at h; exact Option.noConfusion h
            | some ch =>
              rw [hs] at h
              simp only at h
              obtain ⟨us0, h0⟩ := consUnit_some h
              have := ih r (by omega) us0 rest h0
              omega
      · obtain ⟨us0, h0⟩ := consUnit_some h
        have := ih cs (by omega) us0 rest h0
        omega

theorem parseString_length {cs s rest : List Char} (h : parseString cs = some (s, rest)) :
    rest.length < cs.length := by
  unfold parseString at h
  cases hu : parseUnits cs with
  | none => rw [hu] at h; exact Option.noConfusion h
  | some p =>
    obtain ⟨us, r⟩ := p
    rw [hu] at h
    simp only [Option.some.injEq, Prod.mk.injEq] at h
    rw [← h.2]
    exact parseUnits_length cs.length cs (le_refl _) us r hu

theorem takeDigits_length (cs : List Char) : ∀ acc, (takeDigits acc cs).2.length ≤ cs.length := by
  induction cs with
  | nil => intro acc; simp [takeDigits]
  | cons c cs ih =>
    intro acc
    rw [takeDigits]
    split
    · have := ih (10 * acc + (c.toNat - 48))
      simp only [List.length_cons]; omega
    · exact le_refl _

theorem someDigits_length {cs r : List Char} (h : someDigits cs = some r) :
    r.length < cs.length := by
  cases cs with
  | nil => exact Option.noConfusion h
  | cons c cs =>
    rw [someDigits] at h
    split_ifs at h
    simp only [Option.some.injEq] at h
    rw [← h]
    have := takeDigits_length cs 0
    simp only [List.length_cons]; omega

theorem parseFrac_length {cs r : List Char} {b : Bool} (h : parseFrac cs = some (b, r)) :
    r.length ≤ cs.length := by
  cases cs with
  | nil =>
    simp only [parseFrac, Option.some.injEq, Prod.mk.injEq] at h
    rw [← h.2]
  | cons c cs =>
    rw [parseFrac] at h
    split_ifs at h
    · cases hs : someDigits cs with
      | none => rw [hs] at h; exact Option.noConfusion h
      | some r0 =>
        rw [hs] at h
        simp only [Option.some.injEq, Prod.mk.injEq] at h
        have := someDigits_length hs
        rw [← h.2]
        simp only [List.length_cons]; omega
    · simp only [Option.some.injEq, Prod.mk.injEq] at h
      rw [← h.2]

theorem parseExp_length {cs r : List Char} {b : Bool} (h : parseExp cs = some (b, r)) :
    r.length ≤ cs.length := by
  cases cs with
  | nil =>
    simp only [parseExp, Option.some.injEq, Prod.mk.injEq] at h
    rw [← h.2]
  | cons c cs =>
    rw [parseExp.eq_def] at h
    simp only at h
    split_ifs at h
    · cases cs with
      | nil => exact Option.noConfusion h
      | cons s r1 =>
        simp only at h
        split_ifs at h
        · cases hs : someDigits r1 with
          | none => rw [hs] at h; exact Option.noConfusion h
          | some r0 =>
            rw [hs] at h
            simp only [Option.some.injEq, Prod.mk.injEq] at h
            have := someDigits_length hs
            rw [← h.2]
            simp only [List.length_cons]; omega
        · cases hs : someDigits (s :: r1) with
          | none => rw [hs] at h; exact Option.noConfusion h
          | some r0 =>
            rw [hs] at h
            simp only [Option.some.injEq, Prod.mk.injEq] at h
            have := someDigits_length hs
            rw [← h.2]
            simp only [List.length_cons] at this ⊢; omega
    · simp only [Option.some.injEq, Prod.mk.injEq] at h
      rw [← h.2]

theorem parseIntPart_length {cs r : List Char} {n : Nat} (h : parseIntPart cs = some (n, r)) :
    r.length < cs.length := by
  cases cs with
  | nil => exact Option.noConfusion h
  | cons d r0 =>
    rw [parseIntPart] at h
    split_ifs at h with h1 h2
    · simp only [Option.some.injEq, Prod.mk.injEq] at h
      rw [← h.2]; simp
    · simp only [Option.some.injEq] at h
      have h3 : (takeDigits 0 (d :: r0)).2 = r := by rw [h]
      rw [takeDigits, if_pos h2] at h3
      have := takeDigits_length r0 (10 * 0 + (d.toNat - 48))
      rw [h3] at this
      simp only [List.length_cons]; omega

theorem parseUnsigned_length {cs r : List Char} {neg : Bool} {n : Option Int}
    (h : parseUnsigned neg cs = some (n, r)) : r.length < cs.length := by
  unfold parseUnsigned at h
  cases hi : parseIntPart cs with
  | none => rw [hi] at h; exact Option.noConfusion h
  | some p =>
    obtain ⟨k, r1⟩ := p
    rw [hi] at h
    simp only at h
    have h1 := parseIntPart_length hi
    cases hf : parseFrac r1 with
    | none => rw [hf] at h; exact Option.noConfusion h
    | some q =>
      obtain ⟨b2, r2⟩ := q
      rw [hf] at h
      simp only at h
      have h2 := parseFrac_length hf
      cases he : parseExp r2 with
      | none => rw [he] at h; exact Option.noConfusion h
      | some q3 =>
        obtain ⟨b3, r3⟩ := q3
        rw [he] at h
        simp only at h
        have h3 := parseExp_length he
        split_ifs at h <;>
          (simp only [Option.some.injEq, Prod.mk.injEq] at h
           rw [← h.2]; omega)

theorem parseNumber_length {cs r : List Char} {n : Option Int}
    (h : parseNumber cs = some (n, r)) : r.length < cs.length := by
  cases cs with
  | nil => exact Option.noConfusion h
  | cons c cs =>
    rw [parseNumber] at h
    split_ifs at h
    · have := parseUnsigned_length h
      simp only [List.length_cons]; omega
    · exact parseUnsigned_length h

theorem expectWord_length : ∀ (w cs r : List Char), expectWord w cs = some r →
    r.length ≤ cs.length := by
  intro w
  induction w with
  | nil =>
    intro cs r h
    simp only [expectWord, Option.some.injEq] at h
    rw [h]
  | cons x w ih =>
    intro cs r h
    cases cs with
    | nil => exact Option.noConfusion h
    | cons c cs =>
      rw [expectWord] at h
      split_ifs at h
      have := ih cs r h
      simp only [List.length_cons]; omega

end Json

namespace Json

theorem parseValue_quote (f d : Nat) (rest : List Char) :
    parseValue (f + 1) d (quote :: rest) =
      match parseString rest with
      | some (s, r) => some (Value.string s, r)
      | none => none := by
  rw [parseValue, if_pos rfl]

theorem parseValue_bracket (f d : Nat) (rest : List Char) :
    parseValue (f + 1) d ('[' :: rest) =
      if maxNestingDepth ≤ d then none
      else
        match skipSpace rest with
        | [] => none
        | c1 :: r1 =>
          if c1 = ']' then some (Value.array [], r1)
          else
            match parseElements f (d + 1) (c1 :: r1) with
            | some (vs, r) => some (Value.array vs, r)
            | none => none := by
  rw [parseValue, if_neg (by decide), if_pos rfl]

theorem parseValue_brace (f d : Nat) (rest : List Char) :
    parseValue (f + 1) d (lbrace :: rest) =
      if maxNestingDepth ≤ d then none
      else
        match skipSpace rest with
        | [] => none
        | c1 :: r1 =>
          if c1 = rbrace then some (Value.object [], r1)
          else
            match parseMembers f (d + 1) (c1 :: r1) with
            | some (ms, r) => some (Value.object ms, r)
            | none => none := by
  rw [parseValue, if_neg (by decide), if_neg (by decide), if_pos rfl]

theorem parseValue_scalar (f d : Nat) (c : Char) (rest : List Char) (h1 : c ≠ quote)
    (h2 : c ≠ '[') (h3 : c ≠ lbrace) :
    parseValue (f + 1) d (c :: rest) = parseValue 1 0 (c :: rest) := by
  rw [parseValue, parseValue]
  simp only [h1, h2, h3, if_false]

theorem parseValue_scalar_length (c : Char) (rest : List Char) (h1 : c ≠ quote)
    (h2 : c ≠ '[') (h3 : c ≠ lbrace) (v : Value) (r : List Char)
    (h : parseValue 1 0 (c :: rest) = some (v, r)) : r.length < (c :: rest).length := by
  rw [parseValue] at h
  simp only [h1, h2, h3, if_false] at h
  split_ifs at h
  · cases hw : expectWord ['r', 'u', 'e'] rest with
    | none => rw [hw] at h; exact Option.noConfusion h
    | some r0 =>
      rw [hw] at h
      simp only [Option.some.injEq, Prod.mk.injEq] at h
      have := expectWord_length _ _ _ hw
      rw [← h.2]; simp only [List.length_cons]; omega
  · cases hw : expectWord ['a', 'l', 's', 'e'] rest with
    | none => rw [hw] at h; exact Option.noConfusion h
    | some r0 =>
      rw [hw] at h
      simp only [Option.some.injEq, Prod.mk.injEq] at h
      have := expectWord_length _ _ _ hw
      rw [← h.2]; simp only [List.length_cons]; omega
  · cases hw : expectWord ['u', 'l', 'l'] rest with
    | none => rw [hw] at h; exact Option.noConfusion h
    | some r0 =>
      rw [hw] at h
      simp only [Option.some.injEq, Prod.mk.injEq] at h
      have := expectWord_length _ _ _ hw
      rw [← h.2]; simp only [List.length_cons]; omega
  · cases hn : parseNumber (c :: rest) with
    | none => rw [hn] at h; exact Option.noConfusion h
    | some p =>
      obtain ⟨n, r0⟩ := p
      rw [hn] at h
      simp only [Option.some.injEq, Prod.mk.injEq] at h
      have := parseNumber_length hn
      rw [← h.2]; exact this

theorem fuelEnough_all (f : Nat) :
    FuelEnough parseValue f ∧ FuelEnough parseElements f ∧ FuelEnough parseMembers f := by
  induction f with
  | zero =>
    refine ⟨?_, ?_, ?_⟩ <;> intro d cs a r h
    · rw [parseValue] at h; exact Option.noConfusion h
    · rw [parseElements] at h; exact Option.noConfusion h
    · rw [parseMembers] at h; exact Option.noConfusion h
  | succ f ih =>
    obtain ⟨ihV, ihE, ihM⟩ := ih
    refine ⟨?_, ?_, ?_⟩
    · intro d cs v r h
      cases cs with
      | nil => rw [parseValue] at h; exact Option.noConfusion h
      | cons c rest =>
        by_cases h1 : c = quote
        · subst h1
          rw [parseValue_quote] at h
          cases hs : parseString rest with
          | none => rw [hs] at h; exact Option.noConfusion h
          | some p =>
            obtain ⟨s, r0⟩ := p
            rw [hs] at h
            simp only [Option.some.injEq, Prod.mk.injEq] at h
            have hl := parseString_length hs
            obtain ⟨hv, hr⟩ := h
            subst hv hr
            refine ⟨by simp only [List.length_cons]; omega, ?_⟩
            intro g hg
            simp only [List.length_cons] at hg
            obtain ⟨g', rfl⟩ : ∃ g', g = g' + 1 := ⟨g - 1, by omega⟩
            rw [parseValue_quote, hs]
        · by_cases h2 : c = '['
          · subst h2
            rw [parseValue_bracket] at h
            by_cases hd : maxNestingDepth ≤ d
            · rw [if_pos hd] at h
              exact Option.noConfusion h
            rw [if_neg hd] at h
            have hsk := skipSpace_length_le rest
            cases hs : skipSpace rest with
            | nil => rw [hs] at h; exact Option.noConfusion h
            | cons c1 r1 =>
              rw [hs] at h hsk
              simp only [List.length_cons] at hsk
              simp only at h
              by_cases hc : c1 = ']'
              · rw [if_pos hc] at h
                simp only [Option.some.injEq, Prod.mk.injEq] at h
                obtain ⟨hv, hr⟩ := h
                subst hv hr
                refine ⟨by simp only [List.length_cons]; omega, ?_⟩
                intro g hg
                simp only [List.length_cons] at hg
                obtain ⟨g', rfl⟩ : ∃ g', g = g' + 1 := ⟨g - 1, by omega⟩
                rw [parseValue_bracket, if_neg hd, hs]
                simp only [hc, if_true]
              · rw [if_neg hc] at h
                cases he : parseElements f (d + 1) (c1 :: r1) with
                | none => rw [he] at h; exact Option.noConfusion h
                | some p =>
                  obtain ⟨vs, r0⟩ := p
                  rw [he] at h
                  simp only [Option.some.injEq, Prod.mk.injEq] at h
                  obtain ⟨hv, hr⟩ := h
                  subst hv hr
                  obtain ⟨hl, hfuel⟩ := ihE _ _ _ _ he
                  simp only [List.length_cons] at hl
                  refine ⟨by simp only [List.length_cons]; omega, ?_⟩
                  intro g hg
                  simp only [List.length_cons] at hg
                  obtain ⟨g', rfl⟩ : ∃ g', g = g' + 1 := ⟨g - 1, by omega⟩
                  rw [parseValue_bracket, if_neg hd, hs]
                  simp only [hc, if_false]
                  rw [hfuel g' (by simp only [List.length_cons]; omega)]
          · by_cases h3 : c = lbrace
            · subst h3
              rw [parseValue_brace] at h
              by_cases hd : maxNestingDepth ≤ d
              · rw [if_pos hd] at h
                exact Option.noConfusion h
              rw [if_neg hd] at h
              have hsk := skipSpace_length_le rest
              cases hs : skipSpace rest with
              | nil => rw [hs] at h; exact Option.noConfusion h
              | cons c1 r1 =>
                rw [hs] at h hsk
                simp only [List.length_cons] at hsk
                simp only at h
                by_cases hc : c1 = rbrace
                · rw [if_pos hc] at h
                  simp only [Option.some.injEq, Prod.mk.injEq] at h
                  obtain ⟨hv, hr⟩ := h
                  subst hv hr
                  refine ⟨by simp only [List.length_cons]; omega, ?_⟩
                  intro g hg
                  simp only [List.length_cons] at hg
                  obtain ⟨g', rfl⟩ : ∃ g', g = g' + 1 := ⟨g - 1, by omega⟩
                  rw [parseValue_brace, if_neg hd, hs]
                  simp only [hc, if_true]
                · rw [if_neg hc] at h
                  cases he : parseMembers f (d + 1) (c1 :: r1) with
                  | none => rw [he] at h; exact Option.noConfusion h
                  | some p =>
                    obtain ⟨ms, r0⟩ := p
                    rw [he] at h
                    simp only [Option.some.injEq, Prod.mk.injEq] at h
                    obtain ⟨hv, hr⟩ := h
                    subst hv hr
                    obtain ⟨hl, hfuel⟩ := ihM _ _ _ _ he
                    simp only [List.length_cons] at hl
                    refine ⟨by simp only [List.length_cons]; omega, ?_⟩
                    intro g hg
                    simp only [List.length_cons] at hg
                    obtain ⟨g', rfl⟩ : ∃ g', g = g' + 1 := ⟨g - 1, by omega⟩
                    rw [parseValue_brace, if_neg hd, hs]
                    simp only [hc, if_false]
                    rw [hfuel g' (by simp only [List.length_cons]; omega)]
            · rw [parseValue_scalar f d c rest h1 h2 h3] at h
              have hl := parseValue_scalar_length c rest h1 h2 h3 v r h
              refine ⟨hl, ?_⟩
              intro g hg
              obtain ⟨g', rfl⟩ : ∃ g', g = g' + 1 := ⟨g - 1, by omega⟩
              rw [parseValue_scalar g' d c rest h1 h2 h3, h]
    · intro d cs vs r h
      rw [parseElements] at h
      cases hv : parseValue f d cs with
      | none => rw [hv] at h; exact Option.noConfusion h
      | some p =>
        obtain ⟨v, r0⟩ := p
        rw [hv] at h
        simp only at h
        obtain ⟨hl0, hfuel0⟩ := ihV _ _ _ _ hv
        have hsk := skipSpace_length_le r0
        cases hs : skipSpace r0 with
        | nil => rw [hs] at h; exact Option.noConfusion h
        | cons c r1 =>
          rw [hs] at h hsk
          simp only [List.length_cons] at hsk
          simp only at h
          by_cases hc : c = ','
          · rw [if_pos hc] at h
            have hsk2 := skipSpace_length_le r1
            cases he : parseElements f d (skipSpace r1) with
            | none => rw [he] at h; exact Option.noConfusion h
            | some q =>
              obtain ⟨vs0, r2⟩ := q
              rw [he] at h
              simp only [Option.some.injEq, Prod.mk.injEq] at h
              obtain ⟨hvs, hr⟩ := h
              subst hvs hr
              obtain ⟨hl1, hfuel1⟩ := ihE _ _ _ _ he
              refine ⟨by omega, ?_⟩
              intro g hg
              obtain ⟨g', rfl⟩ : ∃ g', g = g' + 1 := ⟨g - 1, by omega⟩
              rw [parseElements, hfuel0 g' (by omega)]
              simp only [hs, hc, if_true]
              rw [hfuel1 g' (by omega)]
          · rw [if_neg hc] at h
            by_cases hb : c = ']'
            · rw [if_pos hb] at h
              simp only [Option.some.injEq, Prod.mk.injEq] at h
              obtain ⟨hvs, hr⟩ := h
              subst hvs hr
              refine ⟨by omega, ?_⟩
              intro g hg
              obtain ⟨g', rfl⟩ : ∃ g', g = g' + 1 := ⟨g - 1, by omega⟩
              rw [parseElements, hfuel0 g' (by omega)]
              simp only [hs, hc, if_false]
              rw [if_pos hb]
            · rw [if_neg hb] at h
              exact Option.noConfusion h
    · intro d cs ms r h
      cases cs with
      | nil => rw [parseMembers] at h; exact Option.noConfusion h
      | cons q r0 =>
        rw [parseMembers] at h
        by_cases hq : q = quote
        · rw [if_pos hq] at h
          cases hk : parseString r0 with
          | none => rw [hk] at h; exact Option.noConfusion h
          | some p =>
            obtain ⟨k, rk⟩ := p
            rw [hk] at h
            simp only at h
            have hlk := parseString_length hk
            have hsk1 := skipSpace_length_le rk
            cases hs1 : skipSpace rk with
            | nil => rw [hs1] at h; exact Option.noConfusion h
            | cons c r1 =>
              rw [hs1] at h hsk1
              simp only [List.length_cons] at hsk1
              simp only at h
              by_cases hc : c = ':'
              · rw [if_pos hc] at h
                have hsk2 := skipSpace_length_le r1
                cases hv : parseValue f d (skipSpace r1) with
                | none => rw [hv] at h; exact Option.noConfusion h
                | some pv =>
                  obtain ⟨v, r2⟩ := pv
                  rw [hv] at h
                  simp only at h
                  obtain ⟨hl0, hfuel0⟩ := ihV _ _ _ _ hv
                  have hsk3 := skipSpace_length_le r2
                  cases hs3 : skipSpace r2 with
                  | nil => rw [hs3] at h; exact Option.noConfusion h
                  | cons c2 r3 =>
                    rw [hs3] at h hsk3
                    simp only [List.length_cons] at hsk3
                    simp only at h
                    by_cases hcomma : c2 = ','
                    · rw [if_pos hcomma] at h
                      have hsk4 := skipSpace_length_le r3
                      cases hm : parseMembers f d (skipSpace r3) with
                      | none => rw [hm] at h; exact Option.noConfusion h
                      | some pm =>
                        obtain ⟨ms0, r4⟩ := pm
                        rw [hm] at h
                        simp only [Option.some.injEq, Prod.mk.injEq] at h
                        obtain ⟨hms, hr⟩ := h
                        subst hms hr
                        obtain ⟨hl1, hfuel1⟩ := ihM _ _ _ _ hm
                        refine ⟨by simp only [List.length_cons]; omega, ?_⟩
                        intro g hg
                        simp only [List.length_cons] at hg
                        obtain ⟨g', rfl⟩ : ∃ g', g = g' + 1 := ⟨g - 1, by omega⟩
                        rw [parseMembers, if_pos hq, hk]
                        simp only [hs1, hc, if_true]
                        rw [hfuel0 g' (by omega)]
                        simp only [hs3, hcomma, if_true]
                        rw [hfuel1 g' (by omega)]
                    · rw [if_neg hcomma] at h
                      by_cases hb : c2 = rbrace
                      · rw [if_pos hb] at h
                        simp only [Option.some.injEq, Prod.mk.injEq] at h
                        obtain ⟨hms, hr⟩ := h
                        subst hms hr
                        refine ⟨by simp only [List.length_cons]; omega, ?_⟩
                        intro g hg
                        simp only [List.length_cons] at hg
                        obtain ⟨g', rfl⟩ : ∃ g', g = g' + 1 := ⟨g - 1, by omega⟩
                        rw [parseMembers, if_pos hq, hk]
                        simp only [hs1, hc, if_true]
                        rw [hfuel0 g' (by omega)]
                        simp only [hs3, hcomma, if_false]
                        rw [if_pos hb]
                      · rw [if_neg hb] at h
                        exact Option.noConfusion h
              · rw [if_neg hc] at h
                exact Option.noConfusion h
        · rw [if_neg hq] at h
          exact Option.noConfusion h

/-- Nesting beyond `maxNestingDepth` is refused: an array or object opened
with that many already open is an error. -/
theorem parseValue_too_deep (f d : Nat) (hd : maxNestingDepth ≤ d) (rest : List Char) :
    parseValue f d ('[' :: rest) = none ∧ parseValue f d (lbrace :: rest) = none := by
  cases f with
  | zero => exact ⟨by rw [parseValue], by rw [parseValue]⟩
  | succ f => exact ⟨by rw [parseValue_bracket, if_pos hd], by rw [parseValue_brace, if_pos hd]⟩

/-- The fuel `parseDocument` gives is enough: when some fuel reads the text as
one value followed by white space only, `parseDocument` returns that value. -/
theorem parseDocument_of_parseValue (data : List Char) (f : Nat) (v : Value) (r : List Char)
    (h : parseValue f 0 (skipSpace data) = some (v, r)) (hr : skipSpace r = []) :
    parseDocument data = some v := by
  obtain ⟨_, hfuel⟩ := (fuelEnough_all f).1 _ _ _ _ h
  have hsk := skipSpace_length_le data
  unfold parseDocument
  rw [hfuel (data.length + 1) (by omega)]
  simp only [hr, if_true]

end Json

/-! ## What the reader reads does not depend on what follows -/

namespace Json

theorem skipSpace_split (cs : List Char) :
    ∃ s, cs = s ++ skipSpace cs ∧ ∀ x ∈ s, isSpace x = true := by
  induction cs with
  | nil => exact ⟨[], rfl, by simp⟩
  | cons c cs ih =>
    cases hc : isSpace c with
    | true =>
      obtain ⟨s, hs, hall⟩ := ih
      refine ⟨c :: s, ?_, ?_⟩
      · rw [skipSpace_of_space hc, List.cons_append, ← hs]
      · intro x hx
        rcases List.mem_cons.mp hx with h | h
        · rw [h]; exact hc
        · exact hall x h
    | false =>
      exact ⟨[], by rw [skipSpace_of_not hc]; rfl, by simp⟩

theorem skipSpace_head (cs : List Char) (c : Char) (r : List Char)
    (h : skipSpace cs = c :: r) : isSpace c = false := by
  induction cs with
  | nil => simp [skipSpace] at h
  | cons c0 cs ih =>
    cases hc : isSpace c0 with
    | true =>
      rw [skipSpace_of_space hc] at h
      exact ih h
    | false =>
      rw [skipSpace_of_not hc] at h
      simp only [List.cons.injEq] at h
      rw [← h.1]
      exact hc

theorem skipSpace_spaces (s x : List Char) (hs : ∀ c ∈ s, isSpace c = true) :
    skipSpace (s ++ x) = skipSpace x := by
  induction s with
  | nil => rfl
  | cons c s ih =>
    rw [List.cons_append, skipSpace_of_space (hs c (List.mem_cons_self _ _))]
    exact ih (fun y hy => hs y (List.mem_cons_of_mem _ hy))

theorem skipSpace_eq_nil (cs : List Char) (h : skipSpace cs = []) :
    ∀ x ∈ cs, isSpace x = true := by
  obtain ⟨s, hs, hall⟩ := skipSpace_split cs
  rw [h, List.append_nil] at hs
  rw [hs]
  exact hall

/-- The text with its leading white space, split at the first other character. -/
theorem skipSpace_local (cs : List Char) (c : Char) (r : List Char)
    (h : skipSpace cs = c :: r) :
    ∃ s, cs = s ++ c :: r ∧ ∀ e, skipSpace (s ++ c :: e) = c :: e := by
  obtain ⟨s, hs, hall⟩ := skipSpace_split cs
  refine ⟨s, by rw [← h]; exact hs, ?_⟩
  intro e
  rw [skipSpace_spaces s _ hall]
  exact skipSpace_of_not (skipSpace_head cs c r h) e

theorem head?_append_congr (x r e : List Char) (h : r.head? = e.head?) :
    (x ++ r).head? = (x ++ e).head? := by
  cases x with
  | nil => exact h
  | cons a x => rfl

theorem consUnit_eq_some {u : CodeUnit} {r : Option (List CodeUnit × List Char)}
    {us : List CodeUnit} {rest : List Char} (h : consUnit u r = some (us, rest)) :
    ∃ us0, r = some (us0, rest) ∧ us = u :: us0 := by
  cases r with
  | none => exact Option.noConfusion h
  | some p =>
    obtain ⟨us0, r0⟩ := p
    simp only [consUnit, Option.some.injEq, Prod.mk.injEq] at h
    exact ⟨us0, by rw [h.2], h.1.symm⟩

theorem parseUnits_plain (c : Char) (h1 : c ≠ quote) (h2 : c ≠ backslash)
    (h3 : ¬ c.toNat < 32) (tail : List Char) :
    parseUnits (c :: tail) = consUnit (CodeUnit.char c) (parseUnits tail) := by
  rw [parseUnits.eq_def]
  simp only [h1, h2, h3, if_false]

theorem parseUnits_quote (tail : List Char) : parseUnits (quote :: tail) = some ([], tail) := by
  rw [parseUnits.eq_def]
  simp

/-- A string literal is read up to its closing quote, whatever follows. -/
theorem parseUnits_local : ∀ (n : Nat) (cs : List Char), cs.length ≤ n →
    ∀ us rest, parseUnits cs = some (us, rest) →
      ∃ a, cs = a ++ rest ∧ ∀ e, parseUnits (a ++ e) = some (us, e) := by
  intro n
  induction n with
  | zero =>
    intro cs hn us rest h
    have : cs = [] := List.length_eq_zero.mp (by omega)
    subst this
    rw [parseUnits.eq_def] at h
    exact Option.noConfusion h
  | succ n ih =>
    intro cs hn us rest h
    cases cs with
    | nil =>
      rw [parseUnits.eq_def] at h
      exact Option.noConfusion h
    | cons c cs =>
      simp only [List.length_cons] at hn
      by_cases h1 : c = quote
      · subst h1
        rw [parseUnits_quote] at h
        simp only [Option.some.injEq, Prod.mk.injEq] at h
        obtain ⟨hus, hr⟩ := h
        subst hus hr
        exact ⟨[quote], rfl, fun e => parseUnits_quote e⟩
      · by_cases h2 : c = backslash
        · subst h2
          cases cs with
          | nil =>
            rw [parseUnits.eq_def] at h
            simp only [h1, if_false, if_true] at h
            exact Option.noConfusion h
          | cons x r =>
            by_cases hu : x = 'u'
            · subst hu
              match r, h, hn with
              | d1 :: d2 :: d3 :: d4 :: r2, h, hn =>
                cases hg : getu4 d1 d2 d3 d4 with
                | none =>
                  rw [parseUnits.eq_def] at h
                  simp only [h1, hg, if_false, if_true] at h
                  exact Option.noConfusion h
                | some k =>
                  rw [parseUnits_u _ _ _ _ k hg] at h
                  obtain ⟨us0, h0, hus⟩ := consUnit_eq_some h
                  obtain ⟨a, ha, hloc⟩ := ih r2
                    (by simp only [List.length_cons] at hn; omega) us0 rest h0
                  refine ⟨backslash :: 'u' :: d1 :: d2 :: d3 :: d4 :: a, by rw [ha]; rfl, ?_⟩
                  intro e
                  show parseUnits (backslash :: 'u' :: d1 :: d2 :: d3 :: d4 :: (a ++ e)) = _
                  rw [parseUnits_u _ _ _ _ k hg, hloc e, hus]
                  rfl
              | [], h, _ =>
                rw [parseUnits.eq_def] at h
                simp only [h1, if_false, if_true] at h
                exact Option.noConfusion h
              | [_], h, _ =>
                rw [parseUnits.eq_def] at h
                simp only [h1, if_false, if_true] at h
                exact Option.noConfusion h
              | [_, _], h, _ =>
                rw [parseUnits.eq_def] at h
                simp only [h1, if_false, if_true] at h
                exact Option.noConfusion h
              | [_, _, _], h, _ =>
                rw [parseUnits.eq_def] at h
                simp only [h1, if_false, if_true] at h
                exact Option.noConfusion h
            · cases hs : simpleEscape x with
              | none =>
                rw [parseUnits.eq_def] at h
                simp only [h1, hu, hs, if_false, if_true] at h
                exact Option.noConfusion h
              | some ch =>
                rw [parseUnits_simple x ch hs hu] at h
                obtain ⟨us0, h0, hus⟩ := consUnit_eq_some h
                obtain ⟨a, ha, hloc⟩ := ih r
                  (by simp only [List.length_cons] at hn; omega) us0 rest h0
                refine ⟨backslash :: x :: a, by rw [ha]; rfl, ?_⟩
                intro e
                show parseUnits (backslash :: x :: (a ++ e)) = _
                rw [parseUnits_simple x ch hs hu, hloc e, hus]
                rfl
        · by_cases h3 : c.toNat < 32
          · rw [parseUnits.eq_def] at h
            simp only [h1, h2, h3, if_false, if_true] at h
            exact Option.noConfusion h
          · rw [parseUnits_plain c h1 h2 h3] at h
            obtain ⟨us0, h0, hus⟩ := consUnit_eq_some h
            obtain ⟨a, ha, hloc⟩ := ih cs (by omega) us0 rest h0
            refine ⟨c :: a, by rw [ha]; rfl, ?_⟩
            intro e
            show parseUnits (c :: (a ++ e)) = _
            rw [parseUnits_plain c h1 h2 h3, hloc e, hus]
            rfl

theorem parseString_local {cs s rest : List Char} (h : parseString cs = some (s, rest)) :
    ∃ a, cs = a ++ rest ∧ ∀ e, parseString (a ++ e) = some (s, e) := by
  unfold parseString at h
  cases hu : parseUnits cs with
  | none => rw [hu] at h; exact Option.noConfusion h
  | some p =>
    obtain ⟨us, r⟩ := p
    rw [hu] at h
    simp only [Option.some.injEq, Prod.mk.injEq] at h
    obtain ⟨hs, hr⟩ := h
    subst hs hr
    obtain ⟨a, ha, hloc⟩ := parseUnits_local cs.length cs (le_refl _) us r hu
    refine ⟨a, ha, ?_⟩
    intro e
    unfold parseString
    rw [hloc e]

end Json

namespace Json

/-- The digits read do not depend on what follows the first character after them. -/
theorem takeDigits_local (cs : List Char) : ∀ acc,
    ∃ a, cs = a ++ (takeDigits acc cs).2 ∧
      ∀ e, (takeDigits acc cs).2.head? = e.head? →
        takeDigits acc (a ++ e) = ((takeDigits acc cs).1, e) := by
  induction cs with
  | nil =>
    intro acc
    refine ⟨[], rfl, ?_⟩
    intro e he
    have : e = [] := by
      cases e with
      | nil => rfl
      | cons x e => simp [takeDigits] at he
    subst this
    rfl
  | cons c cs ih =>
    intro acc
    by_cases hd : isDigit c = true
    · have hstep : ∀ t, takeDigits acc (c :: t) = takeDigits (10 * acc + (c.toNat - 48)) t := by
        intro t
        rw [takeDigits, if_pos hd]
      obtain ⟨a, ha, hloc⟩ := ih (10 * acc + (c.toNat - 48))
      rw [hstep cs]
      refine ⟨c :: a, by rw [List.cons_append, ← ha], ?_⟩
      intro e he
      rw [List.cons_append, hstep, hloc e he]
    · have hstep : ∀ t, takeDigits acc (c :: t) = (acc, c :: t) := by
        intro t
        rw [takeDigits, if_neg hd]
      rw [hstep cs]
      refine ⟨[], rfl, ?_⟩
      intro e he
      cases e with
      | nil => simp at he
      | cons x e =>
        simp only [List.head?_cons, Option.some.injEq] at he
        subst he
        exact hstep e

theorem someDigits_local {cs r : List Char} (h : someDigits cs = some r) :
    ∃ a, cs = a ++ r ∧ ∀ e, r.head? = e.head? → someDigits (a ++ e) = some e := by
  cases cs with
  | nil => exact Option.noConfusion h
  | cons c cs =>
    rw [someDigits] at h
    by_cases hd : isDigit c = true
    · rw [if_pos hd] at h
      simp only [Option.some.injEq] at h
      obtain ⟨a, ha, hloc⟩ := takeDigits_local cs 0
      rw [h] at ha hloc
      refine ⟨c :: a, by rw [List.cons_append, ← ha], ?_⟩
      intro e he
      rw [List.cons_append, someDigits, if_pos hd, hloc e he]
    · rw [if_neg hd] at h
      exact Option.noConfusion h

theorem parseFrac_local {cs r : List Char} {b : Bool} (h : parseFrac cs = some (b, r)) :
    ∃ a, cs = a ++ r ∧ ∀ e, r.head? = e.head? → parseFrac (a ++ e) = some (b, e) := by
  cases cs with
  | nil =>
    simp only [parseFrac, Option.some.injEq, Prod.mk.injEq] at h
    obtain ⟨hb, hr⟩ := h
    subst hb hr
    refine ⟨[], rfl, ?_⟩
    intro e he
    cases e with
    | nil => rfl
    | cons x e => simp at he
  | cons c cs =>
    rw [parseFrac] at h
    by_cases hc : c = '.'
    · rw [if_pos hc] at h
      cases hs : someDigits cs with
      | none => rw [hs] at h; exact Option.noConfusion h
      | some r0 =>
        rw [hs] at h
        simp only [Option.some.injEq, Prod.mk.injEq] at h
        obtain ⟨hb, hr⟩ := h
        subst hb hr
        obtain ⟨a, ha, hloc⟩ := someDigits_local hs
        refine ⟨c :: a, by rw [List.cons_append, ← ha], ?_⟩
        intro e he
        rw [List.cons_append, parseFrac, if_pos hc, hloc e he]
    · rw [if_neg hc] at h
      simp only [Option.some.injEq, Prod.mk.injEq] at h
      obtain ⟨hb, hr⟩ := h
      subst hb hr
      refine ⟨[], rfl, ?_⟩
      intro e he
      cases e with
      | nil => simp at he
      | cons x e =>
        simp only [List.head?_cons, Option.some.injEq] at he
        subst he
        rw [List.nil_append, parseFrac, if_neg hc]

theorem parseExp_local {cs r : List Char} {b : Bool} (h : parseExp cs = some (b, r)) :
    ∃ a, cs = a ++ r ∧ ∀ e, r.head? = e.head? → parseExp (a ++ e) = some (b, e) := by
  cases cs with
  | nil =>
    simp only [parseExp, Option.some.injEq, Prod.mk.injEq] at h
    obtain ⟨hb, hr⟩ := h
    subst hb hr
    refine ⟨[], rfl, ?_⟩
    intro e he
    cases e with
    | nil => rfl
    | cons x e => simp at he
  | cons c cs =>
    by_cases hc : c = 'e' ∨ c = 'E'
    · cases cs with
      | nil =>
        rw [parseExp.eq_def] at h
        simp only [hc, if_true] at h
        exact Option.noConfusion h
      | cons s r1 =>
        have hstep : ∀ t, parseExp (c :: s :: t) =
            if s = '+' ∨ s = '-' then
              match someDigits t with
              | some r2 => some (true, r2)
              | none => none
            else
              match someDigits (s :: t) with
              | some r2 => some (true, r2)
              | none => none := by
          intro t
          rw [parseExp.eq_def]
          simp only [hc, if_true]
        rw [hstep] at h
        by_cases hs : s = '+' ∨ s = '-'
        · rw [if_pos hs] at h
          cases hd : someDigits r1 with
          | none => rw [hd] at h; exact Option.noConfusion h
          | some r0 =>
            rw [hd] at h
            simp only [Option.some.injEq, Prod.mk.injEq] at h
            obtain ⟨hb, hr⟩ := h
            subst hb hr
            obtain ⟨a, ha, hloc⟩ := someDigits_local hd
            refine ⟨c :: s :: a, by rw [List.cons_append, List.cons_append, ← ha], ?_⟩
            intro e he
            rw [List.cons_append, List.cons_append, hstep, if_pos hs, hloc e he]
        · rw [if_neg hs] at h
          cases hd : someDigits (s :: r1) with
          | none => rw [hd] at h; exact Option.noConfusion h
          | some r0 =>
            rw [hd] at h
            simp only [Option.some.injEq, Prod.mk.injEq] at h
            obtain ⟨hb, hr⟩ := h
            subst hb hr
            obtain ⟨a, ha, hloc⟩ := someDigits_local hd
            cases a with
            | nil =>
              have hlen := someDigits_length hd
              rw [List.nil_append] at ha
              rw [← ha] at hlen
              exact absurd hlen (lt_irrefl _)
            | cons s0 a =>
              rw [List.cons_append] at ha
              have hs0 : s0 = s := by
                simp only [List.cons.injEq] at ha
                exact ha.1.symm
              subst hs0
              refine ⟨c :: s0 :: a, by rw [ha]; rfl, ?_⟩
              intro e he
              rw [List.cons_append, List.cons_append, hstep, if_neg hs]
              have := hloc e he
              rw [List.cons_append] at this
              rw [this]
    · have hstep : ∀ t, parseExp (c :: t) = some (false, c :: t) := by
        intro t
        rw [parseExp.eq_def]
        simp only [hc, if_false]
      rw [hstep] at h
      simp only [Option.some.injEq, Prod.mk.injEq] at h
      obtain ⟨hb, hr⟩ := h
      subst hb hr
      refine ⟨[], rfl, ?_⟩
      intro e he
      cases e with
      | nil => simp at he
      | cons x e =>
        simp only [List.head?_cons, Option.some.injEq] at he
        subst he
        exact hstep e

theorem parseIntPart_local {cs r : List Char} {n : Nat} (h : parseIntPart cs = some (n, r)) :
    ∃ a, cs = a ++ r ∧ ∀ e, r.head? = e.head? → parseIntPart (a ++ e) = some (n, e) := by
  cases cs with
  | nil => exact Option.noConfusion h
  | cons d r0 =>
    rw [parseIntPart] at h
    by_cases h1 : d = '0'
    · rw [if_pos h1] at h
      simp only [Option.some.injEq, Prod.mk.injEq] at h
      obtain ⟨hn, hr⟩ := h
      subst hn hr
      refine ⟨[d], rfl, ?_⟩
      intro e _
      show parseIntPart (d :: e) = _
      rw [parseIntPart, if_pos h1]
    · rw [if_neg h1] at h
      by_cases h2 : isDigit d = true
      · rw [if_pos h2] at h
        simp only [Option.some.injEq] at h
        obtain ⟨a, ha, hloc⟩ := takeDigits_local (d :: r0) 0
        rw [h] at ha hloc
        simp only at ha hloc
        cases a with
        | nil =>
          have hlen := takeDigits_length r0 (10 * 0 + (d.toNat - 48))
          have hstep : takeDigits 0 (d :: r0) = takeDigits (10 * 0 + (d.toNat - 48)) r0 := by
            rw [takeDigits, if_pos h2]
          rw [← hstep, h] at hlen
          simp only at hlen
          rw [List.nil_append] at ha
          rw [← ha] at hlen
          simp only [List.length_cons] at hlen
          omega
        | cons d0 a =>
          rw [List.cons_append] at ha
          have hd0 : d0 = d := by
            simp only [List.cons.injEq] at ha
            exact ha.1.symm
          subst hd0
          refine ⟨d0 :: a, by rw [List.cons_append, ← ha], ?_⟩
          intro e he
          rw [List.cons_append, parseIntPart, if_neg h1, if_pos h2]
          have := hloc e he
          rw [List.cons_append] at this
          rw [this]
      · rw [if_neg h2] at h
        exact Option.noConfusion h

theorem parseUnsigned_local {cs r : List Char} {neg : Bool} {n : Option Int}
    (h : parseUnsigned neg cs = some (n, r)) :
    ∃ a, cs = a ++ r ∧ ∀ e, r.head? = e.head? → parseUnsigned neg (a ++ e) = some (n, e) := by
  unfold parseUnsigned at h
  cases hi : parseIntPart cs with
  | none => rw [hi] at h; exact Option.noConfusion h
  | some p =>
    obtain ⟨k, r1⟩ := p
    rw [hi] at h
    simp only at h
    cases hf : parseFrac r1 with
    | none => rw [hf] at h; exact Option.noConfusion h
    | some q =>
      obtain ⟨b2, r2⟩ := q
      rw [hf] at h
      simp only at h
      cases he : parseExp r2 with
      | none => rw [he] at h; exact Option.noConfusion h
      | some q3 =>
        obtain ⟨b3, r3⟩ := q3
        rw [he] at h
        simp only at h
        obtain ⟨a1, ha1, hloc1⟩ := parseIntPart_local hi
        obtain ⟨a2, ha2, hloc2⟩ := parseFrac_local hf
        obtain ⟨a3, ha3, hloc3⟩ := parseExp_local he
        have hr : r3 = r := by
          split_ifs at h <;>
            (simp only [Option.some.injEq, Prod.mk.injEq] at h
             exact h.2)
        subst hr
        refine ⟨a1 ++ (a2 ++ a3), by rw [List.append_assoc, List.append_assoc, ← ha3, ← ha2, ← ha1],
          ?_⟩
        intro e hhead
        have h3 := hloc3 e hhead
        have h2 := hloc2 (a3 ++ e) (by rw [ha3]; exact head?_append_congr a3 _ _ hhead)
        have h1 := hloc1 (a2 ++ (a3 ++ e))
          (by rw [ha2, ha3]
              exact head?_append_congr a2 _ _ (head?_append_congr a3 _ _ hhead))
        unfold parseUnsigned
        rw [List.append_assoc, List.append_assoc, h1]
        simp only
        rw [h2]
        simp only
        rw [h3]
        simp only
        split_ifs at h ⊢ <;>
          (simp only [Option.some.injEq, Prod.mk.injEq] at h ⊢
           exact ⟨h.1, trivial⟩)

theorem parseNumber_local {cs r : List Char} {n : Option Int}
    (h : parseNumber cs = some (n, r)) :
    ∃ a, cs = a ++ r ∧ ∀ e, r.head? = e.head? → parseNumber (a ++ e) = some (n, e) := by
  cases cs with
  | nil => exact Option.noConfusion h
  | cons c cs =>
    rw [parseNumber] at h
    by_cases hc : c = '-'
    · rw [if_pos hc] at h
      obtain ⟨a, ha, hloc⟩ := parseUnsigned_local h
      refine ⟨c :: a, by rw [List.cons_append, ← ha], ?_⟩
      intro e he
      rw [List.cons_append, parseNumber, if_pos hc, hloc e he]
    · rw [if_neg hc] at h
      obtain ⟨a, ha, hloc⟩ := parseUnsigned_local h
      cases a with
      | nil =>
        have hlen := parseUnsigned_length h
        rw [List.nil_append] at ha
        rw [← ha] at hlen
        exact absurd hlen (lt_irrefl _)
      | cons c0 a =>
        rw [List.cons_append] at ha
        have hc0 : c0 = c := by
          simp only [List.cons.injEq] at ha
          exact ha.1.symm
        subst hc0
        refine ⟨c0 :: a, by rw [List.cons_append, ← ha], ?_⟩
        intro e he
        rw [List.cons_append, parseNumber, if_neg hc]
        have := hloc e he
        rw [List.cons_append] at this
        exact this

theorem expectWord_local : ∀ (w cs r : List Char), expectWord w cs = some r →
    cs = w ++ r ∧ ∀ e, expectWord w (w ++ e) = some e := by
  intro w
  induction w with
  | nil =>
    intro cs r h
    simp only [expectWord, Option.some.injEq] at h
    subst h
    exact ⟨rfl, fun e => rfl⟩
  | cons x w ih =>
    intro cs r h
    cases cs with
    | nil => exact Option.noConfusion h
    | cons c cs =>
      rw [expectWord] at h
      by_cases hc : c = x
      · rw [if_pos hc] at h
        obtain ⟨h1, h2⟩ := ih cs r h
        subst hc
        refine ⟨by rw [h1]; rfl, ?_⟩
        intro e
        rw [List.cons_append, expectWord, if_pos rfl]
        exact h2 e
      · rw [if_neg hc] at h
        exact Option.noConfusion h

end Json

namespace Json

theorem parseElements_inv {f d : Nat} {cs : List Char} {vs : List Value} {r : List Char}
    (h : parseElements (f + 1) d cs = some (vs, r)) :
    ∃ v r0 c r1, parseValue f d cs = some (v, r0) ∧ skipSpace r0 = c :: r1 ∧
      ((c = ',' ∧ ∃ vs0, parseElements f d (skipSpace r1) = some (vs0, r) ∧ vs = v :: vs0) ∨
        (c = ']' ∧ vs = [v] ∧ r = r1)) := by
  rw [parseElements] at h
  cases hv : parseValue f d cs with
  | none => rw [hv] at h; exact Option.noConfusion h
  | some p =>
    obtain ⟨v, r0⟩ := p
    rw [hv] at h
    simp only at h
    cases hs : skipSpace r0 with
    | nil => rw [hs] at h; exact Option.noConfusion h
    | cons c r1 =>
      rw [hs] at h
      simp only at h
      refine ⟨v, r0, c, r1, rfl, hs, ?_⟩
      by_cases hc : c = ','
      · rw [if_pos hc] at h
        cases he : parseElements f d (skipSpace r1) with
        | none => rw [he] at h; exact Option.noConfusion h
        | some q =>
          obtain ⟨vs0, r2⟩ := q
          rw [he] at h
          simp only [Option.some.injEq, Prod.mk.injEq] at h
          exact Or.inl ⟨hc, vs0, by rw [h.2], h.1.symm⟩
      · rw [if_neg hc] at h
        by_cases hb : c = ']'
        · rw [if_pos hb] at h
          simp only [Option.some.injEq, Prod.mk.injEq] at h
          exact Or.inr ⟨hb, h.1.symm, h.2.symm⟩
        · rw [if_neg hb] at h
          exact Option.noConfusion h

theorem parseElements_comma {f d : Nat} {cs r0 r1 r2 : List Char} {v : Value}
    {vs : List Value} (hv : parseValue f d cs = some (v, r0)) (hs : skipSpace r0 = ',' :: r1)
    (he : parseElements f d (skipSpace r1) = some (vs, r2)) :
    parseElements (f + 1) d cs = some (v :: vs, r2) := by
  rw [parseElements, hv]
  simp only [hs, if_true, he]

theorem parseElements_close {f d : Nat} {cs r0 r1 : List Char} {v : Value}
    (hv : parseValue f d cs = some (v, r0)) (hs : skipSpace r0 = ']' :: r1) :
    parseElements (f + 1) d cs = some ([v], r1) := by
  have hc : (']' : Char) ≠ ',' := by decide
  rw [parseElements, hv]
  simp only [hs, hc, if_false, if_true]

theorem parseMembers_inv {f d : Nat} {cs : List Char} {ms : List (List Char × Value)}
    {r : List Char} (h : parseMembers (f + 1) d cs = some (ms, r)) :
    ∃ r0 k rk r1 v r2 c2 r3, cs = quote :: r0 ∧ parseString r0 = some (k, rk) ∧
      skipSpace rk = ':' :: r1 ∧ parseValue f d (skipSpace r1) = some (v, r2) ∧
      skipSpace r2 = c2 :: r3 ∧
      ((c2 = ',' ∧ ∃ ms0, parseMembers f d (skipSpace r3) = some (ms0, r) ∧ ms = (k, v) :: ms0) ∨
        (c2 = rbrace ∧ ms = [(k, v)] ∧ r = r3)) := by
  cases cs with
  | nil => rw [parseMembers] at h; exact Option.noConfusion h
  | cons q r0 =>
    rw [parseMembers] at h
    by_cases hq : q = quote
    · rw [if_pos hq] at h
      cases hk : parseString r0 with
      | none => rw [hk] at h; exact Option.noConfusion h
      | some p =>
        obtain ⟨k, rk⟩ := p
        rw [hk] at h
        simp only at h
        cases hs1 : skipSpace rk with
        | nil => rw [hs1] at h; exact Option.noConfusion h
        | cons c r1 =>
          rw [hs1] at h
          simp only at h
          by_cases hc : c = ':'
          · rw [if_pos hc] at h
            cases hv : parseValue f d (skipSpace r1) with
            | none => rw [hv] at h; exact Option.noConfusion h
            | some pv =>
              obtain ⟨v, r2⟩ := pv
              rw [hv] at h
              simp only at h
              cases hs3 : skipSpace r2 with
              | nil => rw [hs3] at h; exact Option.noConfusion h
              | cons c2 r3 =>
                rw [hs3] at h
                simp only at h
                refine ⟨r0, k, rk, r1, v, r2, c2, r3, by rw [hq], hk, by rw [← hc]; exact hs1, hv, hs3, ?_⟩
                by_cases hcomma : c2 = ','
                · rw [if_pos hcomma] at h
                  cases hm : parseMembers f d (skipSpace r3) with
                  | none => rw [hm] at h; exact Option.noConfusion h
                  | some pm =>
                    obtain ⟨ms0, r4⟩ := pm
                    rw [hm] at h
                    simp only [Option.some.injEq, Prod.mk.injEq] at h
                    exact Or.inl ⟨hcomma, ms0, by rw [h.2], h.1.symm⟩
                · rw [if_neg hcomma] at h
                  by_cases hb : c2 = rbrace
                  · rw [if_pos hb] at h
                    simp only [Option.some.injEq, Prod.mk.injEq] at h
                    exact Or.inr ⟨hb, h.1.symm, h.2.symm⟩
                  · rw [if_neg hb] at h
                    exact Option.noConfusion h
          · rw [if_neg hc] at h
            exact Option.noConfusion h
    · rw [if_neg hq] at h
      exact Option.noConfusion h

theorem parseMembers_more {f d : Nat} {r0 k rk r1 r2 r3 r4 : List Char} {v : Value}
    {ms : List (List Char × Value)} (hk : parseString r0 = some (k, rk))
    (hs1 : skipSpace rk = ':' :: r1) (hv : parseValue f d (skipSpace r1) = some (v, r2))
    (hs3 : skipSpace r2 = ',' :: r3) (hm : parseMembers f d (skipSpace r3) = some (ms, r4)) :
    parseMembers (f + 1) d (quote :: r0) = some ((k, v) :: ms, r4) := by
  rw [parseMembers, if_pos rfl, hk]
  simp only [hs1, if_true, hv, hs3, hm]

theorem parseMembers_close {f d : Nat} {r0 k rk r1 r2 r3 : List Char} {v : Value}
    (hk : parseString r0 = some (k, rk))
    (hs1 : skipSpace rk = ':' :: r1) (hv : parseValue f d (skipSpace r1) = some (v, r2))
    (hs3 : skipSpace r2 = rbrace :: r3) :
    parseMembers (f + 1) d (quote :: r0) = some ([(k, v)], r3) := by
  have hc : rbrace ≠ ',' := by decide
  rw [parseMembers, if_pos rfl, hk]
  simp only [hs1, if_true, hv, hs3, hc, if_false]

/-- A text that `skipSpace` leaves with something read from its start starts
with a character that is no white space. -/
theorem nonspace_head {x a r : List Char} (hx : skipSpace x = a ++ r)
    (hlen : r.length < (skipSpace x).length) :
    ∃ y a0, a = y :: a0 ∧ isSpace y = false := by
  cases a with
  | nil =>
    rw [hx, List.nil_append] at hlen
    exact absurd hlen (lt_irrefl _)
  | cons y a0 =>
    rw [List.cons_append] at hx
    exact ⟨y, a0, rfl, skipSpace_head x y _ hx⟩

/-- Leading white space and then a text read before: `skipSpace` gives the text. -/
theorem skipSpace_spaces_cons (s : List Char) (hs : ∀ c ∈ s, isSpace c = true) (y : Char)
    (hy : isSpace y = false) (t : List Char) : skipSpace (s ++ y :: t) = y :: t := by
  rw [skipSpace_spaces s _ hs]
  exact skipSpace_of_not hy t

/-- A scalar (a literal name or a number) is read the same whatever follows
the character after it. -/
theorem parseValue_scalar_local (c : Char) (rest : List Char) (h1 : c ≠ quote)
    (h2 : c ≠ '[') (h3 : c ≠ lbrace) (v : Value) (r : List Char)
    (h : parseValue 1 0 (c :: rest) = some (v, r)) :
    ∃ a, rest = a ++ r ∧
      (∀ e, (r.head? = e.head? ∨ ∀ w, v ≠ Value.number w) →
        parseValue 1 0 (c :: (a ++ e)) = some (v, e)) ∧
      ∀ vs, v ≠ Value.array vs := by
  have hform : ∀ t, parseValue 1 0 (c :: t) =
      if c = 't' then
        match expectWord ['r', 'u', 'e'] t with
        | some r => some (Value.bool true, r)
        | none => none
      else if c = 'f' then
        match expectWord ['a', 'l', 's', 'e'] t with
        | some r => some (Value.bool false, r)
        | none => none
      else if c = 'n' then
        match expectWord ['u', 'l', 'l'] t with
        | some r => some (Value.null, r)
        | none => none
      else
        match parseNumber (c :: t) with
        | some (n, r) => some (Value.number n, r)
        | none => none := by
    intro t
    rw [parseValue]
    simp only [h1, h2, h3, if_false]
  rw [hform] at h
  by_cases ht : c = 't'
  · rw [if_pos ht] at h
    cases hw : expectWord ['r', 'u', 'e'] rest with
    | none => rw [hw] at h; exact Option.noConfusion h
    | some r0 =>
      rw [hw] at h
      simp only [Option.some.injEq, Prod.mk.injEq] at h
      obtain ⟨hv, hr⟩ := h
      subst hv hr
      obtain ⟨hcs, hloc⟩ := expectWord_local _ _ _ hw
      refine ⟨_, hcs, ?_, fun vs hvs => Value.noConfusion hvs⟩
      intro e _
      rw [hform, if_pos ht, hloc e]
  · rw [if_neg ht] at h
    by_cases hf : c = 'f'
    · rw [if_pos hf] at h
      cases hw : expectWord ['a', 'l', 's', 'e'] rest with
      | none => rw [hw] at h; exact Option.noConfusion h
      | some r0 =>
        rw [hw] at h
        simp only [Option.some.injEq, Prod.mk.injEq] at h
        obtain ⟨hv, hr⟩ := h
        subst hv hr
        obtain ⟨hcs, hloc⟩ := expectWord_local _ _ _ hw
        refine ⟨_, hcs, ?_, fun vs hvs => Value.noConfusion hvs⟩
        intro e _
        rw [hform, if_neg ht, if_pos hf, hloc e]
    · rw [if_neg hf] at h
      by_cases hn : c = 'n'
      · rw [if_pos hn] at h
        cases hw : expectWord ['u', 'l', 'l'] rest with
        | none => rw [hw] at h; exact Option.noConfusion h
        | some r0 =>
          rw [hw] at h
          simp only [Option.some.injEq, Prod.mk.injEq] at h
          obtain ⟨hv, hr⟩ := h
          subst hv hr
          obtain ⟨hcs, hloc⟩ := expectWord_local _ _ _ hw
          refine ⟨_, hcs, ?_, fun vs hvs => Value.noConfusion hvs⟩
          intro e _
          rw [hform, if_neg ht, if_neg hf, if_pos hn, hloc e]
      · rw [if_neg hn] at h
        cases hp : parseNumber (c :: rest) with
        | none => rw [hp] at h; exact Option.noConfusion h
        | some q =>
          obtain ⟨n, r0⟩ := q
          rw [hp] at h
          simp only [Option.some.injEq, Prod.mk.injEq] at h
          obtain ⟨hv, hr⟩ := h
          subst hv hr
          obtain ⟨a, ha, hloc⟩ := parseNumber_local hp
          cases a with
          | nil =>
            have hlen := parseNumber_length hp
            rw [List.nil_append] at ha
            rw [← ha] at hlen
            exact absurd hlen (lt_irrefl _)
          | cons c0 a =>
            rw [List.cons_append] at ha
            simp only [List.cons.injEq] at ha
            obtain ⟨hc0, hrest⟩ := ha
            subst hc0
            refine ⟨a, hrest, ?_, fun vs hvs => Value.noConfusion hvs⟩
            intro e he
            rcases he with he | he
            · have := hloc e he
              rw [List.cons_append] at this
              rw [hform, if_neg ht, if_neg hf, if_neg hn, this]
            · exact absurd rfl (he n)

end Json

namespace Json

/-- What the reader reads of a value, of the elements of an array or of the
members of an object does not depend on the text that follows it (for a
number, on more than the first character that follows); and what is read of
the elements of an array ends with the closing bracket. -/
theorem local_all (f : Nat) :
    (∀ d cs v r, parseValue f d cs = some (v, r) →
      ∃ a, cs = a ++ r ∧
        (∀ e, (r.head? = e.head? ∨ ∀ w, v ≠ Value.number w) →
          parseValue f d (a ++ e) = some (v, e)) ∧
        (∀ vs, v = Value.array vs → ∃ a0, a = a0 ++ [']'])) ∧
    (∀ d cs vs r, parseElements f d cs = some (vs, r) →
      ∃ a, cs = a ++ ']' :: r ∧ ∀ e, parseElements f d (a ++ ']' :: e) = some (vs, e)) ∧
    (∀ d cs ms r, parseMembers f d cs = some (ms, r) →
      ∃ a, cs = a ++ r ∧ ∀ e, parseMembers f d (a ++ e) = some (ms, e)) := by
  induction f with
  | zero =>
    refine ⟨?_, ?_, ?_⟩ <;> intro d cs a r h
    · rw [parseValue] at h; exact Option.noConfusion h
    · rw [parseElements] at h; exact Option.noConfusion h
    · rw [parseMembers] at h; exact Option.noConfusion h
  | succ f ih =>
    obtain ⟨ihV, ihE, ihM⟩ := ih
    have hlenV := (fuelEnough_all f).1
    have hlenM := (fuelEnough_all f).2.2
    refine ⟨?_, ?_, ?_⟩
    · intro d cs v r h
      cases cs with
      | nil => rw [parseValue] at h; exact Option.noConfusion h
      | cons c rest =>
        by_cases h1 : c = quote
        · subst h1
          rw [parseValue_quote] at h
          cases hs : parseString rest with
          | none => rw [hs] at h; exact Option.noConfusion h
          | some p =>
            obtain ⟨s, r0⟩ := p
            rw [hs] at h
            simp only [Option.some.injEq, Prod.mk.injEq] at h
            obtain ⟨hv, hr⟩ := h
            subst hv hr
            obtain ⟨a, ha, hloc⟩ := parseString_local hs
            refine ⟨quote :: a, by rw [ha]; rfl, ?_, fun vs hvs => Value.noConfusion hvs⟩
            intro e _
            rw [List.cons_append, parseValue_quote, hloc e]
        · by_cases h2 : c = '['
          · subst h2
            rw [parseValue_bracket] at h
            by_cases hd : maxNestingDepth ≤ d
            · rw [if_pos hd] at h
              exact Option.noConfusion h
            rw [if_neg hd] at h
            cases hs : skipSpace rest with
            | nil => rw [hs] at h; exact Option.noConfusion h
            | cons c1 r1 =>
              rw [hs] at h
              simp only at h
              obtain ⟨s, hrest, hsk⟩ := skipSpace_local rest c1 r1 hs
              by_cases hc : c1 = ']'
              · rw [if_pos hc] at h
                simp only [Option.some.injEq, Prod.mk.injEq] at h
                obtain ⟨hv, hr⟩ := h
                subst hv hr hc
                refine ⟨'[' :: (s ++ [']']), by rw [hrest]; simp, ?_,
                  fun vs _ => ⟨'[' :: s, rfl⟩⟩
                intro e _
                have htext : ('[' :: (s ++ [']'])) ++ e = '[' :: (s ++ ']' :: e) := by simp
                rw [htext, parseValue_bracket, if_neg hd, hsk e]
                simp only [if_true]
              · rw [if_neg hc] at h
                cases he : parseElements f (d + 1) (c1 :: r1) with
                | none => rw [he] at h; exact Option.noConfusion h
                | some p =>
                  obtain ⟨vs, r0⟩ := p
                  rw [he] at h
                  simp only [Option.some.injEq, Prod.mk.injEq] at h
                  obtain ⟨hv, hr⟩ := h
                  subst hv hr
                  obtain ⟨a1, ha1, hloc1⟩ := ihE _ _ _ _ he
                  cases a1 with
                  | nil =>
                    rw [List.nil_append] at ha1
                    simp only [List.cons.injEq] at ha1
                    exact absurd ha1.1 hc
                  | cons y a2 =>
                    rw [List.cons_append] at ha1
                    simp only [List.cons.injEq] at ha1
                    obtain ⟨hy, hr1⟩ := ha1
                    subst hy
                    refine ⟨'[' :: (s ++ c1 :: (a2 ++ [']'])), ?_, ?_,
                      fun vs _ => ⟨'[' :: (s ++ c1 :: a2), by simp⟩⟩
                    · rw [hrest, hr1]; simp
                    · intro e _
                      have htext : ('[' :: (s ++ c1 :: (a2 ++ [']']))) ++ e =
                          '[' :: (s ++ c1 :: (a2 ++ ']' :: e)) := by simp
                      rw [htext, parseValue_bracket, if_neg hd, hsk]
                      simp only [hc, if_false]
                      have := hloc1 e
                      rw [List.cons_append] at this
                      rw [this]
          · by_cases h3 : c = lbrace
            · subst h3
              rw [parseValue_brace] at h
              by_cases hd : maxNestingDepth ≤ d
              · rw [if_pos hd] at h
                exact Option.noConfusion h
              rw [if_neg hd] at h
              cases hs : skipSpace rest with
              | nil => rw [hs] at h; exact Option.noConfusion h
              | cons c1 r1 =>
                rw [hs] at h
                simp only at h
                obtain ⟨s, hrest, hsk⟩ := skipSpace_local rest c1 r1 hs
                by_cases hc : c1 = rbrace
                · rw [if_pos hc] at h
                  simp only [Option.some.injEq, Prod.mk.injEq] at h
                  obtain ⟨hv, hr⟩ := h
                  subst hv hr hc
                  refine ⟨lbrace :: (s ++ [rbrace]), by rw [hrest]; simp, ?_,
                    fun vs hvs => Value.noConfusion hvs⟩
                  intro e _
                  have htext : (lbrace :: (s ++ [rbrace])) ++ e = lbrace :: (s ++ rbrace :: e) := by
                    simp
                  rw [htext, parseValue_brace, if_neg hd, hsk e]
                  simp only [if_true]
                · rw [if_neg hc] at h
                  cases he : parseMembers f (d + 1) (c1 :: r1) with
                  | none => rw [he] at h; exact Option.noConfusion h
                  | some p =>
                    obtain ⟨ms, r0⟩ := p
                    rw [he] at h
                    simp only [Option.some.injEq, Prod.mk.injEq] at h
                    obtain ⟨hv, hr⟩ := h
                    subst hv hr
                    obtain ⟨a1, ha1, hloc1⟩ := ihM _ _ _ _ he
                    have hlen := (hlenM _ _ _ _ he).1
                    cases a1 with
                    | nil =>
                      rw [List.nil_append] at ha1
                      rw [ha1] at hlen
                      exact absurd hlen (lt_irrefl _)
                    | cons y a2 =>
                      rw [List.cons_append] at ha1
                      simp only [List.cons.injEq] at ha1
                      obtain ⟨hy, hr1⟩ := ha1
                      subst hy
                      refine ⟨lbrace :: (s ++ c1 :: a2), by rw [hrest, hr1]; simp, ?_,
                        fun vs hvs => Value.noConfusion hvs⟩
                      intro e _
                      have htext : (lbrace :: (s ++ c1 :: a2)) ++ e =
                          lbrace :: (s ++ c1 :: (a2 ++ e)) := by simp
                      rw [htext, parseValue_brace, if_neg hd, hsk]
                      simp only [hc, if_false]
                      have := hloc1 e
                      rw [List.cons_append] at this
                      rw [this]
            · rw [parseValue_scalar f d c rest h1 h2 h3] at h
              obtain ⟨a, ha, hloc, hna⟩ := parseValue_scalar_local c rest h1 h2 h3 v r h
              refine ⟨c :: a, by rw [ha]; rfl, ?_, fun vs hvs => absurd hvs (hna vs)⟩
              intro e he
              rw [List.cons_append, parseValue_scalar f d c _ h1 h2 h3]
              exact hloc e he
    · intro d cs vs r h
      obtain ⟨v, r0, c, r1, hv, hs, hcase⟩ := parseElements_inv h
      obtain ⟨a0, ha0, hloc0, _⟩ := ihV _ _ _ _ hv
      obtain ⟨s, hr0, hsk⟩ := skipSpace_local r0 c r1 hs
      rcases hcase with ⟨hc, vs0, he, hvs⟩ | ⟨hc, hvs, hr⟩
      · subst hc hvs
        obtain ⟨a1, ha1, hloc1⟩ := ihE _ _ _ _ he
        obtain ⟨s1, hs1, hall1⟩ := skipSpace_split r1
        have hfix : ∀ t, skipSpace (a1 ++ ']' :: t) = a1 ++ ']' :: t := by
          intro t
          cases a1 with
          | nil => exact skipSpace_of_not (by decide) t
          | cons y a2 =>
            rw [List.cons_append] at ha1 ⊢
            exact skipSpace_of_not (skipSpace_head r1 y _ ha1) _
        rw [ha1] at hs1
        refine ⟨a0 ++ (s ++ ',' :: (s1 ++ a1)), by rw [ha0, hr0, hs1]; simp, ?_⟩
        intro e
        have htext : (a0 ++ (s ++ ',' :: (s1 ++ a1))) ++ ']' :: e =
            a0 ++ (s ++ ',' :: (s1 ++ (a1 ++ ']' :: e))) := by simp
        rw [htext]
        refine parseElements_comma (hloc0 _ (Or.inl ?_)) (hsk _) ?_
        · rw [hr0]
          exact head?_append_congr s _ _ rfl
        · rw [skipSpace_spaces s1 _ hall1, hfix]
          exact hloc1 e
      · subst hc hvs hr
        refine ⟨a0 ++ s, by rw [ha0, hr0]; simp, ?_⟩
        intro e
        have htext : (a0 ++ s) ++ ']' :: e = a0 ++ (s ++ ']' :: e) := by simp
        rw [htext]
        refine parseElements_close (hloc0 _ (Or.inl ?_)) (hsk e)
        rw [hr0]
        exact head?_append_congr s _ _ rfl
    · intro d cs ms r h
      obtain ⟨r0, k, rk, r1, v, r2, c2, r3, hcs, hk, hs1, hv, hs3, hcase⟩ := parseMembers_inv h
      subst hcs
      obtain ⟨ak, hak, hlock⟩ := parseString_local hk
      obtain ⟨t1, hrk, hsk1⟩ := skipSpace_local rk ':' r1 hs1
      obtain ⟨av, hav, hlocv, _⟩ := ihV _ _ _ _ hv
      obtain ⟨t2, ht2, hall2⟩ := skipSpace_split r1
      obtain ⟨y, av0, hav0, hy⟩ := nonspace_head hav ((hlenV _ _ _ _ hv).1)
      rw [hav] at ht2
      obtain ⟨t3, hr2, hsk3⟩ := skipSpace_local r2 c2 r3 hs3
      have hvalue : ∀ x, r2.head? = x.head? →
          parseValue f d (skipSpace (t2 ++ (av ++ x))) = some (v, x) := by
        intro x hx
        rw [skipSpace_spaces t2 _ hall2]
        have hfix : skipSpace (av ++ x) = av ++ x := by
          rw [hav0, List.cons_append]
          exact skipSpace_of_not hy _
        rw [hfix]
        exact hlocv x (Or.inl hx)
      rcases hcase with ⟨hc, ms0, hm, hms⟩ | ⟨hc, hms, hr⟩
      · subst hc hms
        obtain ⟨am, ham, hlocm⟩ := ihM _ _ _ _ hm
        obtain ⟨t4, ht4, hall4⟩ := skipSpace_split r3
        obtain ⟨z, am0, ham0, hz⟩ := nonspace_head ham ((hlenM _ _ _ _ hm).1)
        rw [ham] at ht4
        refine ⟨quote :: (ak ++ (t1 ++ ':' :: (t2 ++ (av ++ (t3 ++ ',' :: (t4 ++ am)))))),
          by rw [hak, hrk, ht2, hr2, ht4]; simp, ?_⟩
        intro e
        have htext : (quote :: (ak ++ (t1 ++ ':' :: (t2 ++ (av ++ (t3 ++ ',' :: (t4 ++ am))))))) ++ e
            = quote :: (ak ++ (t1 ++ ':' :: (t2 ++ (av ++ (t3 ++ ',' :: (t4 ++ (am ++ e))))))) := by
          simp
        rw [htext]
        refine parseMembers_more (hlock _) (hsk1 _) (hvalue _ ?_) (hsk3 _) ?_
        · rw [hr2]
          exact head?_append_congr t3 _ _ rfl
        · rw [skipSpace_spaces t4 _ hall4]
          have hfix : skipSpace (am ++ e) = am ++ e := by
            rw [ham0, List.cons_append]
            exact skipSpace_of_not hz _
          rw [hfix]
          exact hlocm e
      · subst hc hms hr
        refine ⟨quote :: (ak ++ (t1 ++ ':' :: (t2 ++ (av ++ (t3 ++ [rbrace]))))),
          by rw [hak, hrk, ht2, hr2]; simp, ?_⟩
        intro e
        have htext : (quote :: (ak ++ (t1 ++ ':' :: (t2 ++ (av ++ (t3 ++ [rbrace])))))) ++ e
            = quote :: (ak ++ (t1 ++ ':' :: (t2 ++ (av ++ (t3 ++ rbrace :: e))))) := by
          simp
        rw [htext]
        refine parseMembers_close (hlock _) (hsk1 _) (hvalue _ ?_) (hsk3 _)
        rw [hr2]
        exact head?_append_congr t3 _ _ rfl

end Json

/-! ## Cut-off files -/

theorem encodeRune_high (c : Char) (h : 128 ≤ c.toNat) : ∀ b ∈ encodeRune c, 128 ≤ b.toNat := by
  have hv := char_toNat_valid c
  have hlt : c.toNat < 1114112 := by
    rcases hv with hv | hv
    · omega
    · exact hv.2
  intro b hb
  unfold encodeRune at hb
  rw [if_neg (by omega)] at hb
  split_ifs at hb
  · simp only [List.mem_cons, List.mem_singleton, List.not_mem_nil, or_false] at hb
    rcases hb with rfl | rfl
    · rw [toNat_ofNat_byte _ (by omega)]; omega
    · rw [toNat_ofNat_byte _ (by omega)]; omega
  · simp only [List.mem_cons, List.mem_singleton, List.not_mem_nil, or_false] at hb
    rcases hb with rfl | rfl | rfl
    · rw [toNat_ofNat_byte _ (by omega)]; omega
    · rw [toNat_ofNat_byte _ (by omega)]; omega
    · rw [toNat_ofNat_byte _ (by omega)]; omega
  · simp only [List.mem_cons, List.mem_singleton, List.not_mem_nil, or_false] at hb
    rcases hb with rfl | rfl | rfl | rfl
    · rw [toNat_ofNat_byte _ (by omega)]; omega
    · rw [toNat_ofNat_byte _ (by omega)]; omega
    · rw [toNat_ofNat_byte _ (by omega)]; omega
    · rw [toNat_ofNat_byte _ (by omega)]; omega

/-- Bytes from `0x80` on are read as characters from U+0080 on. -/
theorem chars_high (s : Bytes) (h : ∀ b ∈ s, 128 ≤ b.toNat) : ∀ x ∈ chars s, 128 ≤ x.toNat := by
  intro x hx
  unfold chars runes at hx
  rw [List.map_map] at hx
  obtain ⟨p, hp, rfl⟩ := List.mem_map.mp hx
  simp only [Function.comp]
  cases hp1 : p.1 with
  | none =>
    simp only [Option.getD_none]
    decide
  | some c =>
    simp only [Option.getD_some]
    by_contra hlt
    have henc := segments_encode s.length s (le_refl _) p hp c hp1
    have hjoin := segments_join s.length s (le_refl _)
    unfold encodeRune at henc
    rw [if_pos (by omega)] at henc
    have hmem : UInt8.ofNat c.toNat ∈ s := by
      rw [← hjoin]
      exact List.mem_flatMap.mpr ⟨p, hp, by rw [← henc]; exact List.mem_singleton.mpr rfl⟩
    have := h _ hmem
    rw [toNat_ofNat_byte _ (by omega)] at this
    exact hlt this

/-- The characters read from the first `n` bytes of a text: some of the
first characters of the text, followed, when the cut falls inside a character,
by characters from U+0080 on. -/
theorem chars_take_utf8 (cs : List Char) : ∀ n, n < (utf8 cs).length →
    ∃ k J, k < cs.length ∧ chars ((utf8 cs).take n) = cs.take k ++ J ∧
      ∀ x ∈ J, 128 ≤ x.toNat := by
  induction cs with
  | nil =>
    intro n hn
    exact absurd hn (Nat.not_lt_zero _)
  | cons c cs ih =>
    intro n hn
    have hcons : utf8 (c :: cs) = encodeRune c ++ utf8 cs := rfl
    rw [hcons] at hn ⊢
    by_cases hlt : n < (encodeRune c).length
    · refine ⟨0, chars ((encodeRune c).take n), by simp, ?_, ?_⟩
      · rw [List.take_append_of_le_length (le_of_lt hlt)]
        rfl
      · by_cases hc : c.toNat < 128
        · have hlen : (encodeRune c).length = 1 := by
            unfold encodeRune
            rw [if_pos hc]
            rfl
          have hn0 : n = 0 := by omega
          subst hn0
          intro x hx
          simp [chars, runes, segmentsFrom] at hx
        · exact chars_high _
            (fun b hb => encodeRune_high c (by omega) b (List.mem_of_mem_take hb))
    · have hge : (encodeRune c).length ≤ n := by omega
      rw [List.length_append] at hn
      obtain ⟨k, J, hk, hchars, hJ⟩ := ih (n - (encodeRune c).length) (by omega)
      refine ⟨k + 1, J, by simp only [List.length_cons]; omega, ?_, hJ⟩
      rw [List.take_append_eq_append_take, List.take_of_length_le hge]
      have hvalid : ValidUTF8 (encodeRune c) := by
        have := validUTF8_utf8 [c]
        simpa [utf8] using this
      rw [chars_append_of_valid _ _ hvalid, hchars]
      have hone : chars (encodeRune c) = [c] := by
        have := chars_utf8 [c]
        simpa [utf8] using this
      rw [hone]
      rfl

namespace Json

/-- A text read as an array ends, white space apart, with the closing bracket. -/
theorem parseDocument_array_last (p : List Char) (vs : List Value)
    (h : parseDocument p = some (Value.array vs)) :
    ∃ a s, p = a ++ ']' :: s ∧ ∀ x ∈ s, isSpace x = true := by
  unfold parseDocument at h
  cases hv : parseValue (p.length + 1) 0 (skipSpace p) with
  | none => rw [hv] at h; exact Option.noConfusion h
  | some q =>
    obtain ⟨v, r⟩ := q
    rw [hv] at h
    simp only at h
    by_cases hr : skipSpace r = []
    · rw [if_pos hr] at h
      simp only [Option.some.injEq] at h
      subst h
      obtain ⟨a, ha, _, hlast⟩ := (local_all _).1 _ _ _ _ hv
      obtain ⟨a0, ha0⟩ := hlast vs rfl
      obtain ⟨s0, hs0, _⟩ := skipSpace_split p
      refine ⟨s0 ++ a0, r, ?_, skipSpace_eq_nil r hr⟩
      rw [hs0, ha, ha0]
      simp
    · rw [if_neg hr] at h
      exact Option.noConfusion h

/-- A text that ends with a character that is neither white space nor the
closing bracket is not read as an array. -/
theorem parseDocument_last_char (p : List Char) (x : Char) (hx : x ∈ p.getLast?)
    (h1 : isSpace x = false) (h2 : x ≠ ']') (vs : List Value) :
    parseDocument p ≠ some (Value.array vs) := by
  intro h
  obtain ⟨a, s, hp, hs⟩ := parseDocument_array_last p vs h
  rw [hp, List.getLast?_append_cons] at hx
  cases s with
  | nil =>
    simp only [List.getLast?_singleton, Option.mem_def, Option.some.injEq] at hx
    exact h2 hx.symm
  | cons y s =>
    have hmem : x ∈ y :: s := List.mem_of_mem_getLast? hx
    rw [hs x hmem] at h1
    exact Bool.noConfusion h1

/-- No text cut short of a text that is read as an array and ends with its
closing bracket is read as an array. -/
theorem parseDocument_take (t0 : List Char) (vsT : List Value)
    (hT : parseDocument (t0 ++ [']']) = some (Value.array vsT)) (k : Nat) (hk : k ≤ t0.length)
    (vs : List Value) :
    parseDocument ((t0 ++ [']']).take k) ≠ some (Value.array vs) := by
  intro h
  have hsplit : t0 ++ [']'] = (t0 ++ [']']).take k ++ (t0.drop k ++ [']']) := by
    rw [List.take_append_of_le_length hk, ← List.append_assoc, List.take_append_drop]
  generalize hp : (t0 ++ [']']).take k = p at h hsplit
  unfold parseDocument at h
  cases hv : parseValue (p.length + 1) 0 (skipSpace p) with
  | none => rw [hv] at h; exact Option.noConfusion h
  | some q =>
    obtain ⟨v, r⟩ := q
    rw [hv] at h
    simp only at h
    by_cases hr : skipSpace r = []
    · rw [if_pos hr] at h
      simp only [Option.some.injEq] at h
      subst h
      obtain ⟨a, ha, hloc, _⟩ := (local_all _).1 _ _ _ _ hv
      obtain ⟨y, a0, ha0, hy⟩ := nonspace_head ha ((fuelEnough_all _).1 _ _ _ _ hv).1
      obtain ⟨s0, hs0, hall0⟩ := skipSpace_split p
      have hskT : skipSpace (t0 ++ [']']) = a ++ (r ++ (t0.drop k ++ [']'])) := by
        rw [hsplit, hs0, ha, List.append_assoc, skipSpace_spaces s0 _ hall0, List.append_assoc,
          ha0, List.cons_append]
        exact skipSpace_of_not hy _
      have hfull := hloc (r ++ (t0.drop k ++ [']']))
        (Or.inr (fun w hw => Value.noConfusion hw))
      have hlenT : a.length ≤ (t0 ++ [']']).length + 1 := by
        have := congrArg List.length hskT
        have hle := skipSpace_length_le (t0 ++ [']'])
        simp only [List.length_append] at this hle ⊢
        omega
      have hfuel := ((fuelEnough_all _).1 _ _ _ _ hfull).2 ((t0 ++ [']']).length + 1)
        (by simp only [List.length_append] at hlenT ⊢; omega)
      unfold parseDocument at hT
      rw [hskT, hfuel] at hT
      simp only at hT
      by_cases hr2 : skipSpace (r ++ (t0.drop k ++ [']'])) = []
      · have hsp := skipSpace_eq_nil _ hr2 ']' (by simp)
        exact absurd hsp (by decide)
      · rw [if_neg hr2] at hT
        exact Option.noConfusion hT
    · rw [if_neg hr] at h
      exact Option.noConfusion h

theorem marshalText_last (items : List ClipboardItem) :
    ∃ t0, marshalText items = t0 ++ [']'] := by
  cases items with
  | nil => exact ⟨['['], rfl⟩
  | cons it tl =>
    refine ⟨'[' :: '\n' :: (encodeItems (it :: tl) ++ ['\n']), ?_⟩
    simp [marshalText]

theorem parseDocument_marshalText_array (items : List ClipboardItem) :
    parseDocument (marshalText items) = some (Value.array (items.map itemValue)) := by
  by_cases h : items = []
  · subst h
    rfl
  · exact parseDocument_marshalText items h

/-- A file holding only the first `n` bytes of what `json.MarshalIndent`
returned, fewer than all, is not read: `json.Unmarshal` stores nothing. -/
theorem unmarshal_take (items : List ClipboardItem) (n : Nat)
    (h : n < (marshalIndent items).length) :
    unmarshal ((marshalIndent items).take n) = [] := by
  unfold marshalIndent at h ⊢
  obtain ⟨k, J, hk, hchars, hJ⟩ := chars_take_utf8 (marshalText items) n h
  obtain ⟨t0, ht0⟩ := marshalText_last items
  have hT := parseDocument_marshalText_array items
  rw [ht0] at hT hchars hk
  unfold unmarshal
  rw [ht0, hchars]
  cases hp : parseDocument ((t0 ++ [']']).take k ++ J) with
  | none => rfl
  | some v =>
    cases v with
    | array vs =>
      exfalso
      cases J with
      | nil =>
        rw [List.append_nil] at hp
        simp only [List.length_append, List.length_cons, List.length_nil] at hk
        exact parseDocument_take t0 _ hT k (by omega) vs hp
      | cons x J =>
        obtain ⟨z, hz⟩ : ∃ z, z ∈ ((t0 ++ [']']).take k ++ x :: J).getLast? := by
          rw [List.getLast?_append_cons]
          cases hJl : (x :: J).getLast? with
          | none => simp at hJl
          | some z => exact ⟨z, rfl⟩
        have hzJ : z ∈ x :: J := by
          rw [List.getLast?_append_cons] at hz
          exact List.mem_of_mem_getLast? hz
        have hz128 := hJ z hzJ
        have hsp : isSpace z = false := by
          cases hs : isSpace z with
          | false => rfl
          | true =>
            exfalso
            simp only [isSpace, Bool.or_eq_true, decide_eq_true_eq] at hs
            rcases hs with ((hs | hs) | hs) | hs <;>
              (subst hs; exact absurd hz128 (by decide))
        have hbr : z ≠ ']' := by
          intro hs
          subst hs
          exact absurd hz128 (by decide)
        exact parseDocument_last_char _ z hz hsp hbr vs hp
    | null => rfl
    | bool b => rfl
    | number w => rfl
    | string s => rfl
    | object ms => rfl

end Json

/-! ## The store -/

theorem removeLoop_eq (content : Bytes) :
    ∀ (n : Nat) (items : List ClipboardItem), n ≤ items.length →
      removeLoop content n items =
        (items.take n).filter (fun it => decide (it.Content ≠ content)) ++ items.drop n := by
  intro n
  induction n with
  | zero => intro items _; simp [removeLoop]
  | succ n ih =>
    intro items hn
    have hlt : n < items.length := by omega
    have hget : items[n]? = some items[n] := List.getElem?_eq_getElem hlt
    have htake : items.take (n + 1) = items.take n ++ [items[n]] := by
      rw [List.take_succ, hget]; rfl
    rw [removeLoop, hget]
    by_cases hc : items[n].Content = content
    · simp only [hc, if_true]
      have hlen : n ≤ (items.eraseIdx n).length := by
        rw [List.length_eraseIdx]; simp [hlt]; omega
      rw [ih _ hlen, htake, List.eraseIdx_eq_take_drop_succ]
      have h1 : (items.take n ++ items.drop (n + 1)).take n = items.take n := by
        rw [List.take_append_of_le_length (by simp; omega)]
        simp
      have h2 : (items.take n ++ items.drop (n + 1)).drop n = items.drop (n + 1) := by
        rw [List.drop_append_of_le_length (by simp; omega)]
        simp [List.drop_take]
      rw [h1, h2, List.filter_append]
      simp [hc]
    · simp only [hc, if_false]
      rw [ih _ (by omega), htake, List.filter_append]
      have hd : items.drop n = items[n] :: items.drop (n + 1) := by
        rw [List.drop_eq_getElem_cons hlt]
      rw [hd]
      simp [hc]

theorem removeLoop_eq_filter (content : Bytes) (items : List ClipboardItem) :
    removeLoop content items.length items =
      items.filter (fun it => decide (it.Content ≠ content)) := by
  rw [removeLoop_eq content items.length items (le_refl _)]
  simp

theorem validUTF8_nil : ValidUTF8 [] := by decide

theorem setField_valid (it : ClipboardItem) (kv : List Char × Json.Value)
    (h : ValidUTF8 it.Content ∧ ValidUTF8 it.ID) :
    ValidUTF8 (Json.setField it kv).Content ∧ ValidUTF8 (Json.setField it kv).ID := by
  unfold Json.setField
  split_ifs
  · split
    · exact ⟨validUTF8_utf8 _, h.2⟩
    · exact h
  · split
    · exact h
    · exact h
  · split
    · exact ⟨h.1, validUTF8_utf8 _⟩
    · exact h
  · exact h

theorem foldl_setField_valid (ms : List (List Char × Json.Value)) :
    ∀ it : ClipboardItem, ValidUTF8 it.Content ∧ ValidUTF8 it.ID →
      ValidUTF8 (ms.foldl Json.setField it).Content ∧
        ValidUTF8 (ms.foldl Json.setField it).ID := by
  induction ms with
  | nil => intro it h; exact h
  | cons kv ms ih =>
    intro it h
    rw [List.foldl_cons]
    exact ih _ (setField_valid it kv h)

theorem decodeItem_valid (v : Json.Value) :
    ValidUTF8 (Json.decodeItem v).Content ∧ ValidUTF8 (Json.decodeItem v).ID := by
  cases v with
  | object ms => exact foldl_setField_valid ms _ ⟨validUTF8_nil, validUTF8_nil⟩
  | null => exact ⟨validUTF8_nil, validUTF8_nil⟩
  | bool b => exact ⟨validUTF8_nil, validUTF8_nil⟩
  | number w => exact ⟨validUTF8_nil, validUTF8_nil⟩
  | string s => exact ⟨validUTF8_nil, validUTF8_nil⟩
  | array vs => exact ⟨validUTF8_nil, validUTF8_nil⟩

/-- Every string of a loaded history is valid UTF-8. -/
theorem loadHistory_valid (file : File) :
    ∀ it ∈ loadHistory file, ValidUTF8 it.Content ∧ ValidUTF8 it.ID := by
  intro it hit
  cases file with
  | none => simp [loadHistory] at hit
  | some data =>
    simp only [loadHistory, Json.unmarshal] at hit
    cases hp : Json.parseDocument (chars data) with
    | none => rw [hp] at hit; simp at hit
    | some v =>
      rw [hp] at hit
      simp only at hit
      cases v with
      | array vs =>
        simp only [Json.decodeItems] at hit
        obtain ⟨v0, _, rfl⟩ := List.mem_map.mp hit
        exact decodeItem_valid v0
      | null => simp [Json.decodeItems] at hit
      | bool b => simp [Json.decodeItems] at hit
      | number w => simp [Json.decodeItems] at hit
      | string s => simp [Json.decodeItems] at hit
      | object ms => simp [Json.decodeItems] at hit

theorem coerceItem_of_valid (it : ClipboardItem) (h : ValidUTF8 it.Content ∧ ValidUTF8 it.ID) :
    coerceItem it = it := by
  unfold coerceItem
  rw [toValidUTF8_of_valid _ h.1, toValidUTF8_of_valid _ h.2]

theorem map_coerceItem_of_valid (l : List ClipboardItem)
    (h : ∀ it ∈ l, ValidUTF8 it.Content ∧ ValidUTF8 it.ID) : l.map coerceItem = l := by
  induction l with
  | nil => rfl
  | cons a l ih =>
    rw [List.map_cons, coerceItem_of_valid a (h a (List.mem_cons_self _ _)),
      ih (fun it hit => h it (List.mem_cons_of_mem _ hit))]

theorem validUTF8_newID (nano : Int) (len : Nat) : ValidUTF8 (newID nano len) :=
  validUTF8_utf8 _

/-- What `saveClipboardItem` leaves in the file when the content is not empty
and the write succeeds: the new entry, its content coerced to valid UTF-8 by
the writer, then the old entries of another content, cut to 100. -/
theorem loadHistory_save (d : Disk) (now : Clock) (content : Bytes) (hc : content ≠ []) :
    loadHistory (saveClipboardItem d now WriteResult.ok content).file =
      ((⟨toValidUTF8 content, now.unix, newID now.unixNano (loadHistory d.file).length⟩ :
          ClipboardItem) ::
        (loadHistory d.file).filter (fun it => decide (it.Content ≠ content))).take 100 := by
  have hold : ((loadHistory d.file).filter (fun it => decide (it.Content ≠ content))).map
      coerceItem = (loadHistory d.file).filter (fun it => decide (it.Content ≠ content)) :=
    map_coerceItem_of_valid _
      (fun it hit => loadHistory_valid d.file it (List.mem_filter.mp hit).1)
  have hnew : coerceItem ⟨content, now.unix, newID now.unixNano (loadHistory d.file).length⟩ =
      ⟨toValidUTF8 content, now.unix, newID now.unixNano (loadHistory d.file).length⟩ := by
    unfold coerceItem
    simp only [toValidUTF8_of_valid _ (validUTF8_newID _ _)]
  have hload : ∀ x : Bytes, loadHistory (some x) = Json.unmarshal x := fun _ => rfl
  unfold saveClipboardItem
  rw [if_neg hc]
  simp only [writeFile]
  rw [hload, Json.unmarshal_marshalIndent, removeLoop_eq_filter]
  split
  · rw [List.map_take, List.map_cons, hnew, hold]
  · rename_i h
    rw [List.map_cons, hnew, hold,
      List.take_of_length_le (by simp only [List.length_cons] at h ⊢; omega)]

/-- What `saveClipboardItem` leaves in the file when the content is valid
UTF-8 and not empty and the write succeeds. -/
theorem loadHistory_save_text (d : Disk) (now : Clock) (content : Bytes) (hc : content ≠ [])
    (hv : ValidUTF8 content) :
    loadHistory (saveClipboardItem d now WriteResult.ok content).file =
      ((⟨content, now.unix, newID now.unixNano (loadHistory d.file).length⟩ : ClipboardItem) ::
        (loadHistory d.file).filter (fun it => decide (it.Content ≠ content))).take 100 := by
  rw [loadHistory_save d now content hc, toValidUTF8_of_valid content hv]

theorem saveClipboardItem_empty (d : Disk) (now : Clock) (res : WriteResult) :
    saveClipboardItem d now res [] = d := by
  simp [saveClipboardItem]

theorem loadHistory_clear (m : ClipboardManager) (d : Disk) :
    loadHistory (clearHistory m d WriteResult.ok).2.file = [] := by
  simp only [clearHistory, writeFile, loadHistory, Json.unmarshal_marshalIndent]
  rfl

/-- What a call of `os.WriteFile` leaves in the file: what was there, or the
first bytes of the data, fewer than all, or the data. -/
theorem writeFile_file (d : Disk) (data : Bytes) (res : WriteResult) :
    (writeFile d data res).file = d.file ∨
      (∃ n, n < data.length ∧ (writeFile d data res).file = some (data.take n)) ∨
      (writeFile d data res).file = some data := by
  cases res with
  | ok => exact Or.inr (Or.inr rfl)
  | failed w =>
    cases w with
    | none => exact Or.inl rfl
    | some n =>
      by_cases h : n < data.length
      · exact Or.inr (Or.inl ⟨n, h, rfl⟩)
      · right
        right
        show some (data.take n) = some data
        rw [List.take_of_length_le (by omega)]

/-- The history loaded after a list of entries was written, however the call
of `os.WriteFile` ended: the old history, or nothing (a cut-off file is not
read), or what a successful call leaves. -/
theorem loadHistory_writeFile (d : Disk) (items : List ClipboardItem) (res : WriteResult) :
    loadHistory (writeFile d (Json.marshalIndent items) res).file = loadHistory d.file ∨
      loadHistory (writeFile d (Json.marshalIndent items) res).file = [] ∨
      loadHistory (writeFile d (Json.marshalIndent items) res).file =
        loadHistory (writeFile d (Json.marshalIndent items) WriteResult.ok).file := by
  rcases writeFile_file d (Json.marshalIndent items) res with h | ⟨n, hn, h⟩ | h
  · exact Or.inl (by rw [h])
  · right
    left
    rw [h]
    exact Json.unmarshal_take items n hn
  · right
    right
    rw [h]
    rfl

/-- The history loaded after `saveClipboardItem`, however its write ended. -/
theorem loadHistory_save_cases (d : Disk) (now : Clock) (res : WriteResult) (content : Bytes) :
    loadHistory (saveClipboardItem d now res content).file = loadHistory d.file ∨
      loadHistory (saveClipboardItem d now res content).file = [] ∨
      loadHistory (saveClipboardItem d now res content).file =
        loadHistory (saveClipboardItem d now WriteResult.ok content).file := by
  unfold saveClipboardItem
  split
  · exact Or.inl rfl
  · exact loadHistory_writeFile _ _ _

/-- The history loaded after `clearHistory`, however its write ended. -/
theorem loadHistory_clear_cases (m : ClipboardManager) (d : Disk) (res : WriteResult) :
    loadHistory (clearHistory m d res).2.file = loadHistory d.file ∨
      loadHistory (clearHistory m d res).2.file = [] := by
  cases res with
  | ok => exact Or.inr (loadHistory_clear m d)
  | failed w =>
    have hd : (clearHistory m d (WriteResult.failed w)).2 =
        writeFile d (Json.marshalIndent []) (WriteResult.failed w) := rfl
    rw [hd]
    rcases loadHistory_writeFile d [] (WriteResult.failed w) with h | h | h
    · exact Or.inl h
    · exact Or.inr h
    · right
      rw [h]
      rfl

/-! ## The claims about the store -/

theorem take_cons_take (a : ClipboardItem) (l : List ClipboardItem) (n : Nat) :
    (a :: l.take (n + 1)).take (n + 1) = (a :: l).take (n + 1) := by
  simp [List.take_take]

theorem mem_of_mem_take_filter {c : Bytes} {l : List ClipboardItem} {n : Nat}
    {it : ClipboardItem}
    (h : it ∈ (l.filter (fun it => decide (it.Content ≠ c))).take n) : it.Content ≠ c := by
  have h1 := List.mem_of_mem_take h
  have h2 := (List.mem_filter.mp h1).2
  simpa using h2

theorem utf8_ne_nil (c : Char) (cs : List Char) : utf8 (c :: cs) ≠ [] := by
  unfold utf8
  rw [List.flatMap_cons]
  intro hnil
  have h1 := (encodeRune_length c).1
  rw [(List.append_eq_nil.mp hnil).1] at h1
  exact absurd h1 (by decide)

theorem toValidUTF8_ne_nil (s : Bytes) (h : s ≠ []) : toValidUTF8 s ≠ [] := by
  obtain ⟨b, r, rfl⟩ := List.exists_cons_of_ne_nil h
  unfold toValidUTF8 chars runes
  rw [segmentsFrom_zero_cons, List.map_cons, List.map_cons]
  exact utf8_ne_nil _ _

theorem appendAll_snoc (d : Disk) (l : List (Clock × Bytes)) (p : Clock × Bytes) :
    appendAll d (l ++ [p]) = saveClipboardItem (appendAll d l) p.1 WriteResult.ok p.2 := by
  simp [appendAll, List.foldl_append]

theorem contents_appendAll (d : Disk) (h0 : loadHistory d.file = []) (l : List (Clock × Bytes)) :
    (∀ p ∈ l, p.2 ≠ [] ∧ ValidUTF8 p.2) → (l.map Prod.snd).Nodup →
      (loadHistory (appendAll d l).file).map (fun it => it.Content) =
        ((l.map Prod.snd).reverse).take 100 := by
  induction l using List.reverseRecOn with
  | nil => intro _ _; simp [appendAll, h0]
  | append_singleton l p ih =>
    intro hne hnd
    rw [List.map_append, List.nodup_append] at hnd
    obtain ⟨hnd1, _, hdisj⟩ := hnd
    have ih1 := ih (fun q hq => hne q (List.mem_append_left _ hq)) hnd1
    have hp : p.2 ≠ [] ∧ ValidUTF8 p.2 := hne p (by simp)
    have hfresh : ∀ it ∈ loadHistory (appendAll d l).file, it.Content ≠ p.2 := by
      intro it hit heq
      have hmem : it.Content ∈ (loadHistory (appendAll d l).file).map (fun it => it.Content) :=
        List.mem_map_of_mem _ hit
      rw [ih1] at hmem
      have hmem2 : it.Content ∈ l.map Prod.snd := by
        have := List.mem_of_mem_take hmem
        simpa using this
      exact hdisj hmem2 (by simp [heq])
    have hfilter : (loadHistory (appendAll d l).file).filter
        (fun it => decide (it.Content ≠ p.2)) = loadHistory (appendAll d l).file := by
      rw [List.filter_eq_self]
      intro it hit
      simpa using hfresh it hit
    rw [appendAll_snoc, loadHistory_save_text _ _ _ hp.1 hp.2, hfilter, List.map_take,
      List.map_cons, ih1]
    simp only [List.map_append, List.map_cons, List.map_nil, List.reverse_append,
      List.reverse_cons, List.reverse_nil, List.nil_append, List.singleton_append]
    simp [List.take_take]

/-- C2, as stated, fails for a content that is not valid UTF-8: after the one
append of the one-byte content `FF` to an empty history, the loaded contents
are the three bytes of U+FFFD, not the appended content. -/
theorem C2_counterexample :
    loadHistory (⟨none, 0⟩ : Disk).file = [] ∧
    (∀ p ∈ [((⟨1, 10⟩ : Clock), ([255] : Bytes))], p.2 ≠ []) ∧
    (([((⟨1, 10⟩ : Clock), ([255] : Bytes))]).map Prod.snd).Nodup ∧
    (loadHistory (appendAll ⟨none, 0⟩ [(⟨1, 10⟩, [255])]).file).map
        (fun it => it.Content) ≠
      (([((⟨1, 10⟩ : Clock), ([255] : Bytes))].map Prod.snd).reverse).take 100 := by
  decide

/-- C2, amended. From an empty history, appending non-empty pairwise distinct
contents that are valid UTF-8, in order (every write succeeding), leaves the
contents of the last `min N 100` appends, most recent first; after 150 appends
exactly 100 entries are kept. -/
theorem C2_appends_most_recent_first (d : Disk) (l : List (Clock × Bytes))
    (h0 : loadHistory d.file = []) (hne : ∀ p ∈ l, p.2 ≠ [] ∧ ValidUTF8 p.2)
    (hnd : (l.map Prod.snd).Nodup) :
    (loadHistory (appendAll d l).file).map (fun it => it.Content) =
        ((l.map Prod.snd).reverse).take 100 ∧
      (loadHistory (appendAll d l).file).length = min l.length 100 ∧
      (l.length = 150 → (loadHistory (appendAll d l).file).length = 100) := by
  have h := contents_appendAll d h0 l hne hnd
  have hlen : (loadHistory (appendAll d l).file).length = min l.length 100 := by
    have := congrArg List.length h
    simp only [List.length_map, List.length_take, List.length_reverse] at this
    rw [this, Nat.min_comm]
  refine ⟨h, hlen, ?_⟩
  intro h150
  rw [hlen, h150]
  rfl

theorem C2_witness :
    (loadHistory (⟨none, 0⟩ : Disk).file = [] ∧
      (∀ p ∈ [((⟨1, 10⟩ : Clock), str "A"), (⟨2, 20⟩, str "B")],
        p.2 ≠ [] ∧ ValidUTF8 p.2) ∧
      (([((⟨1, 10⟩ : Clock), str "A"), (⟨2, 20⟩, str "B")]).map Prod.snd).Nodup) ∧
    (loadHistory
        (appendAll ⟨none, 0⟩ [(⟨1, 10⟩, str "A"), (⟨2, 20⟩, str "B")]).file).map
        (fun it => it.Content) = [str "B", str "A"] :=
  ⟨⟨rfl, by decide, by decide⟩,
    (C2_appends_most_recent_first ⟨none, 0⟩ [(⟨1, 10⟩, str "A"), (⟨2, 20⟩, str "B")] rfl
      (by decide) (by decide)).1⟩

theorem historyInvariant_save (d : Disk) (now : Clock) (c : Bytes) (hc : c ≠ [])
    (hv : ValidUTF8 c) (h : HistoryInvariant (loadHistory d.file)) :
    HistoryInvariant (loadHistory (saveClipboardItem d now WriteResult.ok c).file) := by
  obtain ⟨hnd, _, hne⟩ := h
  rw [loadHistory_save_text d now c hc hv]
  refine ⟨?_, ?_, ?_⟩
  · rw [List.map_take]
    apply List.Nodup.sublist (List.take_sublist _ _)
    rw [List.map_cons, List.nodup_cons]
    constructor
    · intro hmem
      obtain ⟨it, hit, heq⟩ := List.mem_map.mp hmem
      have := (List.mem_filter.mp hit).2
      simp at this
      exact this heq
    · exact List.Nodup.sublist (List.Sublist.map _ (List.filter_sublist _)) hnd
  · simp only [List.length_take]
    omega
  · intro it hit
    have hit1 := List.mem_of_mem_take hit
    rcases List.mem_cons.mp hit1 with h1 | h1
    · rw [h1]; exact hc
    · exact hne it (List.mem_filter.mp h1).1

/-- The cap and the non-empty contents survive an append of any content. -/
theorem capped_save (d : Disk) (now : Clock) (c : Bytes) (hc : c ≠ [])
    (h : (loadHistory d.file).length ≤ 100 ∧ ∀ it ∈ loadHistory d.file, it.Content ≠ []) :
    (loadHistory (saveClipboardItem d now WriteResult.ok c).file).length ≤ 100 ∧
      ∀ it ∈ loadHistory (saveClipboardItem d now WriteResult.ok c).file,
        it.Content ≠ [] := by
  rw [loadHistory_save d now c hc]
  refine ⟨?_, ?_⟩
  · simp only [List.length_take]
    omega
  · intro it hit
    have hit1 := List.mem_of_mem_take hit
    rcases List.mem_cons.mp hit1 with h1 | h1
    · rw [h1]; exact toValidUTF8_ne_nil c hc
    · exact h.2 it (List.mem_filter.mp h1).1

theorem historyInvariant_nil : HistoryInvariant [] :=
  ⟨List.nodup_nil, by simp, by simp⟩

theorem historyInvariant_reachableText (d : Disk) (h : ReachableText d) :
    HistoryInvariant (loadHistory d.file) := by
  induction h with
  | empty d h0 => rw [h0]; exact historyInvariant_nil
  | save d now res content hv _ ih =>
    rcases loadHistory_save_cases d now res content with h | h | h
    · rw [h]; exact ih
    · rw [h]; exact historyInvariant_nil
    · rw [h]
      by_cases hc : content = []
      · subst hc
        rw [saveClipboardItem_empty]
        exact ih
      · exact historyInvariant_save d now content hc hv ih
  | clear m d res _ ih =>
    rcases loadHistory_clear_cases m d res with h | h
    · rw [h]; exact ih
    · rw [h]; exact historyInvariant_nil

theorem capped_reachable (d : Disk) (h : Reachable d) :
    (loadHistory d.file).length ≤ 100 ∧ ∀ it ∈ loadHistory d.file, it.Content ≠ [] := by
  induction h with
  | empty d h0 => rw [h0]; exact ⟨by simp, by simp⟩
  | save d now res content _ ih =>
    rcases loadHistory_save_cases d now res content with h | h | h
    · rw [h]; exact ih
    · rw [h]; exact ⟨by simp, by simp⟩
    · rw [h]
      by_cases hc : content = []
      · subst hc
        rw [saveClipboardItem_empty]
        exact ih
      · exact capped_save d now content hc ih
  | clear m d res _ ih =>
    rcases loadHistory_clear_cases m d res with h | h
    · rw [h]; exact ih
    · rw [h]; exact ⟨by simp, by simp⟩

/-- C4, as stated, fails for a content that is not valid UTF-8: the entry
with the one-byte content `FF` is written with U+FFFD in its place, and
loading the written file gives that entry, not the original. -/
theorem C4_counterexample :
    loadHistory
        (writeFile ⟨none, 0⟩ (Json.marshalIndent [⟨[255], 7, str "1-0"⟩])
          WriteResult.ok).file =
      [⟨[239, 191, 189], 7, str "1-0"⟩] ∧
    loadHistory
        (writeFile ⟨none, 0⟩ (Json.marshalIndent [⟨[255], 7, str "1-0"⟩])
          WriteResult.ok).file ≠
      [⟨[255], 7, str "1-0"⟩] := by
  decide

/-- C4, amended. Loading the file the store has written gives back the list
that was written, every entry with its timestamp and with its content and id
coerced to valid UTF-8, in the same order; so for entries whose content and id
are valid UTF-8 it gives back exactly the list that was written. -/
theorem C4_history_file_round_trip (d : Disk) (items : List ClipboardItem) :
    loadHistory (writeFile d (Json.marshalIndent items) WriteResult.ok).file =
      items.map coerceItem ∧
    ((∀ it ∈ items, ValidUTF8 it.Content ∧ ValidUTF8 it.ID) →
      loadHistory (writeFile d (Json.marshalIndent items) WriteResult.ok).file = items) := by
  have hfile : (writeFile d (Json.marshalIndent items) WriteResult.ok).file =
      some (Json.marshalIndent items) := rfl
  have hload : loadHistory (some (Json.marshalIndent items)) =
      Json.unmarshal (Json.marshalIndent items) := rfl
  rw [hfile, hload, Json.unmarshal_marshalIndent items]
  refine ⟨rfl, ?_⟩
  intro hvalid
  exact map_coerceItem_of_valid items hvalid

theorem C4_witness :
    (∀ it ∈ [(⟨str "A", 7, str "1-0"⟩ : ClipboardItem)],
      ValidUTF8 it.Content ∧ ValidUTF8 it.ID) ∧
    loadHistory
        (writeFile ⟨none, 0⟩ (Json.marshalIndent [⟨str "A", 7, str "1-0"⟩])
          WriteResult.ok).file =
      [⟨str "A", 7, str "1-0"⟩] :=
  ⟨by decide,
    (C4_history_file_round_trip ⟨none, 0⟩ [⟨str "A", 7, str "1-0"⟩]).2 (by decide)⟩

/-! ## What `loadHistory` makes of a file -/

theorem lastMember_nil {α : Type} (name : String) (get : Json.Value → Option α) :
    lastMember name get [] = none := rfl

theorem lastMember_snoc {α : Type} (name : String) (get : Json.Value → Option α)
    (ms : List (List Char × Json.Value)) (kv : List Char × Json.Value) :
    lastMember name get (ms ++ [kv]) =
      match (if Json.keyIs name kv.1 then get kv.2 else none) with
      | some a => some a
      | none => lastMember name get ms := by
  unfold lastMember
  rw [List.filterMap_append]
  cases h : (if Json.keyIs name kv.1 = true then get kv.2 else none) with
  | none => simp [List.filterMap_cons, h]
  | some a => simp [List.filterMap_cons, h]

theorem keyIs_unique (a b : String) (k : List Char) (ha : Json.keyIs a k = true)
    (hb : Json.keyIs b k = true) : a.data = b.data := by
  unfold Json.keyIs at ha hb
  rw [decide_eq_true_eq] at ha hb
  rw [← ha, ← hb]

theorem keyIs_content_of_timestamp (k : List Char) (h : Json.keyIs "timestamp" k = true) :
    Json.keyIs "content" k = false := by
  cases hc : Json.keyIs "content" k with
  | false => rfl
  | true => exact absurd (keyIs_unique _ _ k hc h) (by decide)

theorem keyIs_content_of_id (k : List Char) (h : Json.keyIs "id" k = true) :
    Json.keyIs "content" k = false := by
  cases hc : Json.keyIs "content" k with
  | false => rfl
  | true => exact absurd (keyIs_unique _ _ k hc h) (by decide)

theorem keyIs_timestamp_of_id (k : List Char) (h : Json.keyIs "id" k = true) :
    Json.keyIs "timestamp" k = false := by
  cases hc : Json.keyIs "timestamp" k with
  | false => rfl
  | true => exact absurd (keyIs_unique _ _ k hc h) (by decide)

/-- The content after a member is stored. -/
theorem setField_content (it : ClipboardItem) (kv : List Char × Json.Value) :
    (Json.setField it kv).Content =
      match (if Json.keyIs "content" kv.1 then Json.textOf kv.2 else none) with
      | some s => utf8 s
      | none => it.Content := by
  unfold Json.setField
  by_cases h1 : Json.keyIs "content" kv.1 = true
  · rw [if_pos h1, if_pos h1]
    cases kv.2 <;> rfl
  · rw [if_neg h1, if_neg h1]
    split_ifs
    · cases kv.2 with
      | number w => cases w <;> rfl
      | _ => rfl
    · cases kv.2 <;> rfl
    · rfl

/-- The id after a member is stored. -/
theorem setField_id (it : ClipboardItem) (kv : List Char × Json.Value) :
    (Json.setField it kv).ID =
      match (if Json.keyIs "id" kv.1 then Json.textOf kv.2 else none) with
      | some s => utf8 s
      | none => it.ID := by
  unfold Json.setField
  by_cases h3 : Json.keyIs "id" kv.1 = true
  · rw [if_neg (by rw [keyIs_content_of_id _ h3]; decide),
      if_neg (by rw [keyIs_timestamp_of_id _ h3]; decide), if_pos h3, if_pos h3]
    cases kv.2 <;> rfl
  · rw [if_neg h3]
    split_ifs
    · cases kv.2 <;> rfl
    · cases kv.2 with
      | number w => cases w <;> rfl
      | _ => rfl
    · rfl

/-- The timestamp after a member is stored. -/
theorem setField_timestamp (it : ClipboardItem) (kv : List Char × Json.Value) :
    (Json.setField it kv).Timestamp =
      match (if Json.keyIs "timestamp" kv.1 then Json.wholeOf kv.2 else none) with
      | some n => n
      | none => it.Timestamp := by
  unfold Json.setField
  by_cases h2 : Json.keyIs "timestamp" kv.1 = true
  · rw [if_neg (by rw [keyIs_content_of_timestamp _ h2]; decide), if_pos h2, if_pos h2]
    cases kv.2 with
    | number w => cases w <;> rfl
    | _ => rfl
  · rw [if_neg h2]
    split_ifs
    · cases kv.2 <;> rfl
    · cases kv.2 <;> rfl
    · rfl

theorem foldl_setField_content (ms : List (List Char × Json.Value)) (it : ClipboardItem) :
    (ms.foldl Json.setField it).Content =
      match lastMember "content" Json.textOf ms with
      | some s => utf8 s
      | none => it.Content := by
  induction ms using List.reverseRecOn with
  | nil => rfl
  | append_singleton ms kv ih =>
    rw [List.foldl_append, List.foldl_cons, List.foldl_nil, setField_content, lastMember_snoc, ih]
    cases (if Json.keyIs "content" kv.1 = true then Json.textOf kv.2 else none) <;> rfl

theorem foldl_setField_id (ms : List (List Char × Json.Value)) (it : ClipboardItem) :
    (ms.foldl Json.setField it).ID =
      match lastMember "id" Json.textOf ms with
      | some s => utf8 s
      | none => it.ID := by
  induction ms using List.reverseRecOn with
  | nil => rfl
  | append_singleton ms kv ih =>
    rw [List.foldl_append, List.foldl_cons, List.foldl_nil, setField_id, lastMember_snoc, ih]
    cases (if Json.keyIs "id" kv.1 = true then Json.textOf kv.2 else none) <;> rfl

theorem foldl_setField_timestamp (ms : List (List Char × Json.Value)) (it : ClipboardItem) :
    (ms.foldl Json.setField it).Timestamp =
      match lastMember "timestamp" Json.wholeOf ms with
      | some n => n
      | none => it.Timestamp := by
  induction ms using List.reverseRecOn with
  | nil => rfl
  | append_singleton ms kv ih =>
    rw [List.foldl_append, List.foldl_cons, List.foldl_nil, setField_timestamp, lastMember_snoc,
      ih]
    cases (if Json.keyIs "timestamp" kv.1 = true then Json.wholeOf kv.2 else none) <;> rfl

/-- The whole number found among the members, from the last number found. -/
theorem lastMember_whole (ms : List (List Char × Json.Value)) :
    (lastMember "timestamp" Json.numberOf ms = none →
      lastMember "timestamp" Json.wholeOf ms = none) ∧
    (∀ n, lastMember "timestamp" Json.numberOf ms = some (some n) →
      lastMember "timestamp" Json.wholeOf ms = some n) := by
  induction ms using List.reverseRecOn with
  | nil => exact ⟨fun _ => rfl, fun n h => Option.noConfusion h⟩
  | append_singleton ms kv ih =>
    rw [lastMember_snoc, lastMember_snoc]
    by_cases hk : Json.keyIs "timestamp" kv.1 = true
    · rw [if_pos hk, if_pos hk]
      cases hv : kv.2 with
      | number w =>
        cases w with
        | none =>
          exact ⟨fun h => Option.noConfusion h, fun n h => by
            simp only [Json.numberOf, Option.some.injEq] at h
            exact Option.noConfusion h⟩
        | some m =>
          exact ⟨fun h => Option.noConfusion h, fun n h => by
            simp only [Json.numberOf, Option.some.injEq] at h
            simp only [Json.wholeOf, h]⟩
      | null => exact ih
      | bool b => exact ih
      | string s => exact ih
      | array vs => exact ih
      | object os => exact ih
    · rw [if_neg hk, if_neg hk]
      exact ih

/-- Arrays nested deeper than `maxNestingDepth` are not read. -/
theorem parseValue_nested (k : Nat) : ∀ (f d : Nat) (rest : List Char),
    Json.maxNestingDepth ≤ d + k →
      Json.parseValue f d (List.replicate (k + 1) '[' ++ rest) = none := by
  induction k with
  | zero =>
    intro f d rest h
    exact (Json.parseValue_too_deep f d h rest).1
  | succ k ih =>
    intro f d rest h
    cases f with
    | zero => rw [Json.parseValue]
    | succ f =>
      have hrep : List.replicate (k + 1 + 1) '[' ++ rest =
          '[' :: '[' :: (List.replicate k '[' ++ rest) := rfl
      rw [hrep, Json.parseValue_bracket]
      split_ifs with hd
      · rfl
      · rw [Json.skipSpace_of_not (by decide)]
        simp only [show ('[' : Char) ≠ ']' by decide, if_false]
        cases f with
        | zero => rw [Json.parseElements]
        | succ f =>
          rw [Json.parseElements]
          have := ih f (d + 1) rest (by omega)
          have hrep2 : List.replicate (k + 1) '[' ++ rest =
              '[' :: (List.replicate k '[' ++ rest) := rfl
          rw [hrep2] at this
          rw [this]

theorem loadHistory_nestedArrays (n : Nat) (h : Json.maxNestingDepth < n) :
    loadHistory (some (nestedArrays n)) = [] := by
  obtain ⟨k, rfl⟩ : ∃ k, n = k + 1 := ⟨n - 1, by omega⟩
  have hload : loadHistory (some (nestedArrays (k + 1))) =
      Json.unmarshal (nestedArrays (k + 1)) := rfl
  rw [hload]
  unfold Json.unmarshal nestedArrays
  rw [chars_utf8]
  unfold Json.parseDocument
  have hsk : Json.skipSpace (List.replicate (k + 1) '[' ++ List.replicate (k + 1) ']') =
      List.replicate (k + 1) '[' ++ List.replicate (k + 1) ']' :=
    Json.skipSpace_of_not (by decide) _
  rw [hsk, parseValue_nested k _ 0 _ (by omega)]

/-- C5, as stated, fails: a JSON array holding an object whose `content` is
a number is not an encoding of entries, yet `loadHistory` returns one entry
for it (with the content left empty). -/
theorem C5_counterexample :
    wellFormedHistory (str "[\x7b\x22content\x22: 5, \x22id\x22: \x22x\x22\x7d]") = false ∧
    loadHistory (some (str "[\x7b\x22content\x22: 5, \x22id\x22: \x22x\x22\x7d]")) =
      [⟨[], 0, str "x"⟩] := by
  decide!

/-- C5, amended. `loadHistory` returns an empty list when the file cannot be
read, when its text is not valid JSON (text nested deeper than 10000 arrays is
not), and when the JSON value is not an array.  A JSON array is read into one
entry per element: an element that is not an object gives the entry with
empty content, zero timestamp and empty id; an object gives, as content and as
id, the text of its last member of that name (up to case) that holds a string,
and the empty string when it has none; its timestamp is zero when no member
named `timestamp` holds a number, and is the number of the last such member
when that is written as a plain integer of magnitude at most 2^53. -/
theorem C5_load_empty_on_missing_or_invalid (file : File) :
    ((file = none ∨ ∃ data, file = some data ∧
        ∀ vs, Json.parseDocument (chars data) ≠ some (Json.Value.array vs)) →
      loadHistory file = []) ∧
    (∀ n, Json.maxNestingDepth < n → loadHistory (some (nestedArrays n)) = []) ∧
    (∀ data vs, file = some data →
      Json.parseDocument (chars data) = some (Json.Value.array vs) →
        loadHistory file = vs.map Json.decodeItem ∧ (loadHistory file).length = vs.length) ∧
    (∀ v, (∀ ms, v ≠ Json.Value.object ms) → Json.decodeItem v = ⟨[], 0, []⟩) ∧
    (∀ ms,
      (Json.decodeItem (Json.Value.object ms)).Content =
          utf8 ((lastMember "content" Json.textOf ms).getD []) ∧
      (Json.decodeItem (Json.Value.object ms)).ID =
          utf8 ((lastMember "id" Json.textOf ms).getD []) ∧
      (lastMember "timestamp" Json.numberOf ms = none →
        (Json.decodeItem (Json.Value.object ms)).Timestamp = 0) ∧
      (∀ n : Int, n.natAbs ≤ 2 ^ 53 →
        lastMember "timestamp" Json.numberOf ms = some (some n) →
          (Json.decodeItem (Json.Value.object ms)).Timestamp = n)) := by
  refine ⟨?_, loadHistory_nestedArrays, ?_, ?_, ?_⟩
  · intro h
    rcases h with h | ⟨data, h, hv⟩
    · subst h; rfl
    · subst h
      simp only [loadHistory, Json.unmarshal]
      cases hp : Json.parseDocument (chars data) with
      | none => rfl
      | some v =>
        cases v with
        | array vs => exact absurd hp (hv vs)
        | _ => rfl
  · intro data vs hf hp
    subst hf
    simp only [loadHistory, Json.unmarshal, hp, Json.decodeItems, List.length_map, and_self]
  · intro v hv
    cases v with
    | object ms => exact absurd rfl (hv ms)
    | _ => rfl
  · intro ms
    simp only [Json.decodeItem]
    refine ⟨?_, ?_, ?_, ?_⟩
    · rw [foldl_setField_content]
      cases lastMember "content" Json.textOf ms <;> rfl
    · rw [foldl_setField_id]
      cases lastMember "id" Json.textOf ms <;> rfl
    · intro h
      rw [foldl_setField_timestamp, (lastMember_whole ms).1 h]
    · intro n _ h
      rw [foldl_setField_timestamp, (lastMember_whole ms).2 n h]

theorem C5_witness :
    ((some (str "[1, 2") : File) = none ∨ ∃ data, (some (str "[1, 2") : File) = some data ∧
      ∀ vs, Json.parseDocument (chars data) ≠ some (Json.Value.array vs)) ∧
    loadHistory (some (str "[1, 2")) = [] :=
  ⟨Or.inr ⟨_, rfl, fun vs h => by
      have hnone : Json.parseDocument (chars (str "[1, 2")) = none := by
        rw [str, chars_utf8]
        rfl
      rw [hnone] at h
      exact Option.noConfusion h⟩,
    (C5_load_empty_on_missing_or_invalid _).1 (Or.inr ⟨_, rfl, fun vs h => by
      have hnone : Json.parseDocument (chars (str "[1, 2")) = none := by
        rw [str, chars_utf8]
        rfl
      rw [hnone] at h
      exact Option.noConfusion h⟩)⟩

/-! ## The claims about the menu and the monitor -/

theorem sameIDs_iff_initial (cached : List ClipboardItem) :
    ∀ (items : List ClipboardItem) (i : Nat),
      sameIDs cached i items = true ↔
        (items.map fun it => it.ID) <+: ((cached.drop i).map fun it => it.ID) := by
  intro items
  induction items with
  | nil => intro i; simp [sameIDs]
  | cons item rest ih =>
    intro i
    rw [sameIDs]
    cases hget : cached[i]? with
    | none =>
      have hdrop : cached.drop i = [] := by
        rw [List.drop_eq_nil_iff]
        exact List.getElem?_eq_none_iff.mp hget
      simp [hdrop]
    | some c =>
      have hlt : i < cached.length := (List.getElem?_eq_some_iff.mp hget).1
      have hc : cached[i] = c := (List.getElem?_eq_some_iff.mp hget).2
      have hdrop : cached.drop i = c :: cached.drop (i + 1) := by
        rw [List.drop_eq_getElem_cons hlt, hc]
      rw [hdrop]
      simp only [List.map_cons, List.cons_prefix_cons]
      by_cases hid : item.ID = c.ID
      · simp [hid, ih (i + 1)]
      · simp [hid]

theorem sameIDs_iff (cached items : List ClipboardItem) :
    (items.length = cached.length ∧ sameIDs cached 0 items = true) ↔
      (items.map fun it => it.ID) = (cached.map fun it => it.ID) := by
  rw [sameIDs_iff_initial, List.drop_zero]
  constructor
  · rintro ⟨hlen, hpre⟩
    exact hpre.eq_of_length (by simp [hlen])
  · intro h
    refine ⟨?_, ?_⟩
    · have := congrArg List.length h
      simpa using this
    · rw [h]

theorem refreshMenu_same (m : ClipboardManager) (file : File)
    (h : (loadHistory file).map (fun it => it.ID) = m.clipboardItems.map (fun it => it.ID)) :
    refreshMenu m file = m := by
  unfold refreshMenu
  simp only
  rw [if_pos ((sameIDs_iff _ _).mpr h)]

theorem updateMenuDisplay_clipboardItems (m : ClipboardManager) (items : List ClipboardItem) :
    (updateMenuDisplay m items).clipboardItems = m.clipboardItems := by
  unfold updateMenuDisplay
  simp only
  split_ifs <;> rfl

theorem refreshMenu_ids (m : ClipboardManager) (file : File) :
    (refreshMenu m file).clipboardItems.map (fun it => it.ID) =
      (loadHistory file).map (fun it => it.ID) := by
  unfold refreshMenu
  simp only
  split_ifs with h
  · exact ((sameIDs_iff _ _).mp h).symm
  · rw [updateMenuDisplay_clipboardItems]

theorem updateMenuDisplay_nil (m : ClipboardManager) (first : MenuItem) (rest : List MenuItem)
    (hm : m.menuItems = first :: rest) :
    (updateMenuDisplay m []).menuItems =
      ⟨noHistoryTitle, true, false⟩ :: rest.map MenuItem.Hide := by
  unfold updateMenuDisplay
  simp [hm, updateAt, MenuItem.SetTitle, MenuItem.Disable, MenuItem.Show, MenuItem.Hide]

/-- C6. After `clearHistory` with a successful write the history loads as
empty, and after a following `refreshMenu` the menu is the placeholder state:
slot 0 shown, disabled, titled `No clipboard history`, every other slot hidden. -/
theorem C6_clear_then_refresh_shows_placeholder (m : ClipboardManager) (d : Disk)
    (hm : 0 < m.menuItems.length) :
    loadHistory (clearHistory m d WriteResult.ok).2.file = [] ∧
    ∃ rest,
      (refreshMenu (clearHistory m d WriteResult.ok).1
          (clearHistory m d WriteResult.ok).2.file).menuItems =
          ⟨noHistoryTitle, true, false⟩ :: rest ∧
        rest.length + 1 = m.menuItems.length ∧
        ∀ it ∈ rest, it.hidden = true := by
  refine ⟨loadHistory_clear m d, ?_⟩
  obtain ⟨first, rest, hfr⟩ := List.exists_cons_of_length_pos hm
  have hcache : (clearHistory m d WriteResult.ok).1.clipboardItems = [] := by
    simp only [clearHistory]
    rw [updateMenuDisplay_clipboardItems]
  have hmenu : (clearHistory m d WriteResult.ok).1.menuItems =
      ⟨noHistoryTitle, true, false⟩ :: rest.map MenuItem.Hide := by
    simp only [clearHistory]
    exact updateMenuDisplay_nil _ first rest hfr
  refine ⟨rest.map MenuItem.Hide, ?_, ?_, ?_⟩
  · rw [refreshMenu_same _ _ (by rw [loadHistory_clear, hcache]), hmenu]
  · rw [hfr]; simp
  · intro it hit
    obtain ⟨it0, _, rfl⟩ := List.mem_map.mp hit
    rfl

theorem C6_witness :
    0 < (onReady NewClipboardManager none).menuItems.length ∧
    loadHistory
      (clearHistory (onReady NewClipboardManager none) ⟨none, 0⟩ WriteResult.ok).2.file = [] :=
  ⟨by decide,
    (C6_clear_then_refresh_shows_placeholder (onReady NewClipboardManager none) ⟨none, 0⟩
      (by decide)).1⟩

/-- C7. When `refreshMenu` loads a history with the same ids, position by
position, as the cached snapshot, it changes nothing (neither the menu nor the
snapshot); so the second of two consecutive runs that load the same id
sequence changes nothing. -/
theorem C7_refresh_skips_when_ids_unchanged (m : ClipboardManager) :
    (∀ file : File,
      (loadHistory file).map (fun it => it.ID) = m.clipboardItems.map (fun it => it.ID) →
        refreshMenu m file = m) ∧
    (∀ file1 file2 : File,
      (loadHistory file1).map (fun it => it.ID) = (loadHistory file2).map (fun it => it.ID) →
        refreshMenu (refreshMenu m file1) file2 = refreshMenu m file1) := by
  refine ⟨fun file h => refreshMenu_same m file h, ?_⟩
  intro file1 file2 h
  apply refreshMenu_same
  rw [refreshMenu_ids, h]

theorem C7_witness :
    refreshMenu (refreshMenu (onReady NewClipboardManager none)
        (saveClipboardItem ⟨none, 0⟩ ⟨1, 10⟩ WriteResult.ok (str "A")).file)
        (saveClipboardItem ⟨none, 0⟩ ⟨1, 10⟩ WriteResult.ok (str "A")).file =
      refreshMenu (onReady NewClipboardManager none)
        (saveClipboardItem ⟨none, 0⟩ ⟨1, 10⟩ WriteResult.ok (str "A")).file :=
  (C7_refresh_skips_when_ids_unchanged (onReady NewClipboardManager none)).2 _ _ rfl

theorem saveClipboardItem_writes (d : Disk) (now : Clock) (res : WriteResult) (c : Bytes)
    (hc : c ≠ []) :
    (saveClipboardItem d now res c).writes = d.writes + 1 := by
  unfold saveClipboardItem
  rw [if_neg hc]
  rfl

/-- C8. A tick of the monitor appends the text it read exactly when that text
is not empty and differs from the last observed one, and only then replaces
the last observed text; an empty or failed read changes neither the store nor
the last observed text.  From an empty history the readings `A`, `B`, `A`
leave two entries, with contents `A` then `B`. -/
theorem C8_monitor_tick (last : Bytes) (d : Disk) (out : Option Bytes) (now : Clock)
    (res : WriteResult) :
    (readClipboard out ≠ [] ∧ readClipboard out ≠ last →
      monitorTick last d out now res =
        (readClipboard out, saveClipboardItem d now res (readClipboard out))) ∧
    (¬ (readClipboard out ≠ [] ∧ readClipboard out ≠ last) →
      monitorTick last d out now res = (last, d)) ∧
    ((monitorTick last d out now res).2.writes = d.writes + 1 ↔
      (readClipboard out ≠ [] ∧ readClipboard out ≠ last)) ∧
    (readClipboard out = [] → monitorTick last d out now res = (last, d)) ∧
    monitorTick last d none now res = (last, d) ∧
    (loadHistory d.file = [] → ∀ t2 t3 : Clock,
      (loadHistory
        (monitorTick
          (monitorTick (monitorTick [] d (some (str "A")) now WriteResult.ok).1
            (monitorTick [] d (some (str "A")) now WriteResult.ok).2
            (some (str "B")) t2 WriteResult.ok).1
          (monitorTick (monitorTick [] d (some (str "A")) now WriteResult.ok).1
            (monitorTick [] d (some (str "A")) now WriteResult.ok).2
            (some (str "B")) t2 WriteResult.ok).2
          (some (str "A")) t3 WriteResult.ok).2.file).map (fun it => it.Content) =
        [str "A", str "B"]) := by
  have hpos : readClipboard out ≠ [] ∧ readClipboard out ≠ last →
      monitorTick last d out now res =
        (readClipboard out, saveClipboardItem d now res (readClipboard out)) := by
    intro h
    simp only [monitorTick]
    rw [if_pos ⟨h.2, h.1⟩]
  have hneg : ¬ (readClipboard out ≠ [] ∧ readClipboard out ≠ last) →
      monitorTick last d out now res = (last, d) := by
    intro h
    simp only [monitorTick]
    rw [if_neg (fun h2 => h ⟨h2.2, h2.1⟩)]
  refine ⟨hpos, hneg, ?_, ?_, ?_, ?_⟩
  · by_cases h : readClipboard out ≠ [] ∧ readClipboard out ≠ last
    · rw [hpos h]
      simp only [saveClipboardItem_writes d now res _ h.1, true_iff]
      exact h
    · rw [hneg h]
      simp only [h, iff_false]
      omega
  · intro h
    exact hneg (fun h2 => h2.1 h)
  · simp [monitorTick, readClipboard]
  · intro h0 t2 t3
    have hA : readClipboard (some (str "A")) = str "A" := by decide
    have hB : readClipboard (some (str "B")) = str "B" := by decide
    have e1 : monitorTick [] d (some (str "A")) now WriteResult.ok =
        (str "A", saveClipboardItem d now WriteResult.ok (str "A")) := by
      simp only [monitorTick, hA]
      rw [if_pos (by decide)]
    have e2 : monitorTick (str "A") (saveClipboardItem d now WriteResult.ok (str "A"))
        (some (str "B")) t2 WriteResult.ok =
        (str "B",
          saveClipboardItem (saveClipboardItem d now WriteResult.ok (str "A")) t2
            WriteResult.ok (str "B")) := by
      simp only [monitorTick, hB]
      rw [if_pos (by decide)]
    have e3 : monitorTick (str "B")
        (saveClipboardItem (saveClipboardItem d now WriteResult.ok (str "A")) t2
          WriteResult.ok (str "B"))
        (some (str "A")) t3 WriteResult.ok =
        (str "A", saveClipboardItem
          (saveClipboardItem (saveClipboardItem d now WriteResult.ok (str "A")) t2
            WriteResult.ok (str "B"))
          t3 WriteResult.ok (str "A")) := by
      simp only [monitorTick, hA]
      rw [if_pos (by decide)]
    rw [e1]
    simp only
    rw [e2]
    simp only
    rw [e3]
    simp only
    rw [loadHistory_save_text _ _ _ (by decide) (by decide),
      loadHistory_save_text _ _ _ (by decide) (by decide),
      loadHistory_save_text _ _ _ (by decide) (by decide), h0]
    have hBA : decide (str "B" = str "A") = false := by decide
    simp [List.filter, hBA]

theorem C8_witness :
    (loadHistory
      (monitorTick
        (monitorTick (monitorTick [] ⟨none, 0⟩ (some (str "A")) ⟨1, 10⟩ WriteResult.ok).1
          (monitorTick [] ⟨none, 0⟩ (some (str "A")) ⟨1, 10⟩ WriteResult.ok).2
          (some (str "B")) ⟨2, 20⟩ WriteResult.ok).1
        (monitorTick (monitorTick [] ⟨none, 0⟩ (some (str "A")) ⟨1, 10⟩ WriteResult.ok).1
          (monitorTick [] ⟨none, 0⟩ (some (str "A")) ⟨1, 10⟩ WriteResult.ok).2
          (some (str "B")) ⟨2, 20⟩ WriteResult.ok).2
        (some (str "A")) ⟨3, 30⟩ WriteResult.ok).2.file).map (fun it => it.Content) =
      [str "A", str "B"] :=
  (C8_monitor_tick [] ⟨none, 0⟩ none ⟨1, 10⟩ WriteResult.ok).2.2.2.2.2 rfl ⟨2, 20⟩
    ⟨3, 30⟩

/-- C9. Activating slot `idx` hands the content of the cached entry at `idx`
to `pbcopy` when `idx` is within the cached snapshot and does nothing
otherwise; with the snapshot holding `A`, `B`, `C`, the second slot gives `B`. -/
theorem C9_click_copies_cached_entry (m : ClipboardManager) (idx : Nat) (pbcopy : List Bytes) :
    (∀ it, m.clipboardItems[idx]? = some it →
      onSlotClicked m idx pbcopy = pbcopy ++ [it.Content]) ∧
    (m.clipboardItems.length ≤ idx → onSlotClicked m idx pbcopy = pbcopy) ∧
    (m.clipboardItems.map (fun it => it.Content) = [str "A", str "B", str "C"] →
      onSlotClicked m 1 pbcopy = pbcopy ++ [str "B"]) := by
  have h1 : ∀ (i : Nat) (it : ClipboardItem), m.clipboardItems[i]? = some it →
      onSlotClicked m i pbcopy = pbcopy ++ [it.Content] := by
    intro i it h
    obtain ⟨hlt, hit⟩ := List.getElem?_eq_some_iff.mp h
    unfold onSlotClicked
    rw [dif_pos hlt, hit]
    rfl
  refine ⟨h1 idx, ?_, ?_⟩
  · intro h
    unfold onSlotClicked
    rw [dif_neg (by omega)]
  · intro h
    have hget : (m.clipboardItems.map (fun it => it.Content))[1]? = some (str "B") := by
      rw [h]; rfl
    rw [List.getElem?_map] at hget
    cases hit : m.clipboardItems[1]? with
    | none => rw [hit] at hget; exact Option.noConfusion hget
    | some it =>
      rw [hit] at hget
      have hB : it.Content = str "B" := Option.some.inj hget
      rw [h1 1 it hit, hB]

theorem C9_witness :
    onSlotClicked
        ⟨[], [⟨str "A", 1, str "a"⟩, ⟨str "B", 2, str "b"⟩, ⟨str "C", 3, str "c"⟩], 25, true⟩
        1 [] = [str "B"] :=
  (C9_click_copies_cached_entry
    ⟨[], [⟨str "A", 1, str "a"⟩, ⟨str "B", 2, str "b"⟩, ⟨str "C", 3, str "c"⟩], 25, true⟩
    1 []).2.2 rfl

/-! ## Labels -/

theorem replace_eq_spaceOutByte (b : UInt8) :
    (if (if b = 10 then (32 : UInt8) else b) = 9 then (32 : UInt8)
      else (if b = 10 then (32 : UInt8) else b)) = spaceOutByte b := by
  unfold spaceOutByte
  by_cases h1 : b = 10
  · subst h1; decide
  · by_cases h2 : b = 9
    · subst h2; decide
    · simp only [h1, h2, if_false, or_self]

/-- The two calls of `strings.ReplaceAll` replace every newline and tab byte. -/
theorem replaceAll_replaceAll (s : Bytes) :
    replaceAll 9 32 (replaceAll 10 32 s) = s.map spaceOutByte := by
  unfold replaceAll
  rw [List.map_map]
  apply List.map_congr_left
  intro b _
  exact replace_eq_spaceOutByte b

/-- The label the code computes is the label worded in bytes. -/
theorem label_eq_byteLabel (content : Bytes) : label content = byteLabel content := by
  unfold label byteLabel
  simp only
  rw [replaceAll_replaceAll]
  by_cases h : content.length ≤ 50
  · rw [if_neg (by omega), if_pos h]
  · rw [if_pos (by omega), if_neg h]

theorem label_short (content : Bytes) (h : content.length ≤ 50) :
    label content = content.map spaceOutByte := by
  rw [label_eq_byteLabel]
  unfold byteLabel
  rw [if_pos h]

theorem label_long (content : Bytes) (h : 50 < content.length) :
    label content = (content.take 47).map spaceOutByte ++ str "..." := by
  rw [label_eq_byteLabel]
  unfold byteLabel
  rw [if_neg (by omega), List.map_append]
  rfl

theorem label_length (content : Bytes) : (label content).length ≤ 50 := by
  by_cases h : content.length ≤ 50
  · rw [label_short content h, List.length_map]
    exact h
  · rw [label_long content (by omega)]
    simp only [List.length_append, List.length_map, List.length_take]
    have : (str "...").length = 3 := by decide
    omega

theorem spaceOutByte_ne (b : UInt8) : spaceOutByte b ≠ 10 ∧ spaceOutByte b ≠ 9 := by
  unfold spaceOutByte
  by_cases h : b = 10 ∨ b = 9
  · rw [if_pos h]; decide
  · rw [if_neg h]
    exact ⟨fun h1 => h (Or.inl h1), fun h2 => h (Or.inr h2)⟩

theorem label_no_newline_tab (content : Bytes) :
    ∀ b ∈ label content, b ≠ 10 ∧ b ≠ 9 := by
  intro b hb
  rw [label_eq_byteLabel] at hb
  unfold byteLabel at hb
  obtain ⟨a, _, rfl⟩ := List.mem_map.mp hb
  exact spaceOutByte_ne a

theorem ofNat_byte_ne (n k : Nat) (hn : n < 256) (hk : k < 256) (h : n ≠ k) :
    UInt8.ofNat n ≠ UInt8.ofNat k := by
  intro heq
  have := congrArg UInt8.toNat heq
  rw [toNat_ofNat_byte n hn, toNat_ofNat_byte k hk] at this
  exact h this

theorem spaceOutByte_high (n : Nat) (h1 : 11 ≤ n) (h2 : n < 256) :
    spaceOutByte (UInt8.ofNat n) = UInt8.ofNat n := by
  unfold spaceOutByte
  rw [if_neg]
  intro h
  rcases h with h | h
  · exact ofNat_byte_ne n 10 h2 (by decide) (by omega) h
  · exact ofNat_byte_ne n 9 h2 (by decide) (by omega) h

theorem char_eq_of_toNat (c : Char) (n : Nat) (h : c.toNat = n) : c = Char.ofNat n := by
  rw [← h, Char.ofNat_toNat]

/-- Replacing newline and tab in a character replaces them in its bytes. -/
theorem encodeRune_spaceOut (c : Char) :
    encodeRune (spaceOut c) = (encodeRune c).map spaceOutByte := by
  have hv := char_toNat_valid c
  unfold spaceOut
  by_cases h : c = Char.ofNat 10 ∨ c = Char.ofNat 9
  · rw [if_pos h]
    rcases h with h | h
    · subst h; decide
    · subst h; decide
  · rw [if_neg h]
    have h10 : c.toNat ≠ 10 := fun e => h (Or.inl (char_eq_of_toNat c 10 e))
    have h9 : c.toNat ≠ 9 := fun e => h (Or.inr (char_eq_of_toNat c 9 e))
    unfold encodeRune
    split_ifs with a1 a2 a3
    · have hne : ¬ (UInt8.ofNat c.toNat = 10 ∨ UInt8.ofNat c.toNat = 9) := by
        intro hh
        rcases hh with hh | hh
        · exact ofNat_byte_ne c.toNat 10 (by omega) (by decide) h10 hh
        · exact ofNat_byte_ne c.toNat 9 (by omega) (by decide) h9 hh
      simp only [List.map_cons, List.map_nil, spaceOutByte, hne, if_false]
    · simp only [List.map_cons, List.map_nil]
      rw [spaceOutByte_high _ (by omega) (by omega), spaceOutByte_high _ (by omega) (by omega)]
    · simp only [List.map_cons, List.map_nil]
      rw [spaceOutByte_high _ (by omega) (by omega), spaceOutByte_high _ (by omega) (by omega),
        spaceOutByte_high _ (by omega) (by omega)]
    · simp only [List.map_cons, List.map_nil]
      rw [spaceOutByte_high _ (by omega) (by omega), spaceOutByte_high _ (by omega) (by omega),
        spaceOutByte_high _ (by omega) (by omega), spaceOutByte_high _ (by omega) (by omega)]

theorem utf8_spaceOut (cs : List Char) :
    utf8 (cs.map spaceOut) = (utf8 cs).map spaceOutByte := by
  induction cs with
  | nil => rfl
  | cons c cs ih =>
    unfold utf8 at ih ⊢
    rw [List.map_cons, List.flatMap_cons, List.flatMap_cons, List.map_append, ih,
      encodeRune_spaceOut]

/-- On valid UTF-8 text, replacing the bytes is replacing the characters. -/
theorem map_spaceOutByte_of_valid (s : Bytes) (h : ValidUTF8 s) :
    s.map spaceOutByte = utf8 ((chars s).map spaceOut) := by
  rw [utf8_spaceOut]
  show _ = (toValidUTF8 s).map spaceOutByte
  rw [toValidUTF8_of_valid s h]

/-- A valid UTF-8 content of at most 50 bytes is shown as the specification
words it in characters. -/
theorem label_short_text (content : Bytes) (hv : ValidUTF8 content)
    (h : content.length ≤ 50) : label content = specLabel content := by
  have hc := chars_length_le content
  rw [label_short content h, map_spaceOutByte_of_valid content hv]
  unfold specLabel
  rw [if_pos (by omega)]

/-- A content longer than 50 bytes whose first 47 bytes are whole characters
is shown as those characters and `...`. -/
theorem label_long_text (content : Bytes) (h : 50 < content.length)
    (hv : ValidUTF8 (content.take 47)) :
    label content = utf8 ((chars (content.take 47)).map spaceOut ++ ['.', '.', '.']) ∧
      chars (content.take 47) <+: chars content := by
  constructor
  · rw [label_long content h, map_spaceOutByte_of_valid _ hv, utf8_append]
    rfl
  · have := chars_append_of_valid (content.take 47) (content.drop 47) hv
    rw [List.take_append_drop] at this
    rw [this]
    exact List.prefix_append _ _

theorem encodeRune_ascii (c : Char) (h : c.toNat < 128) :
    encodeRune c = [UInt8.ofNat c.toNat] := by
  unfold encodeRune
  rw [if_pos h]

theorem utf8_length_ascii (cs : List Char) (h : ∀ c ∈ cs, c.toNat < 128) :
    (utf8 cs).length = cs.length := by
  induction cs with
  | nil => rfl
  | cons c cs ih =>
    unfold utf8 at ih ⊢
    rw [List.flatMap_cons, List.length_append, ih (fun x hx => h x (List.mem_cons_of_mem _ hx)),
      encodeRune_ascii c (h c (List.mem_cons_self _ _))]
    simp only [List.length_cons, List.length_nil]
    omega

theorem utf8_take_ascii (cs : List Char) (h : ∀ c ∈ cs, c.toNat < 128) :
    ∀ n, (utf8 cs).take n = utf8 (cs.take n) := by
  induction cs with
  | nil => intro n; simp [utf8]
  | cons c cs ih =>
    intro n
    cases n with
    | zero => simp [utf8]
    | succ n =>
      have ih1 := ih (fun x hx => h x (List.mem_cons_of_mem _ hx)) n
      unfold utf8 at ih1 ⊢
      rw [List.flatMap_cons, encodeRune_ascii c (h c (List.mem_cons_self _ _)), List.take_succ_cons,
        List.flatMap_cons, encodeRune_ascii c (h c (List.mem_cons_self _ _))]
      simp only [List.singleton_append, List.take_succ_cons, ih1]

/-- A content made of single-byte characters is shown as the specification
words it in characters. -/
theorem label_ascii (content : Bytes) (hv : ValidUTF8 content)
    (h : ∀ c ∈ chars content, c.toNat < 128) : label content = specLabel content := by
  by_cases hle : content.length ≤ 50
  · exact label_short_text content hv hle
  · have hc : content = utf8 (chars content) := (toValidUTF8_of_valid content hv).symm
    have hlen : content.length = (chars content).length := by
      conv_lhs => rw [hc]
      exact utf8_length_ascii _ h
    have htake : content.take 47 = utf8 ((chars content).take 47) := by
      conv_lhs => rw [hc]
      exact utf8_take_ascii _ h 47
    have hvt : ValidUTF8 (content.take 47) := by
      rw [htake]
      exact validUTF8_utf8 _
    rw [(label_long_text content (by omega) hvt).1, htake, chars_utf8]
    unfold specLabel
    rw [if_neg (by omega), List.map_append]
    rfl

/-! ## The rendering loop -/

theorem updateAt_getElem? (f : MenuItem → MenuItem) :
    ∀ (i : Nat) (menu : List MenuItem) (k : Nat),
      (updateAt f i menu)[k]? = if k = i then (menu[k]?).map f else menu[k]? := by
  intro i menu
  induction menu generalizing i with
  | nil => intro k; simp [updateAt]
  | cons m ms ih =>
    intro k
    cases i with
    | zero =>
      cases k with
      | zero => simp [updateAt]
      | succ k => simp [updateAt]
    | succ i =>
      cases k with
      | zero => simp [updateAt]
      | succ k => simp [updateAt, ih i k]

theorem updateAt_length (f : MenuItem → MenuItem) :
    ∀ (i : Nat) (menu : List MenuItem), (updateAt f i menu).length = menu.length := by
  intro i menu
  induction menu generalizing i with
  | nil => simp [updateAt]
  | cons m ms ih =>
    cases i with
    | zero => simp [updateAt]
    | succ i => simp [updateAt, ih i]

theorem renderLoop_getElem? (items : List ClipboardItem) :
    ∀ (i : Nat) (menu : List MenuItem) (k : Nat),
      (renderLoop i items menu)[k]? =
        if k < i then menu[k]?
        else
          match items[k - i]? with
          | some item => (menu[k]?).map (renderSlot k item)
          | none => menu[k]? := by
  induction items with
  | nil => intro i menu k; simp [renderLoop]
  | cons item rest ih =>
    intro i menu k
    rw [renderLoop]
    by_cases hfull : i ≥ menu.length
    · rw [if_pos hfull]
      by_cases hk : k < i
      · rw [if_pos hk]
      · rw [if_neg hk]
        have hnone : menu[k]? = none := List.getElem?_eq_none_iff.mpr (by omega)
        rw [hnone]
        cases (item :: rest)[k - i]? <;> rfl
    · rw [if_neg hfull, ih (i + 1), updateAt_getElem?]
      by_cases hk : k < i
      · rw [if_pos (by omega), if_neg (by omega), if_pos hk]
      · rw [if_neg hk]
        by_cases hki : k = i
        · subst hki
          rw [if_pos (by omega), if_pos rfl]
          simp only [Nat.sub_self, List.getElem?_cons_zero]
        · rw [if_neg (by omega), if_neg hki]
          have hidx : k - i = (k - (i + 1)) + 1 := by omega
          rw [hidx, List.getElem?_cons_succ]

theorem updateMenuDisplay_slot (m : ClipboardManager) (items : List ClipboardItem) (i : Nat)
    (it : ClipboardItem) (hit : items[i]? = some it) (hmax : i < m.maxMenuItems)
    (hpool : i < m.menuItems.length) :
    (updateMenuDisplay m items).menuItems[i]? = some ⟨slotTitle i it.Content, false, false⟩ := by
  have hlt : i < items.length := (List.getElem?_eq_some_iff.mp hit).1
  have hdisp : (if items.length > m.maxMenuItems then items.take m.maxMenuItems else items)[i]? =
      some it := by
    split
    · rw [List.getElem?_take_of_lt hmax, hit]
    · exact hit
  have hne : (if items.length > m.maxMenuItems then items.take m.maxMenuItems else items).length
      ≠ 0 := by
    intro h0
    obtain ⟨hlt2, _⟩ := List.getElem?_eq_some_iff.mp hdisp
    rw [h0] at hlt2
    exact Nat.not_lt_zero _ hlt2
  unfold updateMenuDisplay
  simp only
  rw [if_neg hne]
  simp only
  rw [renderLoop_getElem?, if_neg (by omega), Nat.sub_zero, hdisp]
  have hm : (m.menuItems.map MenuItem.Hide)[i]? = some (m.menuItems[i]).Hide := by
    rw [List.getElem?_map, List.getElem?_eq_getElem hpool]
    rfl
  rw [hm]
  rfl

/-- C13, as stated, fails for a content that is not valid UTF-8: after the
one-byte content `FF` is appended to an empty history, the loaded list is not
the entry of that content followed by the old entries, because the new entry
is stored with U+FFFD as content. -/
theorem C13_counterexample :
    ([255] : Bytes) ≠ [] ∧
    loadHistory (saveClipboardItem ⟨none, 0⟩ ⟨1, 10⟩ WriteResult.ok [255]).file ≠
      ((⟨[255], (⟨1, 10⟩ : Clock).unix,
          newID (⟨1, 10⟩ : Clock).unixNano (loadHistory (⟨none, 0⟩ : Disk).file).length⟩ :
          ClipboardItem) ::
        (loadHistory (⟨none, 0⟩ : Disk).file).filter
          (fun it => decide (it.Content ≠ [255]))).take 100 := by
  decide

/-- C13, amended. After `saveClipboardItem c` (non-empty `c`, successful
write) the history is a new entry followed by the old list without the
entries of content `c`, cut to 100 entries; the new entry has the content `c`
when `c` is valid UTF-8 (in general `c` coerced to valid UTF-8).  The old
entries that remain are unchanged and in their old order, and when fewer than
100 old entries have another content every one of them remains. -/
theorem C13_save_keeps_other_entries (d : Disk) (now : Clock) (c : Bytes) (hc : c ≠ []) :
    loadHistory (saveClipboardItem d now WriteResult.ok c).file =
        ((⟨toValidUTF8 c, now.unix, newID now.unixNano (loadHistory d.file).length⟩ :
            ClipboardItem) ::
          (loadHistory d.file).filter (fun it => decide (it.Content ≠ c))).take 100 ∧
      (ValidUTF8 c →
        loadHistory (saveClipboardItem d now WriteResult.ok c).file =
          ((⟨c, now.unix, newID now.unixNano (loadHistory d.file).length⟩ : ClipboardItem) ::
            (loadHistory d.file).filter (fun it => decide (it.Content ≠ c))).take 100) ∧
      (loadHistory (saveClipboardItem d now WriteResult.ok c).file).tail.Sublist
        (loadHistory d.file) ∧
      (((loadHistory d.file).filter (fun it => decide (it.Content ≠ c))).length < 100 →
        ∀ it ∈ loadHistory d.file, it.Content ≠ c →
          it ∈ loadHistory (saveClipboardItem d now WriteResult.ok c).file) := by
  have h := loadHistory_save d now c hc
  refine ⟨h, fun hv => loadHistory_save_text d now c hc hv, ?_, ?_⟩
  · rw [h]
    show (List.take 99 _).Sublist _
    exact (List.take_sublist _ _).trans (List.filter_sublist _)
  · intro hlen it hit hne
    rw [h]
    show it ∈ _ :: List.take 99 _
    rw [List.take_of_length_le (by omega)]
    exact List.mem_cons_of_mem _ (List.mem_filter.mpr ⟨hit, by simpa using hne⟩)

theorem C13_witness :
    (str "B" ≠ []) ∧
    (loadHistory
        (saveClipboardItem (saveClipboardItem ⟨none, 0⟩ ⟨1, 10⟩ WriteResult.ok (str "A"))
          ⟨2, 20⟩ WriteResult.ok (str "B")).file).tail.Sublist
      (loadHistory (saveClipboardItem ⟨none, 0⟩ ⟨1, 10⟩ WriteResult.ok (str "A")).file) :=
  ⟨by decide,
    (C13_save_keeps_other_entries
      (saveClipboardItem ⟨none, 0⟩ ⟨1, 10⟩ WriteResult.ok (str "A")) ⟨2, 20⟩
      (str "B") (by decide)).2.2.1⟩

/-- C14. `saveClipboardItem` with empty content does nothing: the file, and so
the history loaded from it, is what it was, and `os.WriteFile` is not called. -/
theorem C14_save_empty_is_noop (d : Disk) (now : Clock) (res : WriteResult) :
    (saveClipboardItem d now res []).file = d.file ∧
      loadHistory (saveClipboardItem d now res []).file = loadHistory d.file ∧
      (saveClipboardItem d now res []).writes = d.writes := by
  have h : saveClipboardItem d now res [] = d := by
    unfold saveClipboardItem
    rw [if_pos rfl]
  rw [h]
  exact ⟨rfl, rfl, rfl⟩

/-! ## What `updateMenuDisplay` leaves on the menu -/

theorem renderLoop_length (items : List ClipboardItem) :
    ∀ (i : Nat) (menu : List MenuItem), (renderLoop i items menu).length = menu.length := by
  induction items with
  | nil => intro i menu; rfl
  | cons item rest ih =>
    intro i menu
    rw [renderLoop]
    split
    · rfl
    · rw [ih, updateAt_length]

theorem updateMenuDisplay_length (m : ClipboardManager) (items : List ClipboardItem) :
    (updateMenuDisplay m items).menuItems.length = m.menuItems.length := by
  unfold updateMenuDisplay
  simp only
  split_ifs <;> simp [updateAt_length, renderLoop_length]

theorem updateMenuDisplay_maxMenuItems (m : ClipboardManager) (items : List ClipboardItem) :
    (updateMenuDisplay m items).maxMenuItems = m.maxMenuItems := by
  unfold updateMenuDisplay
  simp only
  split_ifs <;> rfl

theorem renderSlot_eq (k : Nat) (item : ClipboardItem) (it : MenuItem) :
    renderSlot k item it = entryItem k item := rfl

/-- The slots after `updateMenuDisplay` on a non-empty list: the slot of the
entry for the positions below the list length and the cap, the old slot
hidden elsewhere. -/
theorem updateMenuDisplay_getElem? (m : ClipboardManager) (items : List ClipboardItem)
    (hne : items ≠ []) (hcap : 0 < m.maxMenuItems) (k : Nat) :
    (updateMenuDisplay m items).menuItems[k]? =
      if k < items.length ∧ k < m.maxMenuItems then
        (m.menuItems[k]?).map (fun _ => entryItem k (items.getD k ⟨[], 0, []⟩))
      else (m.menuItems[k]?).map MenuItem.Hide := by
  have hlen : 0 < items.length := List.length_pos.mpr hne
  have hdisp : ∀ j, (if items.length > m.maxMenuItems then items.take m.maxMenuItems
      else items)[j]? = if j < items.length ∧ j < m.maxMenuItems then items[j]? else none := by
    intro j
    by_cases hgt : items.length > m.maxMenuItems
    · rw [if_pos hgt]
      by_cases hj : j < m.maxMenuItems
      · rw [List.getElem?_take_of_lt hj, if_pos ⟨by omega, hj⟩]
      · rw [if_neg (fun h => hj h.2)]
        exact List.getElem?_eq_none_iff.mpr (by simp; omega)
    · rw [if_neg hgt]
      by_cases hj : j < items.length
      · rw [if_pos ⟨hj, by omega⟩]
      · rw [if_neg (fun h => hj h.1)]
        exact List.getElem?_eq_none_iff.mpr (by omega)
  have hne0 : (if items.length > m.maxMenuItems then items.take m.maxMenuItems
      else items).length ≠ 0 := by
    split
    · simp only [List.length_take]; omega
    · omega
  unfold updateMenuDisplay
  simp only
  rw [if_neg hne0]
  simp only
  rw [renderLoop_getElem?, if_neg (by omega), Nat.sub_zero, hdisp k]
  by_cases hk : k < items.length ∧ k < m.maxMenuItems
  · rw [if_pos hk, if_pos hk, List.getElem?_eq_getElem hk.1]
    simp only [List.getElem?_map, Option.map_map]
    have hD : items.getD k ⟨[], 0, []⟩ = items[k] := by
      rw [List.getD_eq_getElem?_getD, List.getElem?_eq_getElem hk.1]
      rfl
    rw [hD]
    cases m.menuItems[k]? <;> rfl
  · rw [if_neg hk, if_neg hk]
    simp only [List.getElem?_map]

/-- C11. With the pool of 25 slots, `updateMenuDisplay` on an empty list shows
the disabled placeholder in slot 0 and hides every other slot; on `n > 0`
entries it shows, enabled, exactly the first `min n 25` slots, slot `k` titled
with the ordinal `k + 1` and the label of the entry at `k`, and hides the
rest, whatever the slots were before. -/
theorem C11_updateMenuDisplay_slots (m : ClipboardManager) (items : List ClipboardItem)
    (hpool : m.menuItems.length = 25) (hmax : m.maxMenuItems = 25) :
    (updateMenuDisplay m items).menuItems.length = 25 ∧
    (items = [] →
      (updateMenuDisplay m items).menuItems.head? = some ⟨noHistoryTitle, true, false⟩ ∧
      ∀ it ∈ (updateMenuDisplay m items).menuItems.tail, it.hidden = true) ∧
    (items ≠ [] → ∀ k, k < 25 →
      (k < min items.length 25 → ∃ it, items[k]? = some it ∧
        (updateMenuDisplay m items).menuItems[k]? =
          some ⟨utf8 (decimal (k + 1)) ++ str ". " ++ label it.Content,
            false, false⟩) ∧
      (min items.length 25 ≤ k → ∃ s,
        (updateMenuDisplay m items).menuItems[k]? = some s ∧ s.hidden = true)) := by
  refine ⟨by rw [updateMenuDisplay_length, hpool], ?_, ?_⟩
  · intro hnil
    subst hnil
    obtain ⟨first, rest, hfr⟩ := List.exists_cons_of_length_pos (l := m.menuItems) (by omega)
    rw [updateMenuDisplay_nil m first rest hfr]
    refine ⟨rfl, ?_⟩
    intro it hit
    obtain ⟨it0, _, rfl⟩ := List.mem_map.mp hit
    rfl
  · intro hne k hk
    have hget := updateMenuDisplay_getElem? m items hne (by omega) k
    have hslot : m.menuItems[k]? = some m.menuItems[k] :=
      List.getElem?_eq_getElem (by omega)
    rw [hmax, hslot] at hget
    constructor
    · intro hlt
      have hkl : k < items.length := by omega
      refine ⟨items[k], List.getElem?_eq_getElem hkl, ?_⟩
      rw [hget, if_pos ⟨hkl, hk⟩]
      have hD : items.getD k ⟨[], 0, []⟩ = items[k] := by
        rw [List.getD_eq_getElem?_getD, List.getElem?_eq_getElem hkl]
        rfl
      rw [hD]
      rfl
    · intro hge
      refine ⟨(m.menuItems[k]).Hide, ?_, rfl⟩
      rw [hget, if_neg (by omega)]
      rfl

theorem C11_witness :
    ((onReady NewClipboardManager none).menuItems.length = 25 ∧
      (onReady NewClipboardManager none).maxMenuItems = 25) ∧
    (updateMenuDisplay (onReady NewClipboardManager none)
      [⟨str "A", 1, str "a"⟩]).menuItems.length = 25 :=
  ⟨⟨by decide, by decide⟩,
    (C11_updateMenuDisplay_slots (onReady NewClipboardManager none) [⟨str "A", 1, str "a"⟩]
      (by decide) (by decide)).1⟩

/-! ## The snapshot and the menu -/

theorem rendersSnapshot_updateMenuDisplay (m : ClipboardManager) (items : List ClipboardItem)
    (hpool : 0 < m.menuItems.length) (hcap : 0 < m.maxMenuItems) :
    RendersSnapshot m.maxMenuItems (updateMenuDisplay m items).menuItems items := by
  unfold RendersSnapshot
  by_cases hnil : items = []
  · rw [if_pos hnil]
    subst hnil
    obtain ⟨first, rest, hfr⟩ := List.exists_cons_of_length_pos hpool
    rw [updateMenuDisplay_nil m first rest hfr]
    refine ⟨rfl, ?_⟩
    intro it hit
    obtain ⟨it0, _, rfl⟩ := List.mem_map.mp hit
    rfl
  · rw [if_neg hnil]
    intro k hk
    rw [updateMenuDisplay_length] at hk
    have hget := updateMenuDisplay_getElem? m items hnil hcap k
    have hslot : m.menuItems[k]? = some m.menuItems[k] := List.getElem?_eq_getElem hk
    rw [hslot] at hget
    by_cases hlt : k < items.length ∧ k < m.maxMenuItems
    · rw [if_pos hlt] at hget ⊢
      rw [hget, List.getElem?_eq_getElem hlt.1]
      have hD : items.getD k ⟨[], 0, []⟩ = items[k] := by
        rw [List.getD_eq_getElem?_getD, List.getElem?_eq_getElem hlt.1]
        rfl
      rw [hD]
      rfl
    · rw [if_neg hlt] at hget ⊢
      intro s hs
      rw [hget] at hs
      simp only [Option.map_some', Option.some.injEq] at hs
      rw [← hs]
      rfl

/-- Any run of `updateMenuDisplay` on the list just cached leaves the menu
showing the cached snapshot. -/
theorem consistent_updateMenuDisplay (m : ClipboardManager) (items : List ClipboardItem)
    (hpool : 0 < m.menuItems.length) (hcap : 0 < m.maxMenuItems) :
    Consistent (updateMenuDisplay { m with clipboardItems := items } items) := by
  unfold Consistent
  rw [updateMenuDisplay_maxMenuItems, updateMenuDisplay_clipboardItems]
  exact rendersSnapshot_updateMenuDisplay { m with clipboardItems := items } items hpool hcap

theorem refreshMenu_length (m : ClipboardManager) (file : File) :
    (refreshMenu m file).menuItems.length = m.menuItems.length := by
  unfold refreshMenu
  simp only
  split_ifs
  · rfl
  · rw [updateMenuDisplay_length]

theorem refreshMenu_maxMenuItems (m : ClipboardManager) (file : File) :
    (refreshMenu m file).maxMenuItems = m.maxMenuItems := by
  unfold refreshMenu
  simp only
  split_ifs
  · rfl
  · rw [updateMenuDisplay_maxMenuItems]

/-- A later `refreshMenu` keeps the menu showing the cached snapshot. -/
theorem consistent_refreshMenu (m : ClipboardManager) (file : File)
    (hpool : 0 < m.menuItems.length) (hcap : 0 < m.maxMenuItems) (h : Consistent m) :
    Consistent (refreshMenu m file) := by
  unfold refreshMenu
  simp only
  split_ifs
  · exact h
  · exact consistent_updateMenuDisplay m _ hpool hcap

/-- A `refreshMenu` that finds the ids changed leaves the menu showing the
snapshot it cached, whatever the menu was. -/
theorem consistent_refreshMenu_of_changed (m : ClipboardManager) (file : File)
    (hpool : 0 < m.menuItems.length) (hcap : 0 < m.maxMenuItems)
    (h : (loadHistory file).map (fun it => it.ID) ≠ m.clipboardItems.map (fun it => it.ID)) :
    Consistent (refreshMenu m file) := by
  unfold refreshMenu
  simp only
  rw [if_neg (fun hs => h ((sameIDs_iff _ _).mp hs))]
  exact consistent_updateMenuDisplay m _ hpool hcap

/-- The method `clearHistory` keeps the menu showing the cached snapshot. -/
theorem consistent_clearHistory (m : ClipboardManager) (d : Disk) (res : WriteResult)
    (hpool : 0 < m.menuItems.length) (hcap : 0 < m.maxMenuItems) (h : Consistent m) :
    Consistent (clearHistory m d res).1 := by
  cases res with
  | failed w => exact h
  | ok => exact consistent_updateMenuDisplay m [] hpool hcap

/-- Started on a history that is not empty, `onReady` leaves the menu showing
the cached snapshot. -/
theorem consistent_onReady_of_history (file : File) (h : loadHistory file ≠ []) :
    Consistent (onReady NewClipboardManager file) := by
  unfold onReady
  apply consistent_refreshMenu_of_changed
  · decide
  · decide
  · intro hids
    have hl := congrArg List.length hids
    simp only [List.length_map] at hl
    have hnil : loadHistory file = [] := List.length_eq_zero.mp (by rw [hl]; rfl)
    exact h hnil

/-- C12 fails at startup on an empty history: the cached snapshot is empty and
`refreshMenu` returns without rendering, so all 25 slots stay hidden and the
placeholder is not shown; a later `refreshMenu` on the still empty history
changes nothing. -/
theorem C12_startup_on_empty_history_shows_nothing :
    loadHistory none = [] ∧
    (onReady NewClipboardManager none).clipboardItems = [] ∧
    (onReady NewClipboardManager none).menuItems.length = 25 ∧
    (∀ it ∈ (onReady NewClipboardManager none).menuItems, it.hidden = true) ∧
    ¬ Consistent (onReady NewClipboardManager none) ∧
    refreshMenu (onReady NewClipboardManager none) none = onReady NewClipboardManager none ∧
    Consistent (clearHistory (onReady NewClipboardManager none) ⟨none, 0⟩ WriteResult.ok).1 := by
  refine ⟨rfl, by decide, by decide, by decide, ?_, by decide, ?_⟩
  · intro h
    unfold Consistent RendersSnapshot at h
    have hc : (onReady NewClipboardManager none).clipboardItems = [] := by decide
    rw [if_pos hc] at h
    have hhead : (onReady NewClipboardManager none).menuItems.head? ≠ some placeholderItem := by
      decide
    exact hhead h.1
  · exact consistent_updateMenuDisplay _ [] (by decide) (by decide)

/-! ## A clear and the monitor -/

theorem monitorTick_same (last : Bytes) (d : Disk) (out : Option Bytes) (now : Clock)
    (res : WriteResult) (h : readClipboard out = last ∨ readClipboard out = []) :
    monitorTick last d out now res = (last, d) := by
  simp only [monitorTick]
  rw [if_neg]
  rintro ⟨h1, h2⟩
  rcases h with h | h
  · exact h1 h
  · exact h2 h

theorem monitorRun_same (last : Bytes) (d : Disk) (ticks : List Tick)
    (h : ∀ t ∈ ticks, readClipboard t.output = last ∨ readClipboard t.output = []) :
    monitorRun (last, d) ticks = (last, d) := by
  induction ticks with
  | nil => rfl
  | cons t rest ih =>
    unfold monitorRun at ih ⊢
    rw [List.foldl_cons]
    simp only
    rw [monitorTick_same last d t.output t.now t.res (h t (List.mem_cons_self _ _))]
    exact ih (fun t' ht' => h t' (List.mem_cons_of_mem _ ht'))

/-- C15. Once the monitor has captured the text `X` (the reading of the first
tick) and the history has been cleared, ticks that read `X` again, or read
nothing, save nothing and keep `X` as the last observed text: the history
stays empty. -/
theorem C15_clear_does_not_recapture (last : Bytes) (d : Disk) (out : Option Bytes)
    (now : Clock) (res : WriteResult) (m : ClipboardManager)
    (hX : readClipboard out ≠ []) (hnew : readClipboard out ≠ last) :
    (monitorTick last d out now res).1 = readClipboard out ∧
    loadHistory (clearHistory m (monitorTick last d out now res).2 WriteResult.ok).2.file = [] ∧
    ∀ ticks : List Tick,
      (∀ t ∈ ticks,
          readClipboard t.output = readClipboard out ∨ readClipboard t.output = []) →
        monitorRun ((monitorTick last d out now res).1,
            (clearHistory m (monitorTick last d out now res).2 WriteResult.ok).2) ticks =
          (readClipboard out,
            (clearHistory m (monitorTick last d out now res).2 WriteResult.ok).2) ∧
        loadHistory (monitorRun ((monitorTick last d out now res).1,
            (clearHistory m (monitorTick last d out now res).2 WriteResult.ok).2)
          ticks).2.file = [] := by
  have h1 : (monitorTick last d out now res).1 = readClipboard out := by
    simp only [monitorTick]
    rw [if_pos ⟨hnew, hX⟩]
  refine ⟨h1, loadHistory_clear _ _, ?_⟩
  intro ticks hticks
  rw [h1, monitorRun_same _ _ ticks hticks]
  exact ⟨rfl, loadHistory_clear m _⟩

theorem C15_witness :
    (readClipboard (some (str "X")) ≠ [] ∧ readClipboard (some (str "X")) ≠ []) ∧
    (monitorTick [] ⟨none, 0⟩ (some (str "X")) ⟨1, 10⟩ WriteResult.ok).1 =
      readClipboard (some (str "X")) :=
  ⟨⟨by decide, by decide⟩,
    (C15_clear_does_not_recapture [] ⟨none, 0⟩ (some (str "X")) ⟨1, 10⟩ WriteResult.ok
      NewClipboardManager (by decide) (by decide)).1⟩

/-! ## Entry ids -/

theorem takeDigits_decimal_dash (n : Nat) (rest : List Char) :
    Json.takeDigits 0 (decimal n ++ '-' :: rest) = (n, '-' :: rest) := by
  rw [takeDigits_append _ (decimal_isDigit n), digitsValue_decimal]
  simp [Json.takeDigits, Json.isDigit]

theorem leadingInt_formatInt (z : Int) (rest : List Char) :
    leadingInt (formatInt z ++ '-' :: rest) = z := by
  cases z with
  | ofNat n =>
    obtain ⟨c, t, hc, hd, _⟩ := decimal_head n
    have hneg : c ≠ '-' := by
      intro hcm
      rw [hcm] at hd
      exact absurd hd (by decide)
    have key := takeDigits_decimal_dash n rest
    simp only [formatInt]
    rw [hc] at key ⊢
    rw [List.cons_append] at key ⊢
    rw [leadingInt, if_neg hneg, key]
    rfl
  | negSucc n =>
    have key := takeDigits_decimal_dash (n + 1) rest
    simp only [formatInt, List.cons_append]
    rw [leadingInt, if_pos rfl, key]
    simp only
    rw [Int.negSucc_eq]
    omega

/-- The clock value an id was made from can be read off the id. -/
theorem leadingInt_newID (a : Int) (l : Nat) : leadingInt (chars (newID a l)) = a := by
  unfold newID
  rw [chars_utf8]
  exact leadingInt_formatInt a _

theorem runCalls_cons (d : Disk) (call : StoreCall) (rest : List StoreCall) :
    runCalls d (call :: rest) = runCalls (call.run d) rest := rfl

theorem runCalls_append (d : Disk) (calls later : List StoreCall) :
    runCalls d (calls ++ later) = runCalls (runCalls d calls) later := by
  unfold runCalls
  rw [List.foldl_append]

theorem born_append (calls later : List StoreCall) :
    ∀ d : Disk, born d (calls ++ later) = born d calls ++ born (runCalls d calls) later := by
  induction calls with
  | nil => intro d; rfl
  | cons call rest ih =>
    intro d
    rw [List.cons_append, born, born, ih, runCalls_cons, List.append_assoc]

theorem created_readings (d : Disk) (call : StoreCall) :
    (call.created d).map (fun it => leadingInt (chars it.ID)) = call.reading := by
  cases call with
  | save now res content =>
    simp only [StoreCall.created, StoreCall.reading]
    split
    · rfl
    · simp only [List.map_cons, List.map_nil, leadingInt_newID]
  | clear m res => rfl

/-- The clock values of the entries created by a sequence of calls are the
clock values the calls read. -/
theorem born_readings (calls : List StoreCall) :
    ∀ d : Disk, (born d calls).map (fun it => leadingInt (chars it.ID)) = clockReadings calls := by
  induction calls with
  | nil => intro d; rfl
  | cons call rest ih =>
    intro d
    rw [born, List.map_append, created_readings, ih]
    rfl

theorem born_ids_nodup (d : Disk) (calls : List StoreCall)
    (h : (clockReadings calls).Pairwise (· < ·)) :
    ((born d calls).map (fun it => it.ID)).Nodup := by
  have hnd : (clockReadings calls).Nodup := h.imp (fun hab => ne_of_lt hab)
  rw [← born_readings calls d] at hnd
  have hcomp : (born d calls).map (fun it => leadingInt (chars it.ID)) =
      ((born d calls).map (fun it => it.ID)).map (fun s => leadingInt (chars s)) := by
    rw [List.map_map]
    rfl
  rw [hcomp] at hnd
  exact List.Nodup.of_map _ hnd

theorem run_sublist (d : Disk) (call : StoreCall) (B : List ClipboardItem)
    (h : (loadHistory d.file).Sublist B.reverse) :
    (loadHistory (call.run d).file).Sublist (B ++ call.created d).reverse := by
  rw [List.reverse_append]
  cases call with
  | save now res content =>
    simp only [StoreCall.run, StoreCall.created]
    by_cases hc : content = []
    · subst hc
      rw [saveClipboardItem_empty, if_pos rfl]
      exact h
    · rw [if_neg hc]
      rcases loadHistory_save_cases d now res content with h1 | h1 | h1
      · rw [h1]
        exact h.trans (List.sublist_append_right _ _)
      · rw [h1]
        exact List.nil_sublist _
      · rw [h1, loadHistory_save d now content hc]
        refine (List.take_sublist _ _).trans ?_
        show List.Sublist (_ :: _) (_ :: B.reverse)
        exact List.Sublist.cons₂ _ ((List.filter_sublist _).trans h)
  | clear m res =>
    simp only [StoreCall.run, StoreCall.created, List.reverse_nil, List.nil_append]
    rcases loadHistory_clear_cases m d res with h1 | h1
    · rw [h1]; exact h
    · rw [h1]; exact List.nil_sublist _

theorem runCalls_sublist (calls : List StoreCall) :
    ∀ (d : Disk) (B : List ClipboardItem), (loadHistory d.file).Sublist B.reverse →
      (loadHistory (runCalls d calls).file).Sublist (B ++ born d calls).reverse := by
  induction calls with
  | nil => intro d B h; simpa [runCalls, born] using h
  | cons call rest ih =>
    intro d B h
    rw [runCalls_cons, born, ← List.append_assoc]
    exact ih (call.run d) (B ++ call.created d) (run_sublist d call B h)

/-- The history after a sequence of calls from an empty history holds entries
created by those calls, most recent first. -/
theorem history_sublist_born (d : Disk) (calls : List StoreCall)
    (h0 : loadHistory d.file = []) :
    (loadHistory (runCalls d calls).file).Sublist (born d calls).reverse := by
  have := runCalls_sublist calls d [] (by rw [h0]; exact List.nil_sublist _)
  simpa using this

theorem eq_of_map_id_eq (B : List ClipboardItem)
    (hB : (B.map (fun it => it.ID)).Nodup) :
    ∀ (l1 l2 : List ClipboardItem), (∀ a ∈ l1, a ∈ B) → (∀ b ∈ l2, b ∈ B) →
      l1.map (fun it => it.ID) = l2.map (fun it => it.ID) → l1 = l2 := by
  have hinj : ∀ a ∈ B, ∀ b ∈ B, a.ID = b.ID → a = b := by
    intro a ha b hb hab
    exact List.inj_on_of_nodup_map hB ha hb hab
  intro l1
  induction l1 with
  | nil =>
    intro l2 _ _ h
    cases l2 with
    | nil => rfl
    | cons b l2 => simp at h
  | cons a l1 ih =>
    intro l2 h1 h2 h
    cases l2 with
    | nil => simp at h
    | cons b l2 =>
      simp only [List.map_cons, List.cons.injEq] at h
      have hab : a = b :=
        hinj a (h1 a (List.mem_cons_self _ _)) b (h2 b (List.mem_cons_self _ _)) h.1
      rw [hab, ih l2 (fun x hx => h1 x (List.mem_cons_of_mem _ hx))
        (fun x hx => h2 x (List.mem_cons_of_mem _ hx)) h.2]

/-- The disks reached by sequences of calls from an empty history are the
reachable disks. -/
theorem reachable_runCalls (calls : List StoreCall) :
    ∀ d : Disk, Reachable d → Reachable (runCalls d calls) := by
  induction calls with
  | nil => intro d h; exact h
  | cons call rest ih =>
    intro d h
    rw [runCalls_cons]
    apply ih
    cases call with
    | save now res content => exact Reachable.save d now res content h
    | clear m res => exact Reachable.clear m d res h

theorem reachable_exists_calls (d : Disk) (h : Reachable d) :
    ∃ d0 calls, loadHistory d0.file = [] ∧ d = runCalls d0 calls := by
  induction h with
  | empty d h0 => exact ⟨d, [], h0, rfl⟩
  | save d now res content _ ih =>
    obtain ⟨d0, calls, h0, hd⟩ := ih
    refine ⟨d0, calls ++ [StoreCall.save now res content], h0, ?_⟩
    rw [runCalls_append, ← hd]
    rfl
  | clear m d res _ ih =>
    obtain ⟨d0, calls, h0, hd⟩ := ih
    refine ⟨d0, calls ++ [StoreCall.clear m res], h0, ?_⟩
    rw [runCalls_append, ← hd]
    rfl

/-- C16. When the successive appends of an execution read strictly increasing
nanosecond clock values, the entries of the history reached from an empty
history have pairwise distinct ids, and a history reached later in the same
execution with the same id sequence is the same history. -/
theorem C16_ids_unique (d0 : Disk) (calls later : List StoreCall)
    (h0 : loadHistory d0.file = [])
    (hclock : (clockReadings (calls ++ later)).Pairwise (· < ·)) :
    Reachable (runCalls d0 calls) ∧
    ((loadHistory (runCalls d0 calls).file).map (fun it => it.ID)).Nodup ∧
    ((loadHistory (runCalls d0 calls).file).map (fun it => it.ID) =
        (loadHistory (runCalls d0 (calls ++ later)).file).map (fun it => it.ID) →
      loadHistory (runCalls d0 calls).file = loadHistory (runCalls d0 (calls ++ later)).file) := by
  have hB := born_ids_nodup d0 (calls ++ later) hclock
  have hsub2 := history_sublist_born d0 (calls ++ later) h0
  have hsub1 := history_sublist_born d0 calls h0
  have hmem1 : ∀ a ∈ loadHistory (runCalls d0 calls).file, a ∈ born d0 (calls ++ later) := by
    intro a ha
    rw [born_append]
    exact List.mem_append_left _ (List.mem_reverse.mp (hsub1.subset ha))
  have hmem2 : ∀ b ∈ loadHistory (runCalls d0 (calls ++ later)).file,
      b ∈ born d0 (calls ++ later) := by
    intro b hb
    exact List.mem_reverse.mp (hsub2.subset hb)
  refine ⟨reachable_runCalls calls d0 (Reachable.empty d0 h0), ?_, ?_⟩
  · have hpre : (clockReadings calls).Pairwise (· < ·) := by
      unfold clockReadings at hclock ⊢
      rw [List.flatMap_append] at hclock
      exact (List.pairwise_append.mp hclock).1
    have hB1 := born_ids_nodup d0 calls hpre
    have hrev : ((born d0 calls).reverse.map (fun it => it.ID)).Nodup := by
      rw [List.map_reverse]
      exact List.nodup_reverse.mpr hB1
    exact List.Nodup.sublist (List.Sublist.map _ hsub1) hrev
  · intro hids
    exact eq_of_map_id_eq _ hB _ _ hmem1 hmem2 hids

theorem C16_witness :
    (loadHistory (⟨none, 0⟩ : Disk).file = [] ∧
      (clockReadings
        ([StoreCall.save ⟨1, 10⟩ WriteResult.ok (str "A"),
            StoreCall.save ⟨2, 20⟩ WriteResult.ok (str "B")] ++
          [StoreCall.save ⟨3, 30⟩ WriteResult.ok (str "A")])).Pairwise (· < ·)) ∧
    ((loadHistory (runCalls ⟨none, 0⟩
      [StoreCall.save ⟨1, 10⟩ WriteResult.ok (str "A"),
        StoreCall.save ⟨2, 20⟩ WriteResult.ok (str "B")]).file).map
        (fun it => it.ID)).Nodup :=
  ⟨⟨rfl, by decide⟩,
    (C16_ids_unique ⟨none, 0⟩
      [StoreCall.save ⟨1, 10⟩ WriteResult.ok (str "A"),
        StoreCall.save ⟨2, 20⟩ WriteResult.ok (str "B")]
      [StoreCall.save ⟨3, 30⟩ WriteResult.ok (str "A")] rfl (by decide)).2.1⟩

end Cliphis
